import Mathlib

/-!
# Rebuild front end: block grouping, scope lookup and semantic parsing

A shallow embedding of

* `instance::lookup` (`src/src/instance.data/instance/ScopeLookup.h`),
* the block grouper `parser::block::parser` (`src/parser/block/block_parser.h`),
* the semantic parser `parser::Parser` (`src/src/parser.lib/parser/Parser.h`),

followed by the properties established about them.

Conventions of the embedding.

* A C++ `throw` becomes `Except.error` with the thrown text.
* A `while (true)` loop becomes a function that recurses on a fuel counter; running out of
  fuel is the separate fault `Fault.fuel`, so that it is never confused with a result.
* Dereferencing an exhausted cursor, indexing past the end of a vector and reading a variant
  alternative that is not held have no defined result in the source; the embedding reports
  them as `Fault.invalid_read`.
-/

set_option autoImplicit false

/-! ## Shared fault type -/

/-- Faults of the embedding that are not results of the program. -/
inductive Fault where
  /-- the fuel counter of a loop ran out -/
  | fuel
  /-- an exhausted cursor was dereferenced, a vector was indexed past its end, or a variant
  alternative was read that is not held -/
  | invalid_read
  deriving DecidableEq, Repr

/-! ## Scope and `instance::lookup`

The C++ namespace `instance` is the Lean namespace `Instance`. -/

namespace Instance

abbrev Name := String

/-- Side of a parameter (`instance::ParameterSide`). -/
inductive ParameterSide where
  | left
  | right
  | result
  deriving DecidableEq, Repr

/-- Parser selected by a type (`instance::Parser`). -/
inductive Parser where
  | Expression
  | SingleToken
  | IdTypeValue
  deriving DecidableEq, Repr

/-- Modelled from the spec: `instance::Type`, here `InstanceType` (`instance/Type.h` is not part of the sources at
hand). A type is a registered object; `addr` stands for its address, `parser` is the
parser-hint the semantic parser reads through `concrete->parser`. -/
structure InstanceType where
  addr : Nat
  parser : Parser
  deriving DecidableEq, Repr

end Instance

namespace parser

/-- Modelled from the spec: `parser::TypeExpression` (`parser/Type.h` is not part of the sources
at hand): `Auto`, `Pointer { target }`, `TypeInstance { concrete }`. -/
inductive TypeExpression where
  | Auto
  | Pointer (target : TypeExpression)
  | TypeInstance (concrete : Instance.InstanceType)
  deriving DecidableEq, Repr

end parser

namespace Instance

/-- Modelled from the spec: `instance::Parameter` with `typed.name`, `typed.type`, `side` and the
`optional` flag. -/
structure Parameter where
  name : Name
  type : parser.TypeExpression
  side : ParameterSide
  optional : Bool
  deriving DecidableEq, Repr

/-- Modelled from the spec: `instance::Function` with its ordered parameters and the
`compiletime` flag. -/
structure Function where
  name : Name
  compiletime : Bool
  parameters : List Parameter
  deriving DecidableEq, Repr

/-- Modelled from the spec: `instance::Variable`. -/
structure Variable where
  name : Name
  type : parser.TypeExpression
  deriving DecidableEq, Repr

/-- Modelled from the spec: the scope entry (`instance::Entry`, called `instance::Node` in the
parser), the sum of `Function`, `Parameter`, `Variable`, `Type` and `Module`. A module owns its
inner scope `locals`; a scope is kept as the list of its bindings in insertion order. -/
inductive Entry where
  | function (f : Function)
  | parameter (p : Parameter)
  | variable (v : Variable)
  | type (t : InstanceType)
  | module (name : Name) (locals : List (Name × Entry))

/-- Modelled from the spec: a `Scope` maps a name to a multi-bind range of entries. -/
abbrev Scope := List (Name × Entry)

/-- Modelled from the spec: `scope[name]`, the range of all entries bound to `name`. -/
def Scope.range (scope : Scope) (name : Name) : List Entry :=
  (scope.filter (fun b => b.1 == name)).map Prod.snd

/-- Modelled from the spec: `range.single()`, the range holds exactly one entry. -/
def single (range : List Entry) : Bool :=
  range.length == 1

/-- The call `std::find(it, end, '.')` on the rest of the name starting at `it`: the characters
before the first dot, and the rest starting at that dot (empty when `end` is reached). -/
def find_dot : List Char → List Char × List Char
  | [] => ([], [])
  | c :: cs => if c = '.' then ([], c :: cs) else ((find_dot cs).1.cons c, (find_dot cs).2)

/-- The visit of `range.begin()->second` in the loop of `lookup`: a module hands out the range of
its locals, every other entry throws. -/
def visit_module (range : List Entry) (name : Name) : Except (Fault ⊕ String) (List Entry) :=
  match range with
  | Entry.module _ locals :: _ => .ok (Scope.range locals name)
  | _ :: _ => .error (.inr "not a module!")
  | [] => .error (.inl Fault.invalid_read)

/-- Modelled from the spec: `range.frontValue()`, the first entry of the range. -/
def front_value (range : List Entry) : Except (Fault ⊕ String) Entry :=
  match range with
  | e :: _ => .ok e
  | [] => .error (.inl Fault.invalid_read)

/-- The loop `while (it2 != end)` of `lookup` followed by `return range.frontValue()`; `it2` is
the rest of the name from `it2` on. -/
def lookup_loop : Nat → List Char → List Entry → Except (Fault ⊕ String) Entry
  | 0, it2, range =>
    if it2.isEmpty then front_value range else .error (.inl Fault.fuel)
  | fuel + 1, it2, range =>
    if it2.isEmpty then front_value range
    else
      -- it = it2; it2 = std::find(it, end, '.');
      match visit_module range (String.mk (find_dot it2).1) with
      | .error e => .error e
      | .ok range =>
        if !single range then .error (.inr "nested name not found")
        else lookup_loop fuel (find_dot it2).2 range

/-- The function `instance::lookup(scope, name)`. -/
def lookup (fuel : Nat) (scope : Scope) (name : String) : Except (Fault ⊕ String) Entry :=
  let it := name.data
  let it2 := (find_dot it).2
  let range := Scope.range scope (String.mk (find_dot it).1)
  if !single range then .error (.inr "name not found")
  else lookup_loop fuel it2 range

end Instance

/-! ## Block grouper (`parser::block::parser`) -/

namespace parser.block

abbrev column_t := Nat

/-- A position in the source text. -/
structure position_t where
  line : Nat
  column : column_t
  deriving DecidableEq, Repr

/-- The source range every token carries (`tok.range`). -/
structure text_range where
  begin_position : position_t
  end_position : position_t
  text : String
  deriving DecidableEq, Repr

/-- Modelled from the spec: the payload of the filtered-token kinds that are neither an
indentation marker nor a semicolon (`filter/filter_token.h` is not part of the sources at
hand). -/
inductive leaf_data where
  | comma_separator
  | colon_separator
  | bracket_open
  | bracket_close
  | identifier_literal (left_separated right_separated : Bool)
  | operator_literal (left_separated right_separated : Bool)
  | string_literal (text : String)
  | number_literal (integer_part : String) (radix : Nat)
  | comment_literal
  | white_space_separator
  deriving DecidableEq, Repr

/-- Modelled from the spec: the payload of a filtered token (`filter::token::data`). -/
inductive filter_data where
  | new_line_indentation
  | block_start_indentation
  | block_end_indentation
  | semicolon_separator
  | leaf (d : leaf_data)
  deriving DecidableEq, Repr

/-- A filtered token (`filter::token`): source range and payload. -/
structure filter_token where
  range : text_range
  data : filter_data
  deriving DecidableEq, Repr

mutual
/-- A token of the block tree (`block::token`). `unset` is the default-constructed
`group_token{}`, the value `translate` hands back for the four marker kinds. -/
inductive token where
  | unset
  | leaf (range : text_range) (d : leaf_data)
  | block (range : text_range) (b : block_literal)
/-- A block literal (`block::block_literal`): its lines, each line a sequence of tokens. -/
inductive block_literal where
  | mk (lines : List (List token))
end

abbrev line := List token
abbrev token_line := line

/-- The field `block.lines`. -/
def block_literal.lines : block_literal → List line
  | .mk ls => ls

/-- The value `block_literal{}`. -/
def block_literal.empty : block_literal := .mk []

/-- The remaining tokens of the `co_enumerator<filter_token>`: the head is `*input`, the cursor
is valid (`bool(input)`) when the list is not empty, `input++` drops the head. -/
abbrev input_t := List filter_token

/-- The test `one_of<new_line_indentation, block_start_indentation, block_end_indentation,
semicolon_separator>()`. -/
def filter_token.is_marker (tok : filter_token) : Bool :=
  match tok.data with
  | .leaf _ => false
  | _ => true

/-- The method `state_t::get_indent_column`. -/
def get_indent_column (tok : filter_token) : column_t :=
  tok.range.end_position.column

/-- The function `translate`. -/
def translate (tok : filter_token) : token :=
  match tok.data with
  | .new_line_indentation => token.unset
  | .block_start_indentation => token.unset
  | .block_end_indentation => token.unset
  | .semicolon_separator => token.unset
  | .leaf d => token.leaf tok.range d

/-- The function `extract_line_tokens`: the result is the grown line and the cursor. -/
def extract_line_tokens : line → input_t → Except Fault (line × input_t)
  | _, [] => .error Fault.invalid_read
  | ln, tok :: rest =>
    if tok.is_marker then .ok (ln, tok :: rest)
    else if rest.isEmpty then .ok (ln ++ [translate tok], [])
    else extract_line_tokens (ln ++ [translate tok]) rest

mutual
/-- The outer `while (true)` of `parse_line` (source lines 90-92). -/
def parse_line_outer : Nat → column_t → line → Bool → input_t → Except Fault (line × input_t)
  | 0, _, _, _, _ => .error Fault.fuel
  | fuel + 1, parent_block_column, ln, expect_end, input =>
    match extract_line_tokens ln input with
    | .error e => .error e
    | .ok (ln, input) =>
      if input.isEmpty then .ok (ln, input)
      else parse_line_inner fuel parent_block_column ln expect_end input
  termination_by structural fuel => fuel
/-- The inner `while (true)` of `parse_line` (source lines 94-168). -/
def parse_line_inner : Nat → column_t → line → Bool → input_t → Except Fault (line × input_t)
  | 0, _, _, _, _ => .error Fault.fuel
  | fuel + 1, parent_block_column, ln, expect_end, input =>
    match input with
    | [] => .error Fault.invalid_read
    | tok :: rest =>
      match tok.data with
      | .semicolon_separator => .ok (ln, rest)
      | .new_line_indentation =>
        let next_column := get_indent_column tok
        if next_column < parent_block_column then .ok (ln, tok :: rest)
        else if next_column = parent_block_column && !expect_end then .ok (ln, tok :: rest)
        else parse_line_continue fuel parent_block_column ln expect_end (tok :: rest)
      | .block_end_indentation =>
        let next_column := get_indent_column tok
        if next_column < parent_block_column then .ok (ln, tok :: rest)
        else if next_column = parent_block_column then .ok (ln, rest)
        else if rest.isEmpty then .ok (ln, rest)
        else parse_line_inner fuel parent_block_column ln expect_end rest
      | .block_start_indentation =>
        let next_column := get_indent_column tok
        if next_column < parent_block_column then
          .ok (ln ++ [token.block tok.range block_literal.empty], tok :: rest)
        else if next_column = parent_block_column then
          if rest.isEmpty then .ok (ln ++ [token.block tok.range block_literal.empty], rest)
          else
            parse_line_inner fuel parent_block_column
              (ln ++ [token.block tok.range block_literal.empty]) true rest
        else
          match parse_block_skip fuel next_column [] (tok :: rest) with
          | .error e => .error e
          | .ok (lines, input) =>
            parse_line_inner fuel parent_block_column
              (ln ++ [token.block tok.range (block_literal.mk lines)]) true input
      | .leaf _ => parse_line_outer fuel parent_block_column ln expect_end (tok :: rest)
  termination_by structural fuel => fuel
/-- The continuation loop of `parse_line` (source lines 114-124); the head of the cursor is the
`new_line_indentation` that started the continuation, or the one met at line 119. -/
def parse_line_continue : Nat → column_t → line → Bool → input_t → Except Fault (line × input_t)
  | 0, _, _, _, _ => .error Fault.fuel
  | fuel + 1, parent_block_column, ln, expect_end, input =>
    -- if (!input++) return line;
    if input.tail.isEmpty then .ok (ln, input.tail)
    else
      match extract_line_tokens ln input.tail with
      | .error e => .error e
      | .ok (ln, input) =>
        match input with
        | [] => .ok (ln, input)
        | tok :: rest =>
          match tok.data with
          | .new_line_indentation =>
            parse_line_continue fuel parent_block_column ln expect_end (tok :: rest)
          | _ => parse_line_inner fuel parent_block_column ln expect_end (tok :: rest)
  termination_by structural fuel => fuel
/-- The inner `while (true)` of `parse_block` (source lines 176-198) followed by the rest of the
body of the outer loop (lines 199-201); `lines` is `block.lines`. -/
def parse_block_skip : Nat → column_t → List line → input_t → Except Fault (List line × input_t)
  | 0, _, _, _ => .error Fault.fuel
  | fuel + 1, block_column, lines, input =>
    match input with
    | [] => .error Fault.invalid_read
    | tok :: rest =>
      match tok.data with
      | .semicolon_separator =>
        if rest.isEmpty then .ok (lines, rest)
        else parse_block_skip fuel block_column lines rest
      | .block_end_indentation =>
        let indent := get_indent_column tok
        if indent < block_column then .ok (lines, tok :: rest)
        else if rest.isEmpty then .ok (lines, rest)
        else parse_block_skip fuel block_column lines rest
      | .block_start_indentation | .new_line_indentation =>
        let indent := get_indent_column tok
        if indent < block_column then .ok (lines, tok :: rest)
        else if rest.isEmpty then .ok (lines, rest)
        else parse_block_skip fuel block_column lines rest
      | .leaf _ =>
        match parse_line_outer fuel block_column [] false (tok :: rest) with
        | .error e => .error e
        | .ok (ln, input) =>
          if input.isEmpty then .ok (lines ++ [ln], input)
          else parse_block_skip fuel block_column (lines ++ [ln]) input
  termination_by structural fuel => fuel
end

/-- The function `parse_line`. -/
def parse_line (fuel : Nat) (input : input_t) (parent_block_column : column_t) :
    Except Fault (line × input_t) :=
  parse_line_outer fuel parent_block_column [] false input

/-- The function `parse_block`. -/
def parse_block (fuel : Nat) (input : input_t) (block_column : column_t) :
    Except Fault (block_literal × input_t) :=
  match parse_block_skip fuel block_column [] input with
  | .error e => .error e
  | .ok (lines, input) => .ok (block_literal.mk lines, input)

/-- The function `parser::parse`. The enumerator starts in front of its first token, so the
first `input++` makes the head of the list current. -/
def parse (fuel : Nat) (input : input_t) : Except Fault (block_literal × input_t) :=
  match input with
  | [] => .ok (block_literal.empty, [])
  | tok :: rest =>
    match tok.data with
    | .new_line_indentation =>
      if rest.isEmpty then .ok (block_literal.empty, rest)
      else parse_block fuel rest (get_indent_column tok)
    | _ => parse_block fuel (tok :: rest) 0

end parser.block

/-! ## Observations on block trees -/

namespace parser.block

mutual
/-- All tokens of a token that are not block literals, depth first. -/
def token.flatten : token → List token
  | .unset => [token.unset]
  | .leaf range d => [token.leaf range d]
  | .block _ b => b.flatten
/-- All tokens of a block literal that are not block literals, depth first in line order. -/
def block_literal.flatten : block_literal → List token
  | .mk ls => flatten_lines ls
/-- The tokens of a sequence of lines, depth first. -/
def flatten_lines : List (List token) → List token
  | [] => []
  | l :: ls => flatten_line l ++ flatten_lines ls
/-- The tokens of a line, depth first. -/
def flatten_line : List token → List token
  | [] => []
  | t :: ts => t.flatten ++ flatten_line ts
end

/-- The copies of the tokens of `input` that are no markers, in input order. -/
def leaf_tokens (input : input_t) : List token :=
  (input.filter (fun tok => !tok.is_marker)).map translate

/-- Consuming a part of `input` up to `rest` has grown the token sequence `before` to `after`
by exactly the copies of the consumed tokens that are no markers. -/
def Consumes (before : List token) (input : input_t) (after : List token) (rest : input_t) :
    Prop :=
  ∃ consumed, input = consumed ++ rest ∧ after = before ++ leaf_tokens consumed

mutual
/-- No marker copy at any depth: the token is a copied leaf token or a block literal whose lines
hold only such tokens. -/
def token.marker_free : token → Bool
  | .unset => false
  | .leaf _ _ => true
  | .block _ b => b.marker_free
/-- No line of the block literal, at any depth, holds a marker copy. -/
def block_literal.marker_free : block_literal → Bool
  | .mk ls => marker_free_lines ls
/-- No line of the sequence, at any depth, holds a marker copy. -/
def marker_free_lines : List (List token) → Bool
  | [] => true
  | l :: ls => marker_free_line l && marker_free_lines ls
/-- The line holds no marker copy at any depth. -/
def marker_free_line : List token → Bool
  | [] => true
  | t :: ts => t.marker_free && marker_free_line ts
end

/-- A token that is the copy of a filtered token which is no marker. -/
def token.is_leaf_copy : token → Bool
  | .leaf _ _ => true
  | _ => false

end parser.block

namespace parser.block

/-- The copy of a filtered token that is no marker: the same source range and the same payload;
a marker has no copy. -/
def leaf_copy (tok : filter_token) : Option token :=
  match tok.data with
  | .leaf d => some (token.leaf tok.range d)
  | _ => none

/-- The builder `block_start(c)` of `block_token_builder.h`. -/
def block_start (c : column_t) : filter_token :=
  ⟨⟨⟨0, 0⟩, ⟨0, c⟩, ""⟩, .block_start_indentation⟩

/-- The builder `block_end(c)` of `block_token_builder.h`. -/
def block_end (c : column_t) : filter_token :=
  ⟨⟨⟨0, 0⟩, ⟨0, c⟩, ""⟩, .block_end_indentation⟩

/-- The builder `new_line(c)` of `block_token_builder.h`. -/
def new_line (c : column_t) : filter_token :=
  ⟨⟨⟨0, 0⟩, ⟨0, c⟩, ""⟩, .new_line_indentation⟩

/-- A semicolon token with an empty range. -/
def semicolon : filter_token :=
  ⟨⟨⟨0, 0⟩, ⟨0, 0⟩, ""⟩, .semicolon_separator⟩

/-- An identifier token of the filtered stream with the given text. -/
def filter_id (text : String) : filter_token :=
  ⟨⟨⟨0, 0⟩, ⟨0, 0⟩, text⟩, .leaf (.identifier_literal false false)⟩

/-- The builder `id(text)` of `block_token_builder.h`: an identifier token of the block tree. -/
def id (text : String) : token :=
  token.leaf ⟨⟨0, 0⟩, ⟨0, 0⟩, text⟩ (.identifier_literal false false)

end parser.block

namespace Instance

/-- A scope that binds `a` to one module whose locals bind `b` to one variable. -/
def dotted_scope : Scope :=
  [("a", Entry.module "a" [("b", Entry.variable ⟨"b", parser.TypeExpression.Auto⟩)])]

end Instance

/-! ## Tokens of the nested block tree (`nesting`), input of the semantic parser -/

namespace nesting

mutual
/-- Modelled from the spec: the block token read by the semantic parser (`nesting/Token.h` is not
part of the sources at hand): the leaf kinds of the filtered stream or a nested block literal.
Identifiers and operators carry their text `input`. -/
inductive Token where
  | CommaSeparator
  | ColonSeparator
  | BracketOpen
  | BracketClose
  | IdentifierLiteral (input : String)
  | OperatorLiteral (input : String)
  | StringLiteral (text : String)
  | NumberLiteral (text : String)
  | CommentLiteral
  | WhiteSpaceSeparator
  | BlockLiteral (b : BlockLiteral)
/-- Modelled from the spec: a block literal, its lines (`value.lines`) and the flag
`isTainted`. -/
inductive BlockLiteral where
  | mk (lines : List BlockLine) (isTainted : Bool)
/-- Modelled from the spec: a line, its tokens and whether grouping saw errors on it
(`hasErrors()`). -/
inductive BlockLine where
  | mk (tokens : List Token) (hasErrors : Bool)
end

/-- The field `value.lines`. -/
def BlockLiteral.lines : BlockLiteral → List BlockLine
  | .mk lines _ => lines

/-- The field `isTainted`. -/
def BlockLiteral.isTainted : BlockLiteral → Bool
  | .mk _ isTainted => isTainted

/-- The tokens of a line. -/
def BlockLine.tokens : BlockLine → List Token
  | .mk tokens _ => tokens

/-- The method `hasErrors()`. -/
def BlockLine.hasErrors : BlockLine → Bool
  | .mk _ hasErrors => hasErrors

end nesting

namespace parser

open Instance (Name Entry Scope Function Parameter Variable InstanceType ParameterSide)

/-- Modelled from the spec: the cursor `BlockLineView` over the tokens of one line (`LineView.h`
is not part of the sources at hand): the line it refers to and the index of the current token.
A default-constructed view refers to no tokens. -/
structure BlockLineView where
  line : List nesting.Token
  index : Nat

namespace BlockLineView

/-- The value `BlockLineView{}`. -/
def empty : BlockLineView := ⟨[], 0⟩

/-- The constructor `BlockLineView(&line)`. -/
def ofLine (line : nesting.BlockLine) : BlockLineView := ⟨line.tokens, 0⟩

/-- The conversion to `bool`: a current token exists. -/
def valid (it : BlockLineView) : Bool := decide (it.index < it.line.length)

/-- The method `current()`; reading past the end has no result. -/
def current (it : BlockLineView) : Except Fault nesting.Token :=
  match it.line.get? it.index with
  | some t => .ok t
  | none => .error Fault.invalid_read

/-- The method `hasNext()`. -/
def hasNext (it : BlockLineView) : Bool := decide (it.index + 1 < it.line.length)

/-- The method `next()`; reading past the end has no result. -/
def next (it : BlockLineView) : Except Fault nesting.Token :=
  match it.line.get? (it.index + 1) with
  | some t => .ok t
  | none => .error Fault.invalid_read

/-- The increment `++it`. -/
def advance (it : BlockLineView) : BlockLineView := ⟨it.line, it.index + 1⟩

end BlockLineView

mutual
/-- The AST node (`parser::Node`), a closed sum. References into the scope are kept by value. -/
inductive Node where
  | Block (nodes : List Node)
  | Call (function : Function) (arguments : List ArgumentAssignment)
  | IntrinsicCall
  | ParameterReference (parameter : Parameter)
  | VariableReference (var : Variable)
  | VariableInit (var : Variable) (nodes : List Node)
  | ModuleReference (name : Name) (locals : Scope)
  | NameTypeValueReference
  | NameTypeValueTuple (tuple : List NameTypeValue)
  | Value (data : ValueData) (type : TypeExpression)
/-- The assignment `ArgumentAssignment { parameter, values }`. -/
inductive ArgumentAssignment where
  | mk (parameter : Parameter) (values : List Node)
/-- The triple `NameTypeValue { name, type, value }`, each field optional. -/
inductive NameTypeValue where
  | mk (name : Option Name) (type : Option TypeExpression) (value : Option Node)
/-- The data of a `Value`: the literal token it was made of (`ValueType{token}`), or a
`NameTypeValue`. -/
inductive ValueData where
  | IdentifierLiteral (input : String)
  | OperatorLiteral (input : String)
  | StringLiteral (text : String)
  | NumberLiteral (text : String)
  | BlockLiteral (b : nesting.BlockLiteral)
  | NameTypeValue (typed : NameTypeValue)
end

abbrev OptNode := Option Node
abbrev OptNameTypeValue := Option NameTypeValue
abbrev OptTypeExpression := Option TypeExpression
abbrev ArgumentAssignments := List ArgumentAssignment

/-- The AST block `Block { nodes }` returned by `Parser::parse`. -/
structure Block where
  nodes : List Node

namespace NameTypeValue

/-- The field `name`. -/
def name : NameTypeValue → Option Name
  | .mk n _ _ => n

/-- The field `type`. -/
def type : NameTypeValue → Option TypeExpression
  | .mk _ t _ => t

/-- The field `value`. -/
def value : NameTypeValue → Option Node
  | .mk _ _ v => v

/-- The value `NameTypeValue{}`. -/
def empty : NameTypeValue := .mk none none none

/-- Modelled from the spec: `onlyValue()`, the entry has a value and neither name nor type. -/
def onlyValue (typed : NameTypeValue) : Bool :=
  typed.name.isNone && typed.type.isNone && typed.value.isSome

end NameTypeValue

/-- The AST value kinds that have a registered intrinsic type (`meta::Type<T>`). -/
inductive IntrinsicKind where
  | IdentifierLiteral
  | OperatorLiteral
  | StringLiteral
  | NumberLiteral
  | BlockLiteral
  | NameTypeValue
  deriving DecidableEq, Repr

/-- Modelled from the spec: the operations of the context (`Context.h` is not part of the sources
at hand). `σ` is the state of the context, the scopes that compile-time calls may change.
`lookup` is the view of the active scope chain, `intrinsicType` the registered type of an AST
value kind, `runCall` the synchronous evaluation of a compile-time call, `reportLineErrors` the
report of the errors of a line. -/
structure ContextApi (σ : Type) where
  lookup : σ → String → List Entry
  intrinsicType : IntrinsicKind → InstanceType
  runCall : σ → Function → List ArgumentAssignment → OptNode × σ
  reportLineErrors : σ → nesting.BlockLine → σ

/-- The enum `ParseOptions`. -/
inductive ParseOptions where
  | continue_single
  | finish_single
  deriving DecidableEq, Repr

end parser

namespace Instance

/-- Modelled from the spec: `Function::leftParameters()`, the projection of the parameters on
the left side, in order. -/
def Function.leftParameters (f : Function) : List Parameter :=
  f.parameters.filter (fun p => p.side == ParameterSide.left)

/-- Modelled from the spec: `Function::rightParameters()`, the projection of the parameters on
the right side, in order. -/
def Function.rightParameters (f : Function) : List Parameter :=
  f.parameters.filter (fun p => p.side == ParameterSide.right)

/-- Modelled from the spec: `Function::lookupParameter(name)`. -/
def Function.lookupParameter (f : Function) (name : Name) : Option Parameter :=
  f.parameters.find? (fun p => p.name == name)

end Instance

/-! ## Semantic parser (`parser::Parser`) -/

namespace parser

open Instance (Name Entry Scope Function Parameter Variable InstanceType ParameterSide)

/-- The token under the cursor, if any: `it ? some(it.current()) : none`. -/
def BlockLineView.peek (it : BlockLineView) : Option nesting.Token :=
  it.line.get? it.index

namespace Parser

/-- The function `parseOptionalComma`. -/
def parseOptionalComma (it : BlockLineView) : ParseOptions × BlockLineView :=
  match it.peek with
  | none => (ParseOptions.finish_single, it)
  | some nesting.Token.CommaSeparator =>
    -- skip optional comma
    match it.advance.peek with
    | none => (ParseOptions.finish_single, it.advance)
    | some nesting.Token.BracketClose => (ParseOptions.finish_single, it.advance)
    | some _ => (ParseOptions.continue_single, it.advance)
  | some nesting.Token.BracketClose => (ParseOptions.finish_single, it)
  | some _ => (ParseOptions.continue_single, it)

/-- The function `isAssignment`. -/
def isAssignment (t : nesting.Token) : Bool :=
  match t with
  | nesting.Token.OperatorLiteral input => input == "="
  | _ => false

/-- The function `isColon`. -/
def isColon (t : nesting.Token) : Bool :=
  match t with
  | nesting.Token.ColonSeparator => true
  | _ => false

/-- The function `canImplicitConvertToType`. -/
def canImplicitConvertToType (_node : Node) (_type : TypeExpression) : Bool :=
  true

/-- The function `makeTokenValue<ValueType>`: the value holding the token, typed with the
intrinsic type registered for `ValueType`. -/
def makeTokenValue {σ : Type} (context : ContextApi σ) (kind : IntrinsicKind) (data : ValueData) :
    Node :=
  Node.Value data (TypeExpression.TypeInstance (context.intrinsicType kind))

/-- The function `lookupIdentifier`: the looked-up range and the (possibly cleared) result. -/
def lookupIdentifier {σ : Type} (context : ContextApi σ) (s : σ) (id : String) (result : OptNode) :
    List Entry × OptNode :=
  match result with
  | some (Node.ModuleReference _ locals) => (Scope.range locals id, none)
  | _ => (context.lookup s id, result)

/-- The function `parseTypeInstance`. Reading a `Type` out of an entry that holds none has no
result. -/
def parseTypeInstance (instance_ : Entry) (it : BlockLineView) :
    Except Fault (OptTypeExpression × BlockLineView) :=
  match instance_ with
  | Entry.variable _ => .ok (none, it)
  | Entry.parameter _ => .ok (none, it)
  | Entry.function _ => .ok (none, it)
  | Entry.type _ => .ok (none, it)
  | Entry.module _ locals =>
    let typeRange := Scope.range locals "type"
    if Instance.single typeRange then
      match typeRange with
      | Entry.type type :: _ => .ok (some (TypeExpression.TypeInstance type), it.advance)
      | _ => .error Fault.invalid_read
    else .ok (none, it.advance)

/-- The function `parseTypeExpression`. -/
def parseTypeExpression {σ : Type} (context : ContextApi σ) (s : σ) (it : BlockLineView) :
    Except Fault (OptTypeExpression × BlockLineView) :=
  match it.peek with
  | none => .error Fault.invalid_read
  | some (nesting.Token.IdentifierLiteral name) =>
    let range := context.lookup s name
    if Instance.single range then
      match range with
      | front :: _ => parseTypeInstance front it
      | [] => .error Fault.invalid_read
    else .ok (none, it)
  | some _ => .ok (none, it)

/-- The function `parseSingleToken`. -/
def parseSingleToken {σ : Type} (context : ContextApi σ) (it : BlockLineView) :
    Except Fault (OptNode × BlockLineView) :=
  match it.peek with
  | none => .error Fault.invalid_read
  | some (nesting.Token.BlockLiteral b) =>
    .ok (some (makeTokenValue context IntrinsicKind.BlockLiteral (ValueData.BlockLiteral b)),
      it.advance)
  | some (nesting.Token.StringLiteral text) =>
    .ok (some (makeTokenValue context IntrinsicKind.StringLiteral (ValueData.StringLiteral text)),
      it.advance)
  | some (nesting.Token.NumberLiteral text) =>
    .ok (some (makeTokenValue context IntrinsicKind.NumberLiteral (ValueData.NumberLiteral text)),
      it.advance)
  | some (nesting.Token.IdentifierLiteral input) =>
    .ok (some (makeTokenValue context IntrinsicKind.IdentifierLiteral
      (ValueData.IdentifierLiteral input)), it.advance)
  | some (nesting.Token.OperatorLiteral input) =>
    .ok (some (makeTokenValue context IntrinsicKind.OperatorLiteral
      (ValueData.OperatorLiteral input)), it.advance)
  | some _ => .ok (none, it)

/-- The function `getParserForType`. -/
def getParserForType (type : TypeExpression) : Instance.Parser :=
  match type with
  | TypeExpression.Pointer target =>
    match target with
    | TypeExpression.TypeInstance concrete => concrete.parser
    | _ => Instance.Parser.Expression
  | _ => Instance.Parser.Expression

/-- The function `isTyped`. -/
def isTyped {σ : Type} (context : ContextApi σ) (t : TypeExpression) : Bool :=
  match t with
  | TypeExpression.TypeInstance concrete =>
    concrete == context.intrinsicType IntrinsicKind.NameTypeValue
  | _ => false

/-- The function `isBlockLiteral`. -/
def isBlockLiteral {σ : Type} (context : ContextApi σ) (t : TypeExpression) : Bool :=
  match t with
  | TypeExpression.TypeInstance concrete =>
    concrete == context.intrinsicType IntrinsicKind.BlockLiteral
  | _ => false

/-- The overload `isDirectlyExecutable(const TypeExpression&)`. -/
def isDirectlyExecutableType (expr : TypeExpression) : Bool :=
  match expr with
  | TypeExpression.Auto => false
  | _ => true

mutual
/-- The overload `isDirectlyExecutable(const Node&)`. -/
def isDirectlyExecutableNode : Node → Bool
  | Node.Block _ => false
  | Node.Call function arguments =>
    if !function.compiletime then false else isDirectlyExecutableArguments arguments
  | Node.IntrinsicCall => false
  | Node.ParameterReference _ => false
  | Node.VariableReference _ => false
  | Node.VariableInit _ _ => false
  | Node.ModuleReference _ _ => false
  | Node.NameTypeValueReference => false
  | Node.NameTypeValueTuple tuple => isDirectlyExecutableTuple tuple
  | Node.Value _ _ => true
/-- The loop over `call.arguments` in `isDirectlyExecutable(const Call&)`. -/
def isDirectlyExecutableArguments : List ArgumentAssignment → Bool
  | [] => true
  | ArgumentAssignment.mk _ values :: rest =>
    if !isDirectlyExecutableNodes values then false else isDirectlyExecutableArguments rest
/-- The loop over `arg.values` in `isDirectlyExecutable(const Call&)`. -/
def isDirectlyExecutableNodes : List Node → Bool
  | [] => true
  | node :: rest =>
    if !isDirectlyExecutableNode node then false else isDirectlyExecutableNodes rest
/-- The loop over `tuple.tuple` in `isDirectlyExecutable(const Node&)`. -/
def isDirectlyExecutableTuple : List NameTypeValue → Bool
  | [] => true
  | typed :: rest =>
    if !isDirectlyExecutableTyped typed then false else isDirectlyExecutableTuple rest
/-- The overload `isDirectlyExecutable(const NameTypeValue&)`. -/
def isDirectlyExecutableTyped : NameTypeValue → Bool
  | NameTypeValue.mk _ type none =>
    match type with
    | some t => isDirectlyExecutableType t
    | none => true
  | NameTypeValue.mk _ type (some value) =>
    if !isDirectlyExecutableNode value then false
    else
      match type with
      | some t => isDirectlyExecutableType t
      | none => true
end

/-- The overload `isDirectlyExecutable(const Call&)`. -/
def isDirectlyExecutable (function : Function) (arguments : ArgumentAssignments) : Bool :=
  if !function.compiletime then false else isDirectlyExecutableArguments arguments

/-- The function `buildCallNode`. -/
def buildCallNode {σ : Type} (context : ContextApi σ) (s : σ) (function : Function)
    (arguments : ArgumentAssignments) : OptNode × σ :=
  if isDirectlyExecutable function arguments then context.runCall s function arguments
  else (some (Node.Call function arguments), s)

/-- The struct `OverloadSet::Overload`. -/
structure Overload where
  active : Bool
  complete : Bool
  hasBlocks : Bool
  function : Function
  it : BlockLineView
  rightArgs : ArgumentAssignments
  nextArg : Nat

/-- The constructor `Overload(const Function&)`. -/
def Overload.ofFunction (function : Function) : Overload :=
  { active := !function.parameters.isEmpty
    complete := function.parameters.isEmpty
    hasBlocks := false
    function := function
    it := BlockLineView.empty
    rightArgs := []
    nextArg := 0 }

/-- The loop of `Overload::retireLeft` over the fields of the left tuple, with the counters `o`
and `t`, followed by the count check. -/
def Overload.retireLeftLoop (ov : Overload) (la : List Parameter) :
    List NameTypeValue → Nat → Nat → Overload
  | [], o, t => if o + t == la.length then ov else { ov with active := false }
  | typed :: rest, o, t =>
    match typed.value with
    | none => { ov with active := false }
    | some value =>
      match typed.name with
      | some name =>
        match ov.function.lookupParameter name with
        | some param =>
          if param.side == ParameterSide.left && canImplicitConvertToType value param.type then
            Overload.retireLeftLoop ov la rest o (t + 1)
          else { ov with active := false }
        | none => { ov with active := false }
      | none =>
        match la.get? o with
        | some param =>
          if param.side == ParameterSide.left && canImplicitConvertToType value param.type then
            Overload.retireLeftLoop ov la rest (o + 1) t
          else { ov with active := false }
        | none => { ov with active := false }

/-- The method `Overload::retireLeft`. -/
def Overload.retireLeft (ov : Overload) (left : List NameTypeValue) : Overload :=
  Overload.retireLeftLoop ov ov.function.leftParameters left 0 0

/-- The method `Overload::param`; an index past the right parameters has no result. -/
def Overload.param (ov : Overload) : Except Fault Parameter :=
  match ov.function.rightParameters.get? ov.nextArg with
  | some p => .ok p
  | none => .error Fault.invalid_read

/-- The struct `OverloadSet`. -/
structure OverloadSet where
  vec : List Overload
  activeCount : Nat

namespace OverloadSet

/-- The constructor `OverloadSet(const Function&)`. -/
def ofFunction (fun_ : Function) : OverloadSet :=
  { vec := [Overload.ofFunction fun_], activeCount := 1 }

/-- The method `active()`. -/
def active (os : OverloadSet) : List Overload :=
  os.vec.take os.activeCount

/-- The method `update()`: a stable partition of the active range by `active`. -/
def update (os : OverloadSet) : OverloadSet :=
  { vec := (os.active.filter (fun o => o.active)) ++ (os.active.filter (fun o => !o.active)) ++
      os.vec.drop os.activeCount
    activeCount := (os.active.filter (fun o => o.active)).length }

/-- The method `retireLeft(const OptNode&)`. -/
def retireLeft (os : OverloadSet) (left : OptNode) : OverloadSet :=
  let leftView : List NameTypeValue :=
    match left with
    | some (Node.NameTypeValueTuple tuple) => tuple
    | some node => [NameTypeValue.mk none none (some node)]
    | none => []
  update { os with vec := os.vec.map (fun o => o.retireLeft leftView) }

/-- The method `setupIt`. -/
def setupIt (os : OverloadSet) (it : BlockLineView) : OverloadSet :=
  { os with vec := os.vec.map (fun o => { o with it := it }) }

/-- The method `finish()`: the completed candidates after a stable partition by `complete`. -/
def finish (os : OverloadSet) : List Overload :=
  os.vec.filter (fun o => o.complete)

end OverloadSet

/-- The lambda `isNodeBlockLiteral` of `parseArgumentsWithout`, for a node that is present. -/
def isNodeBlockLiteral {σ : Type} (context : ContextApi σ) (value : Node) : Bool :=
  match value with
  | Node.Value _ type => isBlockLiteral context type
  | _ => false

/-- The store of an argument `Value` of the intrinsic `NameTypeValue` type for the positional
parameter (source lines 691-697). -/
def storeTyped {σ : Type} (context : ContextApi σ) (o : Overload) (posParam : Parameter)
    (typed : NameTypeValue) : Overload :=
  { o with
    rightArgs := o.rightArgs ++ [ArgumentAssignment.mk posParam
      [makeTokenValue context IntrinsicKind.NameTypeValue (ValueData.NameTypeValue typed)]]
    nextArg := o.nextArg + 1 }

/-- The store of a parsed value, by name or by position (source lines 711-738). -/
def storeValue (o : Overload) (posParam : Parameter) (name : Option Name) (value : Node) :
    Overload :=
  match name with
  | some name =>
    match o.function.lookupParameter name with
    | some namedArg =>
      if canImplicitConvertToType value namedArg.type then
        { o with rightArgs := o.rightArgs ++ [ArgumentAssignment.mk namedArg [value]] }
      else o
    | none => o
  | none =>
    if canImplicitConvertToType value posParam.type then
      { o with
        rightArgs := o.rightArgs ++ [ArgumentAssignment.mk posParam [value]]
        nextArg := o.nextArg + 1 }
    else o

/-- The body of the `do { ... } while (false)` of `parseArgumentsWithout`: what one parsed
argument `typed` does to the candidate `o`. -/
def assignArgument {σ : Type} (context : ContextApi σ) (o : Overload) (posParam : Parameter)
    (typed : NameTypeValue) : Overload :=
  match typed.value with
  | none =>
    -- typed.type || !typed.value
    if isTyped context posParam.type then storeTyped context o posParam typed else o
  | some value =>
    if typed.type.isSome then
      if isTyped context posParam.type then storeTyped context o posParam typed else o
    else
      storeValue
        (if isNodeBlockLiteral context value then { o with hasBlocks := true } else o)
        posParam typed.name value

/-- The end of the body of the loop over the candidates in `parseArgumentsWithout` (source lines
746-755). -/
def finishArgument (o : Overload) : Overload :=
  if o.nextArg == o.function.rightParameters.length then
    { o with complete := true, active := false }
  else
    let r := parseOptionalComma o.it
    if r.1 == ParseOptions.finish_single then { o with it := r.2, active := false }
    else { o with it := r.2 }

/-- The callback handed to `parseSingleTypedCallback`: `parseValueInto` of `parseSingleTyped`, or
`parseValueArgument` of `parseArgumentsWithout` for a candidate's function and positional
parameter. -/
inductive Callback where
  | parseValueInto
  | parseValueArgument (function : Function) (posParam : Parameter)

/-- The first test of `parseSingleTypedCallback`: an identifier followed by a colon
(`name :type`), an identifier followed by `=` (`name =value`), or neither. -/
inductive TypedHead where
  | nameType (name : String)
  | nameValue (name : String)
  | other

/-- The test `it.current().holds<IdentifierLiteral>() && it.hasNext()` with the tests of
`it.next()` that follow it. -/
def typedHead (it : BlockLineView) : TypedHead :=
  match it.peek, it.advance.peek with
  | some (nesting.Token.IdentifierLiteral input), some next =>
    if isColon next then TypedHead.nameType input
    else if isAssignment next then TypedHead.nameValue input
    else TypedHead.other
  | _, _ => TypedHead.other

end Parser

end parser

namespace parser

open Instance (Name Entry Scope Function Parameter Variable InstanceType ParameterSide)

namespace Parser

variable {σ : Type}

mutual
/-- The function `parseTuple`. -/
def parseTuple (context : ContextApi σ) :
    Nat → BlockLineView → σ → Except Fault (List NameTypeValue × BlockLineView × σ)
  | 0, _, _ => .error Fault.fuel
  | fuel + 1, it, s =>
    match it.peek with
    | none => .ok ([], it, s)
    | some current =>
      let withBrackets : Bool :=
        match current with
        | nesting.Token.BracketOpen => true
        | _ => false
      match parseTupleInto context fuel [] (if withBrackets then it.advance else it) s with
      | .error e => .error e
      | .ok (tuple, it, s) =>
        if withBrackets then
          match it.peek with
          | some nesting.Token.BracketClose => .ok (tuple, it.advance, s)
          | _ => .ok (tuple, it, s)
        else .ok (tuple, it, s)
  termination_by structural fuel => fuel
/-- The function `parseTupleInto`, the loop `while (it)`. -/
def parseTupleInto (context : ContextApi σ) :
    Nat → List NameTypeValue → BlockLineView → σ →
      Except Fault (List NameTypeValue × BlockLineView × σ)
  | 0, _, _, _ => .error Fault.fuel
  | fuel + 1, tuple, it, s =>
    if !it.valid then .ok (tuple, it, s)
    else
      match parseSingleTypedCallback context fuel Callback.parseValueInto it s with
      | .error e => .error e
      | .ok (opt, it, s) =>
        let tuple := match opt with
          | some typed => tuple ++ [typed]
          | none => tuple
        let r := parseOptionalComma it
        if r.1 == ParseOptions.finish_single then .ok (tuple, r.2, s)
        else parseTupleInto context fuel tuple r.2 s
  termination_by structural fuel => fuel
/-- The function `parseSingleTypedCallback`; `parseSingleTyped` is the instance with the callback
`parseValueInto`. -/
def parseSingleTypedCallback (context : ContextApi σ) :
    Nat → Callback → BlockLineView → σ → Except Fault (OptNameTypeValue × BlockLineView × σ)
  | 0, _, _, _ => .error Fault.fuel
  | fuel + 1, callback, it, s =>
    if !it.valid then .ok (some NameTypeValue.empty, it, s)
    else
      match typedHead it with
      | TypedHead.nameType name =>
        -- extractName(); parseType(); parseAssignValue();
        parseTypeAssign context fuel callback (some name) it.advance s
      | TypedHead.nameValue name =>
        -- extractName(); parseValue();
        match applyCallback context fuel callback (NameTypeValue.mk (some name) none none)
            it.advance.advance s with
        | .error e => .error e
        | .ok (result, it, s) => .ok (some result, it, s)
      | TypedHead.other =>
        match it.peek with
        | some nesting.Token.ColonSeparator =>
          -- parseType(); parseAssignValue();
          parseTypeAssign context fuel callback none it s
        | _ =>
          match applyCallback context fuel callback NameTypeValue.empty it s with
          | .error e => .error e
          | .ok (result, it, s) =>
            if result.value.isNone then .ok (none, it, s) else .ok (some result, it, s)
  termination_by structural fuel => fuel
/-- The lambdas `parseType` and `parseAssignValue` of `parseSingleTypedCallback`, run one after
the other with the cursor on the colon. -/
def parseTypeAssign (context : ContextApi σ) :
    Nat → Callback → Option Name → BlockLineView → σ →
      Except Fault (OptNameTypeValue × BlockLineView × σ)
  | 0, _, _, _, _ => .error Fault.fuel
  | fuel + 1, callback, name, it, s =>
    -- skip colon
    match parseTypeExpression context s it.advance with
    | .error e => .error e
    | .ok (type, it) =>
      match it.peek with
      | none => .ok (some (NameTypeValue.mk name type none), it, s)
      | some current =>
        if isAssignment current then
          -- skip assign
          match applyCallback context fuel callback (NameTypeValue.mk name type none)
              it.advance s with
          | .error e => .error e
          | .ok (result, it, s) => .ok (some result, it, s)
        else .ok (some (NameTypeValue.mk name type none), it, s)
  termination_by structural fuel => fuel
/-- The call `callback(result)` in `parseSingleTypedCallback`: `parseValueInto` of
`parseSingleTyped`, or `parseValueArgument` of `parseArgumentsWithout`. -/
def applyCallback (context : ContextApi σ) :
    Nat → Callback → NameTypeValue → BlockLineView → σ →
      Except Fault (NameTypeValue × BlockLineView × σ)
  | 0, _, _, _, _ => .error Fault.fuel
  | fuel + 1, callback, typed, it, s =>
    match callback with
    | Callback.parseValueInto =>
      match parseSingle context fuel none it s with
      | .error e => .error e
      | .ok (value, it, s) => .ok (NameTypeValue.mk typed.name typed.type value, it, s)
    | Callback.parseValueArgument function posParam =>
      let namedParam : Option Parameter :=
        match typed.name, typed.type with
        | some name, none => function.lookupParameter name
        | _, _ => none
      let type := match namedParam with
        | some param => param.type
        | none => posParam.type
      match parserForType context fuel (getParserForType type) it s with
      | .error e => .error e
      | .ok (value, it, s) => .ok (NameTypeValue.mk typed.name typed.type value, it, s)
  termination_by structural fuel => fuel
/-- The parse function that `parserForType` selects, applied to the cursor. -/
def parserForType (context : ContextApi σ) :
    Nat → Instance.Parser → BlockLineView → σ → Except Fault (OptNode × BlockLineView × σ)
  | 0, _, _, _ => .error Fault.fuel
  | fuel + 1, kind, it, s =>
    match kind with
    | Instance.Parser.Expression => parseSingle context fuel none it s
    | Instance.Parser.SingleToken =>
      match parseSingleToken context it with
      | .error e => .error e
      | .ok (value, it) => .ok (value, it, s)
    | Instance.Parser.IdTypeValue =>
      match parseSingleTypedCallback context fuel Callback.parseValueInto it s with
      | .error e => .error e
      | .ok (some typed, it, s) =>
        .ok (some (makeTokenValue context IntrinsicKind.NameTypeValue
          (ValueData.NameTypeValue typed)), it, s)
      | .ok (none, it, s) => .ok (none, it, s)
  termination_by structural fuel => fuel
/-- The function `parseSingle`, the loop `while (it)` on the current `result`. -/
def parseSingle (context : ContextApi σ) :
    Nat → OptNode → BlockLineView → σ → Except Fault (OptNode × BlockLineView × σ)
  | 0, _, _, _ => .error Fault.fuel
  | fuel + 1, result, it, s =>
    if !it.valid then .ok (result, it, s)
    else
      match parseStep context fuel result it s with
      | .error e => .error e
      | .ok (opt, result, it, s) =>
        if opt == ParseOptions.finish_single then .ok (result, it, s)
        else parseSingle context fuel result it s
  termination_by structural fuel => fuel
/-- The function `parseStep`. -/
def parseStep (context : ContextApi σ) :
    Nat → OptNode → BlockLineView → σ →
      Except Fault (ParseOptions × OptNode × BlockLineView × σ)
  | 0, _, _, _ => .error Fault.fuel
  | fuel + 1, result, it, s =>
    match it.peek with
    | none => .error Fault.invalid_read
    | some nesting.Token.CommaSeparator => .ok (ParseOptions.finish_single, result, it, s)
    | some nesting.Token.BracketClose => .ok (ParseOptions.finish_single, result, it, s)
    | some nesting.Token.BracketOpen =>
      if result.isSome then .ok (ParseOptions.finish_single, result, it, s)
      else
        match parseTuple context fuel it s with
        | .error e => .error e
        | .ok (tuple, it, s) =>
          .ok (ParseOptions.continue_single, some (Node.NameTypeValueTuple tuple), it, s)
    | some (nesting.Token.IdentifierLiteral input) =>
      let range := lookupIdentifier context s input result
      if range.1.isEmpty then
        if range.2.isSome then .ok (ParseOptions.finish_single, range.2, it, s)
        else
          .ok (ParseOptions.continue_single,
            some (makeTokenValue context IntrinsicKind.IdentifierLiteral
              (ValueData.IdentifierLiteral input)), it.advance, s)
      else parseInstance context fuel range.2 range.1 it s
    | some (nesting.Token.OperatorLiteral input) =>
      let range := lookupIdentifier context s input result
      if range.1.isEmpty then
        if range.2.isSome then .ok (ParseOptions.finish_single, range.2, it, s)
        else
          .ok (ParseOptions.continue_single,
            some (makeTokenValue context IntrinsicKind.OperatorLiteral
              (ValueData.OperatorLiteral input)), it.advance, s)
      else parseInstance context fuel range.2 range.1 it s
    | some (nesting.Token.StringLiteral text) =>
      if result.isSome then .ok (ParseOptions.finish_single, result, it, s)
      else
        .ok (ParseOptions.continue_single,
          some (makeTokenValue context IntrinsicKind.StringLiteral
            (ValueData.StringLiteral text)), it.advance, s)
    | some (nesting.Token.NumberLiteral text) =>
      if result.isSome then .ok (ParseOptions.finish_single, result, it, s)
      else
        .ok (ParseOptions.continue_single,
          some (makeTokenValue context IntrinsicKind.NumberLiteral
            (ValueData.NumberLiteral text)), it.advance, s)
    | some (nesting.Token.BlockLiteral b) =>
      if result.isSome then .ok (ParseOptions.finish_single, result, it, s)
      else
        .ok (ParseOptions.continue_single,
          some (makeTokenValue context IntrinsicKind.BlockLiteral
            (ValueData.BlockLiteral b)), it.advance, s)
    | some _ => .ok (ParseOptions.finish_single, result, it, s)
  termination_by structural fuel => fuel
/-- The function `parseInstance`, the visit of `range.frontValue()`. -/
def parseInstance (context : ContextApi σ) :
    Nat → OptNode → List Entry → BlockLineView → σ →
      Except Fault (ParseOptions × OptNode × BlockLineView × σ)
  | 0, _, _, _, _ => .error Fault.fuel
  | fuel + 1, result, range, it, s =>
    match range with
    | [] => .error Fault.invalid_read
    | Entry.variable var :: _ =>
      if result.isSome then .ok (ParseOptions.finish_single, result, it, s)
      else .ok (ParseOptions.continue_single, some (Node.VariableReference var), it.advance, s)
    | Entry.parameter arg :: _ =>
      if result.isSome then .ok (ParseOptions.finish_single, result, it, s)
      else .ok (ParseOptions.continue_single, some (Node.ParameterReference arg), it.advance, s)
    | Entry.function fun_ :: _ => parseCall context fuel result fun_ it.advance s
    | Entry.type _ :: _ =>
      if result.isSome then .ok (ParseOptions.finish_single, result, it, s)
      else .ok (ParseOptions.continue_single, result, it.advance, s)
    | Entry.module name locals :: _ =>
      if result.isSome then .ok (ParseOptions.finish_single, result, it, s)
      else
        .ok (ParseOptions.continue_single, some (Node.ModuleReference name locals),
          it.advance, s)
  termination_by structural fuel => fuel
/-- The function `parseCall`. -/
def parseCall (context : ContextApi σ) :
    Nat → OptNode → Function → BlockLineView → σ →
      Except Fault (ParseOptions × OptNode × BlockLineView × σ)
  | 0, _, _, _, _ => .error Fault.fuel
  | fuel + 1, left, fun_, it, s =>
    let os := (OverloadSet.ofFunction fun_).retireLeft left
    match
      (if !os.active.isEmpty && it.valid then parseArguments context fuel os it s
       else .ok (os, it, s)) with
    | .error e => .error e
    | .ok (os, it, s) =>
      match os.finish with
      | [o] =>
        -- it = o.it; left = buildCallNode(inv(), context);
        let built := buildCallNode context s o.function o.rightArgs
        .ok (if o.hasBlocks then ParseOptions.finish_single else ParseOptions.continue_single,
          built.1, o.it, built.2)
      | _ =>
        if left.isSome then .ok (ParseOptions.finish_single, left, it, s)
        else .ok (ParseOptions.continue_single, left, it, s)
  termination_by structural fuel => fuel
/-- The function `parseArguments`. -/
def parseArguments (context : ContextApi σ) :
    Nat → OverloadSet → BlockLineView → σ → Except Fault (OverloadSet × BlockLineView × σ)
  | 0, _, _, _ => .error Fault.fuel
  | fuel + 1, os, it, s =>
    match it.peek with
    | none => .error Fault.invalid_read
    | some current =>
      let withBrackets : Bool :=
        match current with
        | nesting.Token.BracketOpen => true
        | _ => false
      let it := if withBrackets then it.advance else it
      match parseArgumentsWithout context fuel (os.setupIt it) s with
      | .error e => .error e
      | .ok (os, s) =>
        if withBrackets then
          match it.peek with
          | some nesting.Token.BracketClose => .ok (os, it.advance, s)
          | _ => .ok (os, it, s)
        else .ok (os, it, s)
  termination_by structural fuel => fuel
/-- The loop `while (!os.active().empty())` of `parseArgumentsWithout`; `os.setupIt(it)` is done
by the caller. -/
def parseArgumentsWithout (context : ContextApi σ) :
    Nat → OverloadSet → σ → Except Fault (OverloadSet × σ)
  | 0, _, _ => .error Fault.fuel
  | fuel + 1, os, s =>
    if os.active.isEmpty then .ok (os, s)
    else
      match parseArgumentsFor context fuel [] os.active s with
      | .error e => .error e
      | .ok (active, s) =>
        parseArgumentsWithout context fuel
          (OverloadSet.update { os with vec := active ++ os.vec.drop os.activeCount }) s
  termination_by structural fuel => fuel
/-- The loop `for (auto& o : os.active())` of `parseArgumentsWithout`: `done` are the candidates
already visited in this round, the list after it the ones still to visit. -/
def parseArgumentsFor (context : ContextApi σ) :
    Nat → List Overload → List Overload → σ → Except Fault (List Overload × σ)
  | 0, _, _, _ => .error Fault.fuel
  | fuel + 1, done, todo, s =>
    match todo with
    | [] => .ok (done, s)
    | o :: rest =>
      match o.param with
      | .error e => .error e
      | .ok posParam =>
        match parseSingleTypedCallback context fuel
            (Callback.parseValueArgument o.function posParam) o.it s with
        | .error e => .error e
        | .ok (optTyped, it, s) =>
          let o := { o with it := it }
          let o := match optTyped with
            | some typed => assignArgument context o posParam typed
            | none => o
          parseArgumentsFor context fuel (done ++ [finishArgument o]) rest s
  termination_by structural fuel => fuel
end

/-- The function `parseSingleTyped`. -/
def parseSingleTyped (context : ContextApi σ) (fuel : Nat) (it : BlockLineView) (s : σ) :
    Except Fault (OptNameTypeValue × BlockLineView × σ) :=
  parseSingleTypedCallback context fuel Callback.parseValueInto it s

/-- The body of the loop over the lines in `Parser::parse`: what one line adds to the nodes of
the block. -/
def parseLine (context : ContextApi σ) (fuel : Nat) (isTainted : Bool) (nodes : List Node)
    (line : nesting.BlockLine) (s : σ) : Except Fault (List Node × σ) :=
  let s := if !isTainted && line.hasErrors then context.reportLineErrors s line else s
  let it := BlockLineView.ofLine line
  if it.valid then
    match parseTuple context fuel it s with
    | .error e => .error e
    | .ok (expr, _, s) =>
      match expr with
      | [] => .ok (nodes, s)
      | [NameTypeValue.mk none none (some value)] =>
        -- no reason to keep the tuple around, unwrap it
        .ok (nodes ++ [value], s)
      | _ => .ok (nodes ++ [Node.NameTypeValueTuple expr], s)
  else .ok (nodes, s)

/-- The loop over the lines in `Parser::parse`. -/
def parseLines (context : ContextApi σ) (fuel : Nat) (isTainted : Bool) :
    List Node → List nesting.BlockLine → σ → Except Fault (List Node × σ)
  | nodes, [], s => .ok (nodes, s)
  | nodes, line :: rest, s =>
    match parseLine context fuel isTainted nodes line s with
    | .error e => .error e
    | .ok (nodes, s) => parseLines context fuel isTainted nodes rest s

/-- The function `Parser::parse`. -/
def parse (context : ContextApi σ) (fuel : Nat) (blockLiteral : nesting.BlockLiteral) (s : σ) :
    Except Fault (Block × σ) :=
  match parseLines context fuel blockLiteral.isTainted [] blockLiteral.lines s with
  | .error e => .error e
  | .ok (nodes, s) => .ok (⟨nodes⟩, s)

end Parser

end parser

/-! ## Observations on the semantic parser -/

namespace parser

open Instance (Name Entry Scope Function Parameter Variable InstanceType ParameterSide)

namespace Parser

variable {σ : Type}

/-- The state in which a line is parsed: `Parser::parse` first reports the errors of the line
when the block is not tainted and the line has errors. -/
def reported (context : ContextApi σ) (isTainted : Bool) (line : nesting.BlockLine) (s : σ) : σ :=
  if !isTainted && line.hasErrors then context.reportLineErrors s line else s

/-- The value expected for a standalone literal token: a `Value` that holds the token and is
typed with the intrinsic type registered for the kind of the token. -/
def literal_value (context : ContextApi σ) : nesting.Token → Option Node
  | nesting.Token.StringLiteral text =>
    some (Node.Value (ValueData.StringLiteral text)
      (TypeExpression.TypeInstance (context.intrinsicType IntrinsicKind.StringLiteral)))
  | nesting.Token.NumberLiteral text =>
    some (Node.Value (ValueData.NumberLiteral text)
      (TypeExpression.TypeInstance (context.intrinsicType IntrinsicKind.NumberLiteral)))
  | nesting.Token.IdentifierLiteral input =>
    some (Node.Value (ValueData.IdentifierLiteral input)
      (TypeExpression.TypeInstance (context.intrinsicType IntrinsicKind.IdentifierLiteral)))
  | _ => none

/-- The name is not bound in the scope the context looks up in state `s`. -/
def unbound (context : ContextApi σ) (s : σ) : nesting.Token → Prop
  | nesting.Token.IdentifierLiteral input => context.lookup s input = []
  | _ => True

/-- The nodes a line contributes according to the specification, given the tuple the line parsed
to: nothing for the empty tuple, the bare value for a tuple of exactly one entry that has a
value but neither name nor type, the whole tuple node in every other case. -/
def spec_line_nodes (tuple : List NameTypeValue) : List Node :=
  if tuple.isEmpty then []
  else
    match tuple with
    | [NameTypeValue.mk none none (some value)] => [value]
    | _ => [Node.NameTypeValueTuple tuple]

/-- The nodes the lines of a block contribute according to the specification, line after line:
a line without tokens contributes nothing, every other line contributes `spec_line_nodes` of
the tuple that `parseTuple` reads from its first token, in the state the lines before it
left. -/
inductive SpecBlockNodes (context : ContextApi σ) (fuel : Nat) (isTainted : Bool) :
    List nesting.BlockLine → σ → List Node → σ → Prop where
  | done (s : σ) : SpecBlockNodes context fuel isTainted [] s [] s
  | blank (line : nesting.BlockLine) (rest : List nesting.BlockLine) (s s' : σ)
      (nodes : List Node) (hline : line.tokens = [])
      (hrest : SpecBlockNodes context fuel isTainted rest (reported context isTainted line s)
        nodes s') :
      SpecBlockNodes context fuel isTainted (line :: rest) s nodes s'
  | line (line : nesting.BlockLine) (rest : List nesting.BlockLine) (s s₁ s' : σ)
      (tuple : List NameTypeValue) (it : BlockLineView) (nodes : List Node)
      (hline : line.tokens ≠ [])
      (htuple : parseTuple context fuel (BlockLineView.ofLine line)
        (reported context isTainted line s) = .ok (tuple, it, s₁))
      (hrest : SpecBlockNodes context fuel isTainted rest s₁ nodes s') :
      SpecBlockNodes context fuel isTainted (line :: rest) s (spec_line_nodes tuple ++ nodes) s'

/-- The type registered for an AST value kind in `scope_context`. -/
def scope_context_type : IntrinsicKind → InstanceType
  | IntrinsicKind.IdentifierLiteral => ⟨1, Instance.Parser.SingleToken⟩
  | IntrinsicKind.OperatorLiteral => ⟨2, Instance.Parser.SingleToken⟩
  | IntrinsicKind.StringLiteral => ⟨3, Instance.Parser.Expression⟩
  | IntrinsicKind.NumberLiteral => ⟨4, Instance.Parser.Expression⟩
  | IntrinsicKind.BlockLiteral => ⟨5, Instance.Parser.Expression⟩
  | IntrinsicKind.NameTypeValue => ⟨6, Instance.Parser.IdTypeValue⟩

/-- A context over one fixed scope: `lookup` reads the scope, `runCall` evaluates nothing and
hands back the call unchanged, nothing is reported. -/
def scope_context (scope : Scope) : ContextApi Unit :=
  { lookup := fun _ name => Scope.range scope name
    intrinsicType := scope_context_type
    runCall := fun s function arguments => (some (Node.Call function arguments), s)
    reportLineErrors := fun s _ => s }

/-- The left parameter `l` of `infix_function`. -/
def infix_left : Parameter := ⟨"l", TypeExpression.Auto, ParameterSide.left, false⟩

/-- The right parameter `r` of `infix_function`. -/
def infix_right : Parameter := ⟨"r", TypeExpression.Auto, ParameterSide.right, false⟩

/-- A function `f` with the left parameter `l` and the right parameter `r`. -/
def infix_function : Function := ⟨"f", false, [infix_left, infix_right]⟩

/-- A scope that binds `f` to `infix_function`. -/
def infix_scope : Scope := [("f", Entry.function infix_function)]

/-- The line `1 f 2`. -/
def infix_line : nesting.BlockLine :=
  nesting.BlockLine.mk
    [nesting.Token.NumberLiteral "1", nesting.Token.IdentifierLiteral "f",
      nesting.Token.NumberLiteral "2"] false

end Parser

/-- The field `parameter` of an argument assignment. -/
def ArgumentAssignment.parameter : ArgumentAssignment → Parameter
  | ArgumentAssignment.mk parameter _ => parameter

/-- The field `values` of an argument assignment. -/
def ArgumentAssignment.values : ArgumentAssignment → List Node
  | ArgumentAssignment.mk _ values => values

end parser

namespace parser.Parser

/-- A block with the lines `42`, a line without tokens, `( )` and `a = 1`. -/
def sample_block : nesting.BlockLiteral :=
  nesting.BlockLiteral.mk
    [nesting.BlockLine.mk [nesting.Token.NumberLiteral "42"] false,
     nesting.BlockLine.mk [] false,
     nesting.BlockLine.mk [nesting.Token.BracketOpen, nesting.Token.BracketClose] false,
     nesting.BlockLine.mk [nesting.Token.IdentifierLiteral "a",
       nesting.Token.OperatorLiteral "=", nesting.Token.NumberLiteral "1"] false] false

/-- The nodes `sample_block` parses to: the value `42` and the tuple `a = 1`. -/
def sample_nodes : List Node :=
  [Node.Value (ValueData.NumberLiteral "42")
      (TypeExpression.TypeInstance (scope_context_type IntrinsicKind.NumberLiteral)),
    Node.NameTypeValueTuple [NameTypeValue.mk (some "a") none
      (some (Node.Value (ValueData.NumberLiteral "1")
        (TypeExpression.TypeInstance (scope_context_type IntrinsicKind.NumberLiteral))))]]

end parser.Parser

namespace parser.Parser

/-- The invariant of a candidate of the overload resolution for the function `f`: it is a
candidate for `f`; once it is complete, `nextArg` has reached the number of right parameters;
and every right parameter at a position below `nextArg` is the `parameter` of one of the stored
assignments. -/
def Overload.assigned (f : Instance.Function) (o : Overload) : Prop :=
  o.function = f ∧
  (o.complete = true → o.nextArg = f.rightParameters.length) ∧
  ∀ i p, i < o.nextArg → f.rightParameters.get? i = some p →
    ∃ a ∈ o.rightArgs, a.parameter = p

/-- The value `1` as the left operand of a call. -/
def infix_left_value : Node :=
  Node.Value (ValueData.NumberLiteral "1")
    (TypeExpression.TypeInstance (scope_context_type IntrinsicKind.NumberLiteral))

/-- The value `2` as the right operand of a call. -/
def infix_right_value : Node :=
  Node.Value (ValueData.NumberLiteral "2")
    (TypeExpression.TypeInstance (scope_context_type IntrinsicKind.NumberLiteral))

end parser.Parser

namespace parser.block

/-- A bound on the fuel a loop of the grouper needs at the given cursor: four units for each
remaining token, plus `m` when the head is a marker or the cursor is exhausted, plus `l` when
the head is any other token. -/
def fuel_at (input : input_t) (m l : Nat) : Nat :=
  4 * input.length +
    match input with
    | tok :: _ => if tok.is_marker then m else l
    | [] => m

end parser.block

/-! ## Overload resolution: the candidates of a call and sample inputs -/

namespace parser.Parser

open Instance (Name Entry Scope Function Parameter Variable InstanceType ParameterSide)

variable {σ : Type}

/-- The first part of `parseCall` (source lines 411-415): the overload set after `retireLeft`
and, when a candidate is active and tokens are left, after `parseArguments`. `parseCall` with
one more unit of fuel goes on from here with `os.finish()`. -/
def parseCallOverloads (context : ContextApi σ) (fuel : Nat) (left : OptNode) (fun_ : Function)
    (it : BlockLineView) (s : σ) : Except Fault (OverloadSet × BlockLineView × σ) :=
  if !((OverloadSet.ofFunction fun_).retireLeft left).active.isEmpty && it.valid then
    parseArguments context fuel ((OverloadSet.ofFunction fun_).retireLeft left) it s
  else .ok ((OverloadSet.ofFunction fun_).retireLeft left, it, s)

/-- The view of the left expression that `OverloadSet::retireLeft` hands to every candidate. -/
def leftView (left : OptNode) : List NameTypeValue :=
  match left with
  | some (Node.NameTypeValueTuple tuple) => tuple
  | some node => [NameTypeValue.mk none none (some node)]
  | none => []

/-- The right parameter `a`. -/
def param_a : Parameter := ⟨"a", TypeExpression.Auto, ParameterSide.right, false⟩

/-- The right parameter `b`. -/
def param_b : Parameter := ⟨"b", TypeExpression.Auto, ParameterSide.right, false⟩

/-- A function `g` with the single right parameter `a`. -/
def unary_function : Function := ⟨"g", false, [param_a]⟩

/-- A function `g` with the two right parameters `a` and `b`. -/
def binary_function : Function := ⟨"g", false, [param_a, param_b]⟩

/-- A function `h` that declares no parameters. -/
def nullary_function : Function := ⟨"h", false, []⟩

/-- A scope that binds `g` to `unary_function` and `h` to `nullary_function`. -/
def call_scope : Scope :=
  [("g", Entry.function unary_function), ("h", Entry.function nullary_function)]

/-- A scope that binds `g` only to `binary_function`. -/
def binary_scope : Scope := [("g", Entry.function binary_function)]

/-- A scope that binds `g` twice: first to `binary_function`, then to `unary_function`. -/
def overloaded_scope : Scope :=
  [("g", Entry.function binary_function), ("g", Entry.function unary_function)]

/-- The number `text` as a value of `scope_context`. -/
def number_value (text : String) : Node :=
  Node.Value (ValueData.NumberLiteral text)
    (TypeExpression.TypeInstance (scope_context_type IntrinsicKind.NumberLiteral))

/-- The tokens of the line `g 1`. -/
def line_g_1 : List nesting.Token :=
  [nesting.Token.IdentifierLiteral "g", nesting.Token.NumberLiteral "1"]

/-- The tokens of the line `g x = 5 7`. -/
def line_g_x_5_7 : List nesting.Token :=
  [nesting.Token.IdentifierLiteral "g", nesting.Token.IdentifierLiteral "x",
    nesting.Token.OperatorLiteral "=", nesting.Token.NumberLiteral "5",
    nesting.Token.NumberLiteral "7"]

/-- An empty nested block literal. -/
def empty_block : nesting.BlockLiteral := nesting.BlockLiteral.mk [] false

/-- The tokens of the line `g x = <block> 7`, the value of `x` being a block literal. -/
def line_g_x_block_7 : List nesting.Token :=
  [nesting.Token.IdentifierLiteral "g", nesting.Token.IdentifierLiteral "x",
    nesting.Token.OperatorLiteral "=", nesting.Token.BlockLiteral empty_block,
    nesting.Token.NumberLiteral "7"]

/-- The tokens of the line `1 h`. -/
def line_1_h : List nesting.Token :=
  [nesting.Token.NumberLiteral "1", nesting.Token.IdentifierLiteral "h"]

/-- The tokens of the line `x = h 5`. -/
def line_x_h_5 : List nesting.Token :=
  [nesting.Token.IdentifierLiteral "x", nesting.Token.OperatorLiteral "=",
    nesting.Token.IdentifierLiteral "h", nesting.Token.NumberLiteral "5"]

/-- The block that holds the one line with the given tokens. -/
def one_line (tokens : List nesting.Token) : nesting.BlockLiteral :=
  nesting.BlockLiteral.mk [nesting.BlockLine.mk tokens false] false

end parser.Parser

/-! ## Compile-time dispatch: the rule of the specification -/

namespace parser.Parser

open Instance (Name Entry Scope Function Parameter Variable InstanceType ParameterSide)

mutual
/-- The rule as the claim words it: a node is fully static when it is a `Value`, a
`NameTypeValueTuple` whose entries' values are fully static, or a `Call` of a function with the
`compiletime` flag whose argument values are fully static. -/
def claimed_static : Node → Bool
  | Node.Value _ _ => true
  | Node.NameTypeValueTuple tuple => claimed_static_tuple tuple
  | Node.Call function arguments =>
    function.compiletime && claimed_static_arguments arguments
  | Node.Block _ => false
  | Node.IntrinsicCall => false
  | Node.ParameterReference _ => false
  | Node.VariableReference _ => false
  | Node.VariableInit _ _ => false
  | Node.ModuleReference _ _ => false
  | Node.NameTypeValueReference => false
/-- The values of the entries of a tuple are fully static in the words of the claim. -/
def claimed_static_tuple : List NameTypeValue → Bool
  | [] => true
  | NameTypeValue.mk _ _ none :: rest => claimed_static_tuple rest
  | NameTypeValue.mk _ _ (some value) :: rest =>
    claimed_static value && claimed_static_tuple rest
/-- Every argument value is fully static in the words of the claim. -/
def claimed_static_arguments : List ArgumentAssignment → Bool
  | [] => true
  | ArgumentAssignment.mk _ values :: rest =>
    claimed_static_nodes values && claimed_static_arguments rest
/-- Every node of the list is fully static in the words of the claim. -/
def claimed_static_nodes : List Node → Bool
  | [] => true
  | node :: rest => claimed_static node && claimed_static_nodes rest
end

mutual
/-- The rule as amended: a node is fully static when it is a `Value` (whatever it holds), a
`NameTypeValueTuple` in which every entry has a fully static value, if it has a value, and a
type other than `Auto`, if it has a type, or a `Call` of a function with the `compiletime` flag
whose argument values are fully static. -/
def fully_static : Node → Bool
  | Node.Value _ _ => true
  | Node.NameTypeValueTuple tuple => fully_static_tuple tuple
  | Node.Call function arguments =>
    function.compiletime && fully_static_arguments arguments
  | Node.Block _ => false
  | Node.IntrinsicCall => false
  | Node.ParameterReference _ => false
  | Node.VariableReference _ => false
  | Node.VariableInit _ _ => false
  | Node.ModuleReference _ _ => false
  | Node.NameTypeValueReference => false
/-- Every entry of the tuple has a fully static value, if any, and a type other than `Auto`, if
any. -/
def fully_static_tuple : List NameTypeValue → Bool
  | [] => true
  | NameTypeValue.mk _ type none :: rest =>
    type != some TypeExpression.Auto && fully_static_tuple rest
  | NameTypeValue.mk _ type (some value) :: rest =>
    fully_static value && type != some TypeExpression.Auto && fully_static_tuple rest
/-- Every argument value is fully static. -/
def fully_static_arguments : List ArgumentAssignment → Bool
  | [] => true
  | ArgumentAssignment.mk _ values :: rest =>
    fully_static_nodes values && fully_static_arguments rest
/-- Every node of the list is fully static. -/
def fully_static_nodes : List Node → Bool
  | [] => true
  | node :: rest => fully_static node && fully_static_nodes rest
end

mutual
/-- A `Block`, `IntrinsicCall`, `VariableReference`, `ParameterReference`, `ModuleReference` or
`VariableInit` occurs in the node, at any depth reached through the values of tuple entries and
the argument values of calls; what a `Value` holds is not looked into. -/
def has_dynamic : Node → Bool
  | Node.Block _ => true
  | Node.IntrinsicCall => true
  | Node.ParameterReference _ => true
  | Node.VariableReference _ => true
  | Node.VariableInit _ _ => true
  | Node.ModuleReference _ _ => true
  | Node.NameTypeValueReference => false
  | Node.Value _ _ => false
  | Node.NameTypeValueTuple tuple => has_dynamic_tuple tuple
  | Node.Call _ arguments => has_dynamic_arguments arguments
/-- Some entry of the tuple has a value in which such a node occurs. -/
def has_dynamic_tuple : List NameTypeValue → Bool
  | [] => false
  | NameTypeValue.mk _ _ none :: rest => has_dynamic_tuple rest
  | NameTypeValue.mk _ _ (some value) :: rest => has_dynamic value || has_dynamic_tuple rest
/-- Some argument value is a node in which such a node occurs. -/
def has_dynamic_arguments : List ArgumentAssignment → Bool
  | [] => false
  | ArgumentAssignment.mk _ values :: rest =>
    has_dynamic_nodes values || has_dynamic_arguments rest
/-- Some node of the list is a node in which such a node occurs. -/
def has_dynamic_nodes : List Node → Bool
  | [] => false
  | node :: rest => has_dynamic node || has_dynamic_nodes rest
end

/-- A context that counts the calls handed to `runCall`: the state is the number of calls
dispatched so far, every dispatched call is replaced by an `IntrinsicCall`. -/
def counting_context : ContextApi Nat :=
  { lookup := fun _ _ => []
    intrinsicType := scope_context_type
    runCall := fun s _ _ => (some Node.IntrinsicCall, s + 1)
    reportLineErrors := fun s _ => s }

/-- A function `say` with the `compiletime` flag and the single right parameter `a`. -/
def compiletime_function : Function := ⟨"say", true, [param_a]⟩

/-- A variable `v`. -/
def sample_variable : Variable := ⟨"v", TypeExpression.Auto⟩

/-- The arguments `a = (: Auto = 1)`: one tuple whose only entry has the type `Auto` and the
value `1`. -/
def auto_typed_arguments : ArgumentAssignments :=
  [ArgumentAssignment.mk param_a
    [Node.NameTypeValueTuple
      [NameTypeValue.mk none (some TypeExpression.Auto) (some (number_value "1"))]]]

/-- The arguments `a = Value{NameTypeValue{value = v}}`: a value of the intrinsic
`NameTypeValue` type that holds a reference to the variable `v`, as the `IdTypeValue` parser
builds it. -/
def wrapped_reference_arguments : ArgumentAssignments :=
  [ArgumentAssignment.mk param_a
    [Node.Value
      (ValueData.NameTypeValue
        (NameTypeValue.mk none none (some (Node.VariableReference sample_variable))))
      (TypeExpression.TypeInstance (scope_context_type IntrinsicKind.NameTypeValue))]]

/-- The arguments `a = (1, v)`: a tuple with the value `1` and a reference to the variable
`v`. -/
def reference_arguments : ArgumentAssignments :=
  [ArgumentAssignment.mk param_a
    [Node.NameTypeValueTuple
      [NameTypeValue.mk none none (some (number_value "1")),
        NameTypeValue.mk none none (some (Node.VariableReference sample_variable))]]]

/-- The arguments `a = 1`. -/
def literal_arguments : ArgumentAssignments :=
  [ArgumentAssignment.mk param_a [number_value "1"]]

end parser.Parser

/-! ## Parameter parsers and member access: the rule of the specification -/

namespace parser.Parser

open Instance (Name Entry Scope Function Parameter Variable InstanceType ParameterSide)

variable {σ : Type}

/-- The value the `SingleToken` parser is specified to make of the head token: for a block
literal, a string, a number, an identifier or an operator the `Value` that holds the token,
typed with the intrinsic type registered for the kind of the token; nothing for every other
token. -/
def single_token_value (context : ContextApi σ) : nesting.Token → Option Node
  | nesting.Token.BlockLiteral b =>
    some (Node.Value (ValueData.BlockLiteral b)
      (TypeExpression.TypeInstance (context.intrinsicType IntrinsicKind.BlockLiteral)))
  | nesting.Token.StringLiteral text =>
    some (Node.Value (ValueData.StringLiteral text)
      (TypeExpression.TypeInstance (context.intrinsicType IntrinsicKind.StringLiteral)))
  | nesting.Token.NumberLiteral text =>
    some (Node.Value (ValueData.NumberLiteral text)
      (TypeExpression.TypeInstance (context.intrinsicType IntrinsicKind.NumberLiteral)))
  | nesting.Token.IdentifierLiteral input =>
    some (Node.Value (ValueData.IdentifierLiteral input)
      (TypeExpression.TypeInstance (context.intrinsicType IntrinsicKind.IdentifierLiteral)))
  | nesting.Token.OperatorLiteral input =>
    some (Node.Value (ValueData.OperatorLiteral input)
      (TypeExpression.TypeInstance (context.intrinsicType IntrinsicKind.OperatorLiteral)))
  | nesting.Token.CommaSeparator => none
  | nesting.Token.ColonSeparator => none
  | nesting.Token.BracketOpen => none
  | nesting.Token.BracketClose => none
  | nesting.Token.CommentLiteral => none
  | nesting.Token.WhiteSpaceSeparator => none

/-- The node is a reference to a module. -/
def is_module_reference : OptNode → Bool
  | some (Node.ModuleReference _ _) => true
  | _ => false

/-- The text of an identifier or operator token. -/
def name_of_token : nesting.Token → Option String
  | nesting.Token.IdentifierLiteral input => some input
  | nesting.Token.OperatorLiteral input => some input
  | _ => none

/-- The value an unbound identifier or operator token is wrapped as. -/
def name_token_value (context : ContextApi σ) : nesting.Token → OptNode
  | nesting.Token.IdentifierLiteral input =>
    some (makeTokenValue context IntrinsicKind.IdentifierLiteral
      (ValueData.IdentifierLiteral input))
  | nesting.Token.OperatorLiteral input =>
    some (makeTokenValue context IntrinsicKind.OperatorLiteral (ValueData.OperatorLiteral input))
  | _ => none

/-- A context whose active scope binds no name at all. -/
def empty_context : ContextApi Unit := scope_context []

/-- A module `m` whose locals bind `g` to `unary_function`. -/
def sample_module : Node :=
  Node.ModuleReference "m" [("g", Entry.function unary_function)]

/-- The tokens of the line `m g 1`. -/
def line_m_g_1 : List nesting.Token :=
  [nesting.Token.IdentifierLiteral "m", nesting.Token.IdentifierLiteral "g",
    nesting.Token.NumberLiteral "1"]

/-- A type `t` with the parser `SingleToken`. -/
def single_token_type : InstanceType := ⟨7, Instance.Parser.SingleToken⟩

end parser.Parser

namespace parser.Parser

/-- The candidate has `hasBlocks` set whenever one of the argument values it has stored is a
`Value` of the intrinsic `BlockLiteral` type. -/
def Overload.blocks_marked {σ : Type} (context : ContextApi σ) (o : Overload) : Prop :=
  (∃ a ∈ o.rightArgs, ∃ v ∈ a.values, isNodeBlockLiteral context v = true) →
    o.hasBlocks = true

end parser.Parser

namespace parser.Parser

/-- The tokens of the line `g <block>`, the argument of `g` being a block literal. -/
def line_g_block : List nesting.Token :=
  [nesting.Token.IdentifierLiteral "g", nesting.Token.BlockLiteral empty_block]

end parser.Parser

/-! ## Entries of tuples, lines with errors and the single result slot: sample inputs and the
rules of the specification -/

namespace parser.Parser

open Instance (Name Entry Scope Function Parameter Variable InstanceType ParameterSide)

variable {σ : Type}

/-- At least one of the fields `name`, `type` and `value` of the entry is set. -/
def NameTypeValue.any_set (typed : NameTypeValue) : Bool :=
  typed.name.isSome || typed.type.isSome || typed.value.isSome

/-- The tokens of the line `: 5`. -/
def line_colon_5 : List nesting.Token :=
  [nesting.Token.ColonSeparator, nesting.Token.NumberLiteral "5"]

/-- The right parameter `a` of the intrinsic `NameTypeValue` type. -/
def param_typed : Parameter :=
  ⟨"a", TypeExpression.TypeInstance (scope_context_type IntrinsicKind.NameTypeValue),
    ParameterSide.right, false⟩

/-- A function `k` with the single right parameter `a` of the intrinsic `NameTypeValue` type. -/
def typed_function : Function := ⟨"k", false, [param_typed]⟩

/-- A scope that binds `k` to `typed_function`. -/
def typed_scope : Scope := [("k", Entry.function typed_function)]

/-- The tokens of the line `k (`. -/
def line_k_open : List nesting.Token :=
  [nesting.Token.IdentifierLiteral "k", nesting.Token.BracketOpen]

/-- A tainted block whose only line is `42`, with errors from grouping. -/
def tainted_block : nesting.BlockLiteral :=
  nesting.BlockLiteral.mk [nesting.BlockLine.mk [nesting.Token.NumberLiteral "42"] true] true

/-- The line with the flag `hasErrors()` cleared. -/
def clear_errors (line : nesting.BlockLine) : nesting.BlockLine :=
  nesting.BlockLine.mk line.tokens false

/-- A context that counts the lines handed to `reportLineErrors`: the state is the number of
reports so far. -/
def reporting_context : ContextApi Nat :=
  { lookup := fun _ _ => []
    intrinsicType := scope_context_type
    runCall := fun s function arguments => (some (Node.Call function arguments), s)
    reportLineErrors := fun s _ => s + 1 }

/-- The name the specification gives the entry read at the cursor: the text of the head token
when that is an `IdentifierLiteral` immediately followed by a `ColonSeparator` or by the
operator `=`, no name otherwise. -/
def claimed_name (it : BlockLineView) : Option Name :=
  match it.peek, it.advance.peek with
  | some (nesting.Token.IdentifierLiteral input), some nesting.Token.ColonSeparator => some input
  | some (nesting.Token.IdentifierLiteral input), some (nesting.Token.OperatorLiteral op) =>
    if op = "=" then some input else none
  | _, _ => none

/-- A scope that binds `x` to a variable. -/
def variable_scope : Scope := [("x", Entry.variable ⟨"x", TypeExpression.Auto⟩)]

/-- The tokens of the line `x = 5`. -/
def line_x_5 : List nesting.Token :=
  [nesting.Token.IdentifierLiteral "x", nesting.Token.OperatorLiteral "=",
    nesting.Token.NumberLiteral "5"]

/-- The tokens of the line `1 2`. -/
def line_1_2 : List nesting.Token :=
  [nesting.Token.NumberLiteral "1", nesting.Token.NumberLiteral "2"]

/-- The entry is a `Variable`, a `Parameter`, a `Type` or a `Module`: every kind of entry but a
`Function`. -/
def Entry.is_no_function : Entry → Bool
  | Entry.function _ => false
  | _ => true

/-- The head tokens at which the specification ends the current expression when the result slot
is taken: a `StringLiteral`, `NumberLiteral`, `BlockLiteral` or `BracketOpen`, and an identifier
or operator that the active scope does not bind or binds (first) to a `Variable`, `Parameter`,
`Type` or `Module`. -/
def starts_next_expression (context : ContextApi σ) (s : σ) : nesting.Token → Bool
  | nesting.Token.StringLiteral _ => true
  | nesting.Token.NumberLiteral _ => true
  | nesting.Token.BlockLiteral _ => true
  | nesting.Token.BracketOpen => true
  | nesting.Token.IdentifierLiteral input =>
    match context.lookup s input with
    | [] => true
    | front :: _ => Entry.is_no_function front
  | nesting.Token.OperatorLiteral input =>
    match context.lookup s input with
    | [] => true
    | front :: _ => Entry.is_no_function front
  | _ => false

end parser.Parser

namespace Instance

/-- A scope that binds `a` to a module whose locals bind `b` to a variable, and `v` to a
variable. -/
def nested_scope : Scope :=
  [("a", Entry.module "a" [("b", Entry.variable ⟨"b", parser.TypeExpression.Auto⟩)]),
    ("v", Entry.variable ⟨"v", parser.TypeExpression.Auto⟩)]

/-- A scope that binds `v` twice. -/
def double_scope : Scope :=
  [("v", Entry.variable ⟨"v", parser.TypeExpression.Auto⟩),
    ("v", Entry.variable ⟨"w", parser.TypeExpression.Auto⟩)]

/-- The entry is a `Module`. -/
def Entry.is_module : Entry → Bool
  | Entry.module _ _ => true
  | _ => false

end Instance

/-! ## Block grouper: shape of the tree and of well-formed input -/

namespace parser.block

/-- The token is a `new_line_indentation`, `block_start_indentation` or
`block_end_indentation` whose column is lower than `c`. -/
def filter_token.is_below (tok : filter_token) (c : column_t) : Bool :=
  match tok.data with
  | .new_line_indentation => decide (get_indent_column tok < c)
  | .block_start_indentation => decide (get_indent_column tok < c)
  | .block_end_indentation => decide (get_indent_column tok < c)
  | _ => false

/-- The column of the root block as `parse` sets it: the column of the leading
`new_line_indentation`, and 0 when the input does not start with one. -/
def root_column (input : input_t) : column_t :=
  match input with
  | [] => 0
  | tok :: _ =>
    match tok.data with
    | .new_line_indentation => get_indent_column tok
    | _ => 0

mutual
/-- Every line of every block literal inside the token holds at least one element. -/
def token.lines_filled : token → Bool
  | .unset => true
  | .leaf _ _ => true
  | .block _ b => b.lines_filled
/-- Every line of the block literal and of every block literal nested in it holds at least one
element. -/
def block_literal.lines_filled : block_literal → Bool
  | .mk ls => lines_filled ls
/-- Every line of the sequence holds at least one element, and so does every line of every
block literal nested in it. -/
def lines_filled : List (List token) → Bool
  | [] => true
  | l :: ls => (!l.isEmpty && line_filled l) && lines_filled ls
/-- Every line of every block literal nested in the line holds at least one element. -/
def line_filled : List token → Bool
  | [] => true
  | t :: ts => t.lines_filled && line_filled ts
end

mutual
/-- The number of block literals in the token, at every depth: the token itself when it is one,
and the block literals nested in its lines. -/
def token.count_blocks : token → Nat
  | .unset => 0
  | .leaf _ _ => 0
  | .block _ b => 1 + b.count_blocks
/-- The number of block literals nested in the lines of the block literal, at every depth. -/
def block_literal.count_blocks : block_literal → Nat
  | .mk ls => count_blocks_lines ls
/-- The number of block literals in the lines, at every depth. -/
def count_blocks_lines : List (List token) → Nat
  | [] => 0
  | l :: ls => count_blocks_line l + count_blocks_lines ls
/-- The number of block literals in the line, at every depth. -/
def count_blocks_line : List token → Nat
  | [] => 0
  | t :: ts => t.count_blocks + count_blocks_line ts
end

/-- The token is a `block_start_indentation`. -/
def filter_token.is_block_start (tok : filter_token) : Bool :=
  match tok.data with
  | .block_start_indentation => true
  | _ => false

/-- The number of `block_start_indentation` markers in the input. -/
def count_block_starts (input : input_t) : Nat :=
  (input.filter filter_token.is_block_start).length

/-- A token that goes on with a continued line of a block of column `c`: a token that is no
marker, or a `new_line_indentation` whose column is not lower than `c`. -/
def filter_token.continues (tok : filter_token) (c : column_t) : Bool :=
  match tok.data with
  | .leaf _ => true
  | .new_line_indentation => decide (c ≤ get_indent_column tok)
  | _ => false

/-- The start of a line of a block of column `c`: a run of tokens that are no markers, not
empty, either alone or followed by a `new_line_indentation` with a column greater than `c` (the
line is continued) and any tokens that go on with the continued line. -/
inductive LineHead (c : column_t) : input_t → Prop where
  | run (X : input_t) (hne : X ≠ []) (hX : ∀ t ∈ X, t.is_marker = false) : LineHead c X
  | continued (X : input_t) (nl : filter_token) (Y : input_t) (hne : X ≠ [])
      (hX : ∀ t ∈ X, t.is_marker = false)
      (hnl : nl.data = filter_data.new_line_indentation) (hcol : c < get_indent_column nl)
      (hY : ∀ t ∈ Y, t.continues c = true) : LineHead c (X ++ nl :: Y)

/-- The tokens of a well-formed block of column `c`, from behind the marker that opens the block
up to the marker that closes it: lines separated by `semicolon_separator` or by a
`new_line_indentation` at column `c`, where a line may end in one nested block, opened by a
`block_start_indentation` with a column `c'` greater than `c` that follows the start of the
line, holding a well-formed block of column `c'`, and closed by a `block_end_indentation` at
column `c`. -/
inductive WellFormedBody : column_t → input_t → Prop where
  | done (c : column_t) : WellFormedBody c []
  | semicolon (c : column_t) (tok : filter_token) (B : input_t)
      (hd : tok.data = filter_data.semicolon_separator) (hB : WellFormedBody c B) :
      WellFormedBody c (tok :: B)
  | new_line (c : column_t) (tok : filter_token) (B : input_t)
      (hd : tok.data = filter_data.new_line_indentation) (hcol : get_indent_column tok = c)
      (hB : WellFormedBody c B) : WellFormedBody c (tok :: B)
  | last_line (c : column_t) (H : input_t) (hH : LineHead c H) : WellFormedBody c H
  | line_semicolon (c : column_t) (H : input_t) (tok : filter_token) (B : input_t)
      (hH : LineHead c H) (hd : tok.data = filter_data.semicolon_separator)
      (hB : WellFormedBody c B) : WellFormedBody c (H ++ tok :: B)
  | line_new_line (c : column_t) (X : input_t) (tok : filter_token) (B : input_t)
      (hne : X ≠ []) (hX : ∀ t ∈ X, t.is_marker = false)
      (hd : tok.data = filter_data.new_line_indentation) (hcol : get_indent_column tok = c)
      (hB : WellFormedBody c B) : WellFormedBody c (X ++ tok :: B)
  | line_block (c c' : column_t) (H : input_t) (bs : filter_token) (inner : input_t)
      (be : filter_token) (B : input_t) (hH : LineHead c H)
      (hbs : bs.data = filter_data.block_start_indentation)
      (hcs : get_indent_column bs = c') (hlt : c < c') (hinner : WellFormedBody c' inner)
      (hbe : be.data = filter_data.block_end_indentation) (hce : get_indent_column be = c)
      (hB : WellFormedBody c B) : WellFormedBody c (H ++ bs :: (inner ++ be :: B))

/-- A well-formed input of `parse`: behind the leading `new_line_indentation`, if there is one,
the tokens of a well-formed block of the column of the root block. -/
def WellFormed (input : input_t) : Prop :=
  match input with
  | [] => True
  | tok :: rest =>
    match tok.data with
    | .new_line_indentation => WellFormedBody (get_indent_column tok) rest
    | _ => WellFormedBody 0 (tok :: rest)

end parser.block

/-! ## Matching of the left expression: the rule of the specification -/

namespace parser.Parser

open Instance (Name Entry Scope Function Parameter Variable InstanceType ParameterSide)

/-- The field carries a value and a name, and the name is the name of a left parameter of the
function. -/
def names_left_parameter (f : Function) (typed : NameTypeValue) : Bool :=
  typed.value.isSome &&
    match typed.name with
    | some name =>
      match f.lookupParameter name with
      | some param => param.side == ParameterSide.left
      | none => false
    | none => false

/-- The field carries a value and a name, and the name is not the name of a left parameter of
the function: it names no parameter, or one whose side is not left. -/
def names_no_left_parameter (f : Function) (typed : NameTypeValue) : Bool :=
  typed.value.isSome && typed.name.isSome && !names_left_parameter f typed

/-- The field carries a value and no name. -/
def is_positional (typed : NameTypeValue) : Bool :=
  typed.value.isSome && typed.name.isNone

/-- The number of matched fields of the left tuple: the named fields that name a left
parameter, plus the unnamed fields as far as there are left parameters for them. -/
def matched_fields (f : Function) (left : List NameTypeValue) : Nat :=
  left.countP (names_left_parameter f) +
    min (left.countP is_positional) f.leftParameters.length

/-- The rule of the specification for phase 1, over the fields of the left tuple that carry a
value: (a) a named field names no parameter or one whose side is not left, or (b) there are
more unnamed fields than left parameters, or (c) the number of matched fields differs from the
number of left parameters. -/
def claimed_retired (f : Function) (left : List NameTypeValue) : Bool :=
  left.any (names_no_left_parameter f) ||
    decide (f.leftParameters.length < left.countP is_positional) ||
    decide (matched_fields f left ≠ f.leftParameters.length)

/-- The rule as amended: a field of the left tuple carries no value, or the rule of the
specification holds for the fields that carry one. -/
def retired (f : Function) (left : List NameTypeValue) : Bool :=
  left.any (fun typed => typed.value.isNone) || claimed_retired f left

/-- The left tuple `(x :)`: one field with the name `x`, no type and no value. -/
def valueless_left : List NameTypeValue := [NameTypeValue.mk (some "x") none none]

/-- The tokens of the line `y = ( x : ) g 1`. -/
def line_valueless_g_1 : List nesting.Token :=
  [nesting.Token.IdentifierLiteral "y", nesting.Token.OperatorLiteral "=",
    nesting.Token.BracketOpen, nesting.Token.IdentifierLiteral "x",
    nesting.Token.ColonSeparator, nesting.Token.BracketClose,
    nesting.Token.IdentifierLiteral "g", nesting.Token.NumberLiteral "1"]

/-- The tokens of the line `y = ( ) g 1`. -/
def line_unit_g_1 : List nesting.Token :=
  [nesting.Token.IdentifierLiteral "y", nesting.Token.OperatorLiteral "=",
    nesting.Token.BracketOpen, nesting.Token.BracketClose,
    nesting.Token.IdentifierLiteral "g", nesting.Token.NumberLiteral "1"]

end parser.Parser

/-! ## Loops, cursors and bound parameters of the semantic parser: sample inputs -/

namespace parser.Parser

open Instance (Name Entry Scope Function Parameter Variable InstanceType ParameterSide)

/-- A token kind none of the visitors of `parseStep` names: a comment or white space. -/
def is_unnamed_kind : nesting.Token → Bool
  | nesting.Token.CommentLiteral => true
  | nesting.Token.WhiteSpaceSeparator => true
  | _ => false

/-- The tokens of a line that holds one comment. -/
def line_comment : List nesting.Token := [nesting.Token.CommentLiteral]

/-- The right parameter `a` whose type is a pointer to `single_token_type`, so that its
argument is read by the `SingleToken` parser. -/
def single_token_param : Parameter :=
  ⟨"a", TypeExpression.Pointer (TypeExpression.TypeInstance single_token_type),
    ParameterSide.right, false⟩

/-- A function `s` with the single right parameter `single_token_param`. -/
def single_token_function : Function := ⟨"s", false, [single_token_param]⟩

/-- A scope that binds `s` to `single_token_function`. -/
def single_token_scope : Scope := [("s", Entry.function single_token_function)]

/-- The tokens of the line `s ( (`. -/
def line_s_open_open : List nesting.Token :=
  [nesting.Token.IdentifierLiteral "s", nesting.Token.BracketOpen, nesting.Token.BracketOpen]

/-- The candidate for `s` with its cursor on the second bracket of `s ( (`. -/
def stuck_candidate : Overload :=
  { active := true
    complete := false
    hasBlocks := false
    function := single_token_function
    it := ⟨line_s_open_open, 2⟩
    rightArgs := []
    nextArg := 0 }

/-- The tokens of the line `x :`. -/
def line_x_colon : List nesting.Token :=
  [nesting.Token.IdentifierLiteral "x", nesting.Token.ColonSeparator]

/-- The tokens of the line `s a =`. -/
def line_s_a_assign : List nesting.Token :=
  [nesting.Token.IdentifierLiteral "s", nesting.Token.IdentifierLiteral "a",
    nesting.Token.OperatorLiteral "="]

/-- A function `p` whose only parameter is the left parameter `l`. -/
def left_only_function : Function := ⟨"p", false, [infix_left]⟩

/-- A function `q` whose only parameter is a result parameter. -/
def result_only_function : Function :=
  ⟨"q", false, [⟨"r", TypeExpression.Auto, ParameterSide.result, false⟩]⟩

/-- A scope that binds `p` to `left_only_function` and `q` to `result_only_function`. -/
def sided_scope : Scope :=
  [("p", Entry.function left_only_function), ("q", Entry.function result_only_function)]

/-- The tokens of the line `1 p 2`. -/
def line_1_p_2 : List nesting.Token :=
  [nesting.Token.NumberLiteral "1", nesting.Token.IdentifierLiteral "p",
    nesting.Token.NumberLiteral "2"]

/-- The tokens of the line `q 2`. -/
def line_q_2 : List nesting.Token :=
  [nesting.Token.IdentifierLiteral "q", nesting.Token.NumberLiteral "2"]

/-- The tokens of the line `g ( 2 ) 3`. -/
def line_g_brackets_3 : List nesting.Token :=
  [nesting.Token.IdentifierLiteral "g", nesting.Token.BracketOpen,
    nesting.Token.NumberLiteral "2", nesting.Token.BracketClose,
    nesting.Token.NumberLiteral "3"]

/-- The tokens of the line `g 2 3`. -/
def line_g_2_3 : List nesting.Token :=
  [nesting.Token.IdentifierLiteral "g", nesting.Token.NumberLiteral "2",
    nesting.Token.NumberLiteral "3"]

/-- The tokens of the line `g a = 1, 2`. -/
def line_g_a_1_2 : List nesting.Token :=
  [nesting.Token.IdentifierLiteral "g", nesting.Token.IdentifierLiteral "a",
    nesting.Token.OperatorLiteral "=", nesting.Token.NumberLiteral "1",
    nesting.Token.CommaSeparator, nesting.Token.NumberLiteral "2"]

/-- No parameter is bound twice: the parameters of the assignments are pairwise distinct. -/
def bound_once (arguments : ArgumentAssignments) : Prop :=
  (arguments.map ArgumentAssignment.parameter).Nodup

end parser.Parser

/-! ## Coroutine handles (`std::experimental::coroutine_handle<void>`) -/

namespace std.experimental

/-- The class `coroutine_handle<void>`, kept by the address it holds (`prefix.v`); addresses are
numbers, compared as such. -/
structure coroutine_handle where
  address : Nat
  deriving DecidableEq, Repr

/-- The function `operator==`. -/
def operator_eq (lhs rhs : coroutine_handle) : Bool :=
  lhs.address == rhs.address

/-- The function `operator!=`. -/
def operator_ne (lhs rhs : coroutine_handle) : Bool :=
  !(operator_eq lhs rhs)

/-- The function `operator<`. -/
def operator_lt (lhs rhs : coroutine_handle) : Bool :=
  decide (lhs.address < rhs.address)

/-- The function `operator>`. -/
def operator_gt (lhs rhs : coroutine_handle) : Bool :=
  !(operator_lt lhs rhs)

/-- The function `operator<=`. -/
def operator_le (lhs rhs : coroutine_handle) : Bool :=
  !(operator_gt lhs rhs)

/-- The function `operator>=`. -/
def operator_ge (lhs rhs : coroutine_handle) : Bool :=
  !(operator_lt lhs rhs)

end std.experimental

/-! # Properties -/

/-! ## `instance::lookup` -/

namespace Instance

theorem find_dot_at_dot (cs : List Char) : find_dot ('.' :: cs) = ([], '.' :: cs) := by
  simp [find_dot]

theorem find_dot_rest (cs : List Char) :
    (find_dot cs).2 = [] ∨ ∃ tl, (find_dot cs).2 = '.' :: tl := by
  induction cs with
  | nil => left; rfl
  | cons c cs ih =>
    by_cases hc : c = '.'
    · right; exact ⟨cs, by simp [find_dot, hc]⟩
    · simpa [find_dot, hc] using ih

theorem find_dot_rest_ne_nil (cs : List Char) (h : '.' ∈ cs) : (find_dot cs).2 ≠ [] := by
  induction cs with
  | nil => simp at h
  | cons c cs ih =>
    by_cases hc : c = '.'
    · simp [find_dot, hc]
    · have : '.' ∈ cs := by
        rcases List.mem_cons.1 h with h | h
        · exact absurd h.symm hc
        · exact h
      simpa [find_dot, hc] using ih this

/-- Once the loop of `lookup` stands at a dot it never leaves with an entry: `it2` is found at
`it` again, so the loop can only end by a throw. -/
theorem lookup_loop_at_dot (fuel : Nat) (cs : List Char) (range : List Entry) (e : Entry) :
    lookup_loop fuel ('.' :: cs) range ≠ .ok e := by
  induction fuel generalizing range with
  | zero => simp [lookup_loop]
  | succ n ih =>
    rw [lookup_loop]
    simp only [find_dot_at_dot, List.isEmpty_cons, Bool.false_eq_true, if_false]
    split
    · simp
    · rename_i range' _
      split
      · simp
      · exact ih range'

/-- The loop of `lookup` returns no entry for any name that holds a dot. -/
theorem lookup_dotted_never_returns (fuel : Nat) (scope : Scope) (name : String) (e : Entry)
    (h : '.' ∈ name.data) : lookup fuel scope name ≠ .ok e := by
  unfold lookup
  simp only
  split
  · simp
  · rcases find_dot_rest name.data with h0 | ⟨tl, htl⟩
    · exact absurd h0 (find_dot_rest_ne_nil _ h)
    · rw [htl]; exact lookup_loop_at_dot fuel tl _ e

/-- Claim C1, the code at the failing input. In `dotted_scope` the name `a` is bound to exactly
one module and its locals bind `b` to exactly one entry, yet `lookup(scope, "a.b")` does not
return that entry: the second segment is cut as the empty name and the call throws
"nested name not found". -/
theorem lookup_dotted_name_throws :
    dotted_scope.range "a" =
      [Entry.module "a" [("b", Entry.variable ⟨"b", parser.TypeExpression.Auto⟩)]] ∧
    Scope.range [("b", Entry.variable ⟨"b", parser.TypeExpression.Auto⟩)] "b" =
      [Entry.variable ⟨"b", parser.TypeExpression.Auto⟩] ∧
    ∀ fuel, lookup (fuel + 1) dotted_scope "a.b" = .error (.inr "nested name not found") := by
  refine ⟨rfl, rfl, ?_⟩
  intro fuel
  rfl

theorem find_dot_no_dot (cs : List Char) (h : '.' ∉ cs) : find_dot cs = (cs, []) := by
  induction cs with
  | nil => rfl
  | cons c cs ih =>
    have hc : c ≠ '.' := fun hc => h (by simp [hc])
    have hcs : '.' ∉ cs := fun hcs => h (List.mem_cons_of_mem _ hcs)
    simp [find_dot, hc, ih hcs]

theorem find_dot_first (cs tl : List Char) (h : '.' ∉ cs) :
    find_dot (cs ++ '.' :: tl) = (cs, '.' :: tl) := by
  induction cs with
  | nil => simp [find_dot]
  | cons c cs ih =>
    have hc : c ≠ '.' := fun hc => h (by simp [hc])
    have hcs : '.' ∉ cs := fun hcs => h (List.mem_cons_of_mem _ hcs)
    simp [find_dot, hc, ih hcs]

/-- Names without a dot: `lookup` returns an entry exactly when the
scope binds the name exactly once, and then it is the bound entry; it throws "name not found"
when the name is not bound or bound more than once. No fuel is needed. -/
theorem lookup_undotted (fuel : Nat) (scope : Scope) (name : String) (h : '.' ∉ name.data) :
    (∀ e, lookup fuel scope name = .ok e ↔ Scope.range scope name = [e]) ∧
    ((Scope.range scope name).length ≠ 1 →
      lookup fuel scope name = .error (.inr "name not found")) := by
  have hname : String.mk name.data = name := rfl
  have hl : lookup fuel scope name =
      if !single (Scope.range scope name) then .error (.inr "name not found")
      else front_value (Scope.range scope name) := by
    unfold lookup
    simp only [find_dot_no_dot _ h, hname]
    cases fuel <;> simp [lookup_loop]
  rw [hl]
  refine ⟨fun e => ?_, fun hne => ?_⟩
  · cases hr : Scope.range scope name with
    | nil => simp [single]
    | cons x xs =>
      cases xs with
      | nil => simp [single, front_value]
      | cons y ys => simp [single]
  · simp [single, hne]

/-- The first segment of a dotted name: when the scope binds the first
segment exactly once and the bound entry is no module, `lookup` throws "not a module!". -/
theorem lookup_first_segment_no_module (fuel : Nat) (scope : Scope) (first rest : List Char)
    (e : Entry) (hfirst : '.' ∉ first)
    (hrange : Scope.range scope (String.mk first) = [e]) (hmod : e.is_module = false) :
    lookup (fuel + 1) scope (String.mk (first ++ '.' :: rest)) =
      .error (.inr "not a module!") := by
  unfold lookup
  simp only [find_dot_first _ _ hfirst, hrange]
  cases e <;> simp [Entry.is_module] at hmod <;>
    simp [single, lookup_loop, visit_module]

/-- Every step of the loop of `lookup` that starts from an entry that is no module throws
"not a module!". -/
theorem lookup_loop_no_module (fuel : Nat) (it2 : List Char) (e : Entry) (range : List Entry)
    (hne : it2 ≠ []) (hmod : e.is_module = false) :
    lookup_loop (fuel + 1) it2 (e :: range) = .error (.inr "not a module!") := by
  cases it2 with
  | nil => exact absurd rfl hne
  | cons c cs =>
    cases e <;> simp [Entry.is_module] at hmod <;> simp [lookup_loop, visit_module]

/-- Claim C26, the code at the failing input. In `nested_scope` the name `a` is bound to one
module whose locals bind `b` to one variable, so in `a.b.c` the segment `b`, which is not the
last, resolves to an entry that is no module. `lookup` does throw, but "nested name not found",
not "not a module!": the segment behind the first dot is cut as the empty name, which the
locals of `a` do not bind, so the entry of `b` is never reached. For a first segment that is
no module (`v.b`) the text is "not a module!"; for names without a dot the entry is returned
exactly when the name is bound once. -/
theorem lookup_nested_segment_message :
    nested_scope.range "a" =
      [Entry.module "a" [("b", Entry.variable ⟨"b", parser.TypeExpression.Auto⟩)]] ∧
    Scope.range [("b", Entry.variable ⟨"b", parser.TypeExpression.Auto⟩)] "b" =
      [Entry.variable ⟨"b", parser.TypeExpression.Auto⟩] ∧
    (∀ fuel, lookup (fuel + 1) nested_scope "a.b.c" =
      .error (.inr "nested name not found")) ∧
    (∀ fuel, lookup (fuel + 1) nested_scope "v.b" = .error (.inr "not a module!")) ∧
    (∀ fuel, lookup fuel nested_scope "v" =
      .ok (Entry.variable ⟨"v", parser.TypeExpression.Auto⟩)) ∧
    (∀ fuel, lookup fuel nested_scope "w" = .error (.inr "name not found")) ∧
    (∀ fuel, lookup fuel double_scope "v" = .error (.inr "name not found")) := by
  refine ⟨rfl, rfl, fun fuel => rfl, fun fuel => rfl, fun fuel => ?_, fun fuel => ?_,
    fun fuel => ?_⟩
  · cases fuel <;> rfl
  · cases fuel <;> rfl
  · cases fuel <;> rfl

theorem lookup_first_segment_no_module_sample :
    lookup (0 + 1) nested_scope (String.mk (['v'] ++ '.' :: ['b'])) =
      .error (.inr "not a module!") :=
  lookup_first_segment_no_module 0 nested_scope ['v'] ['b']
    (Entry.variable ⟨"v", parser.TypeExpression.Auto⟩) (by decide) rfl rfl

theorem lookup_undotted_sample :
    lookup 0 nested_scope "v" = .ok (Entry.variable ⟨"v", parser.TypeExpression.Auto⟩) :=
  ((lookup_undotted 0 nested_scope "v" (by decide)).1 _).2 rfl

end Instance

/-! ## Block grouper -/

namespace parser.block

theorem is_empty_eq_true {α : Type} {l : List α} (h : l.isEmpty = true) : l = [] := by
  simpa using h

theorem flatten_line_append (a b : List token) :
    flatten_line (a ++ b) = flatten_line a ++ flatten_line b := by
  induction a with
  | nil => simp [flatten_line]
  | cons t ts ih => simp [flatten_line, ih]

theorem flatten_lines_append (a b : List (List token)) :
    flatten_lines (a ++ b) = flatten_lines a ++ flatten_lines b := by
  induction a with
  | nil => simp [flatten_lines]
  | cons t ts ih => simp [flatten_lines, ih]

theorem flatten_translate (tok : filter_token) (h : tok.is_marker = false) :
    (translate tok).flatten = [translate tok] := by
  unfold translate
  unfold filter_token.is_marker at h
  split <;> simp_all [token.flatten]

theorem leaf_tokens_nil : leaf_tokens [] = [] := rfl

theorem leaf_tokens_append (a b : input_t) :
    leaf_tokens (a ++ b) = leaf_tokens a ++ leaf_tokens b := by
  simp [leaf_tokens]

theorem leaf_tokens_marker (tok : filter_token) (h : tok.is_marker = true) :
    leaf_tokens [tok] = [] := by
  simp [leaf_tokens, h]

theorem leaf_tokens_leaf (tok : filter_token) (h : tok.is_marker = false) :
    leaf_tokens [tok] = [translate tok] := by
  simp [leaf_tokens, h]

theorem consumes_refl (before : List token) (input : input_t) :
    Consumes before input before input :=
  ⟨[], by simp, by simp [leaf_tokens_nil]⟩

theorem consumes_trans {a b c : List token} {i j k : input_t}
    (h₁ : Consumes a i b j) (h₂ : Consumes b j c k) : Consumes a i c k := by
  obtain ⟨c₁, hi, hb⟩ := h₁
  obtain ⟨c₂, hj, hc⟩ := h₂
  exact ⟨c₁ ++ c₂, by simp [hi, hj], by simp [hc, hb, leaf_tokens_append]⟩

theorem consumes_marker (before : List token) (tok : filter_token) (rest : input_t)
    (h : tok.is_marker = true) : Consumes before (tok :: rest) before rest :=
  ⟨[tok], by simp, by simp [leaf_tokens_marker tok h]⟩

theorem consumes_leaf (before : List token) (tok : filter_token) (rest : input_t)
    (h : tok.is_marker = false) :
    Consumes before (tok :: rest) (before ++ [translate tok]) rest :=
  ⟨[tok], by simp, by simp [leaf_tokens_leaf tok h]⟩

theorem consumes_frame {after : List token} {i j : input_t} (before : List token)
    (h : Consumes [] i after j) : Consumes before i (before ++ after) j := by
  obtain ⟨c, hi, ha⟩ := h
  exact ⟨c, hi, by simp [ha]⟩

theorem extract_line_tokens_consumes (input : input_t) :
    ∀ (ln ln' : line) (rest : input_t), extract_line_tokens ln input = .ok (ln', rest) →
      Consumes (flatten_line ln) input (flatten_line ln') rest := by
  induction input with
  | nil => intro ln ln' rest h; simp [extract_line_tokens] at h
  | cons tok tl ih =>
    intro ln ln' rest h
    simp only [extract_line_tokens] at h
    split at h
    · simp at h; obtain ⟨rfl, rfl⟩ := h; exact consumes_refl _ _
    · rename_i hm
      have hm' : tok.is_marker = false := by simpa using hm
      have h1 := consumes_leaf (flatten_line ln) tok tl hm'
      have hf : flatten_line (ln ++ [translate tok]) = flatten_line ln ++ [translate tok] := by
        simp [flatten_line_append, flatten_line, flatten_translate tok hm']
      split at h
      · rename_i he
        simp at h; obtain ⟨rfl, rfl⟩ := h
        rw [hf]
        have := is_empty_eq_true he
        subst this
        exact h1
      · have h2 := ih _ _ _ h
        rw [hf] at h2
        exact consumes_trans h1 h2

/-- The four loops of the grouper only ever grow their result by copies of consumed tokens. -/
theorem loops_consume (fuel : Nat) :
    (∀ p ln e input ln' rest, parse_line_outer fuel p ln e input = .ok (ln', rest) →
      Consumes (flatten_line ln) input (flatten_line ln') rest) ∧
    (∀ p ln e input ln' rest, parse_line_inner fuel p ln e input = .ok (ln', rest) →
      Consumes (flatten_line ln) input (flatten_line ln') rest) ∧
    (∀ p ln e tok tl ln' rest, tok.is_marker = true →
      parse_line_continue fuel p ln e (tok :: tl) = .ok (ln', rest) →
      Consumes (flatten_line ln) (tok :: tl) (flatten_line ln') rest) ∧
    (∀ c lines input lines' rest, parse_block_skip fuel c lines input = .ok (lines', rest) →
      Consumes (flatten_lines lines) input (flatten_lines lines') rest) := by
  induction fuel with
  | zero =>
    refine ⟨?_, ?_, ?_, ?_⟩ <;> intros <;> simp_all [parse_line_outer, parse_line_inner,
      parse_line_continue, parse_block_skip]
  | succ n ih =>
    obtain ⟨ihO, ihI, ihC, ihS⟩ := ih
    refine ⟨?_, ?_, ?_, ?_⟩
    · intro p ln e input ln' rest h
      simp only [parse_line_outer] at h
      split at h
      · simp at h
      · rename_i ln1 input1 hx
        have hx' := extract_line_tokens_consumes _ _ _ _ hx
        split at h
        · simp at h; obtain ⟨rfl, rfl⟩ := h
          exact hx'
        · exact consumes_trans hx' (ihI _ _ _ _ _ _ h)
    · intro p ln e input ln' rest h
      cases input with
      | nil => simp [parse_line_inner] at h
      | cons tok tl =>
        simp only [parse_line_inner] at h
        split at h
        · rename_i hd
          simp at h; obtain ⟨rfl, rfl⟩ := h
          exact consumes_marker _ _ _ (by simp [filter_token.is_marker, hd])
        · rename_i hd
          have hm : tok.is_marker = true := by simp [filter_token.is_marker, hd]
          split at h
          · simp at h; obtain ⟨rfl, rfl⟩ := h; exact consumes_refl _ _
          · split at h
            · simp at h; obtain ⟨rfl, rfl⟩ := h; exact consumes_refl _ _
            · exact ihC _ _ _ _ _ _ _ hm h
        · rename_i hd
          have hm : tok.is_marker = true := by simp [filter_token.is_marker, hd]
          split at h
          · simp at h; obtain ⟨rfl, rfl⟩ := h; exact consumes_refl _ _
          · split at h
            · simp at h; obtain ⟨rfl, rfl⟩ := h; exact consumes_marker _ _ _ hm
            · split at h
              · simp at h; obtain ⟨rfl, rfl⟩ := h; exact consumes_marker _ _ _ hm
              · exact consumes_trans (consumes_marker _ _ _ hm) (ihI _ _ _ _ _ _ h)
        · rename_i hd
          have hm : tok.is_marker = true := by simp [filter_token.is_marker, hd]
          have hflat : ∀ r, flatten_line (ln ++ [token.block r block_literal.empty]) =
              flatten_line ln := by
            intro r
            simp [flatten_line_append, flatten_line, token.flatten, block_literal.flatten,
              block_literal.empty, flatten_lines]
          split at h
          · simp at h; obtain ⟨rfl, rfl⟩ := h
            rw [hflat]; exact consumes_refl _ _
          · split at h
            · split at h
              · simp at h; obtain ⟨rfl, rfl⟩ := h
                rw [hflat]; exact consumes_marker _ _ _ hm
              · have := ihI _ _ _ _ _ _ h
                rw [hflat] at this
                exact consumes_trans (consumes_marker _ _ _ hm) this
            · split at h
              · simp at h
              · rename_i lines input1 hb
                have h1 := ihS _ _ _ _ _ hb
                have h2 := ihI _ _ _ _ _ _ h
                have h3 := consumes_frame (flatten_line ln) h1
                have hf : flatten_line (ln ++ [token.block tok.range (block_literal.mk lines)]) =
                    flatten_line ln ++ (flatten_lines [] ++ flatten_lines lines) := by
                  simp [flatten_line_append, flatten_line, token.flatten, block_literal.flatten,
                    flatten_lines]
                rw [hf] at h2
                simp only [flatten_lines, List.nil_append] at h3 h2
                exact consumes_trans h3 h2
        · exact ihO _ _ _ _ _ _ h
    · intro p ln e tok tl ln' rest hm h
      simp only [parse_line_continue, List.tail_cons] at h
      have h0 := consumes_marker (flatten_line ln) tok tl hm
      split at h
      · simp at h; obtain ⟨rfl, rfl⟩ := h; exact h0
      · split at h
        · simp at h
        · rename_i ln1 input1 hx
          have hx' := consumes_trans h0 (extract_line_tokens_consumes _ _ _ _ hx)
          split at h
          · simp at h; obtain ⟨rfl, rfl⟩ := h; exact hx'
          · split at h
            · rename_i tok2 rest2 hd
              exact consumes_trans hx' (ihC _ _ _ _ _ _ _ (by simp [filter_token.is_marker, hd]) h)
            · exact consumes_trans hx' (ihI _ _ _ _ _ _ h)
    · intro c lines input lines' rest h
      cases input with
      | nil => simp [parse_block_skip] at h
      | cons tok tl =>
        simp only [parse_block_skip] at h
        have skip : tok.is_marker = true →
            ((if tl.isEmpty = true then Except.ok (lines, tl)
              else parse_block_skip n c lines tl) = Except.ok (lines', rest)) →
            Consumes (flatten_lines lines) (tok :: tl) (flatten_lines lines') rest := by
          intro hm h
          split at h
          · simp at h; obtain ⟨rfl, rfl⟩ := h; exact consumes_marker _ _ _ hm
          · exact consumes_trans (consumes_marker _ _ _ hm) (ihS _ _ _ _ _ h)
        split at h
        · rename_i hd
          exact skip (by simp [filter_token.is_marker, hd]) h
        · rename_i hd
          split at h
          · simp at h; obtain ⟨rfl, rfl⟩ := h; exact consumes_refl _ _
          · exact skip (by simp [filter_token.is_marker, hd]) h
        · rename_i hd
          split at h
          · simp at h; obtain ⟨rfl, rfl⟩ := h; exact consumes_refl _ _
          · exact skip (by simp [filter_token.is_marker, hd]) h
        · rename_i hd
          split at h
          · simp at h; obtain ⟨rfl, rfl⟩ := h; exact consumes_refl _ _
          · exact skip (by simp [filter_token.is_marker, hd]) h
        · split at h
          · simp at h
          · rename_i ln1 input1 hl
            have h1 := consumes_frame (flatten_lines lines) (ihO _ _ _ _ _ _ hl)
            simp only [flatten_line, List.append_nil] at h1
            have hf : flatten_lines (lines ++ [ln1]) = flatten_lines lines ++ flatten_line ln1 := by
              simp [flatten_lines_append, flatten_lines]
            split at h
            · simp at h; obtain ⟨rfl, rfl⟩ := h
              rw [hf]; exact h1
            · have h2 := ihS _ _ _ _ _ h
              rw [hf] at h2
              exact consumes_trans h1 h2


theorem leaf_tokens_eq_filterMap (input : input_t) :
    leaf_tokens input = input.filterMap leaf_copy := by
  induction input with
  | nil => rfl
  | cons tok tl ih =>
    have hc : leaf_tokens (tok :: tl) = leaf_tokens [tok] ++ leaf_tokens tl :=
      leaf_tokens_append [tok] tl
    rw [hc, ih]
    cases hd : tok.data <;>
      simp [leaf_tokens, List.filterMap, filter_token.is_marker, leaf_copy, hd, translate]

theorem parse_consumes (fuel : Nat) (input : input_t) (tree : block_literal) (rest : input_t)
    (h : parse fuel input = .ok (tree, rest)) :
    Consumes [] input tree.flatten rest := by
  have key : ∀ c inp, parse_block fuel inp c = .ok (tree, rest) →
      Consumes [] inp tree.flatten rest := by
    intro c inp h
    simp only [parse_block] at h
    split at h
    · simp at h
    · rename_i lines input1 hb
      simp at h; obtain ⟨rfl, rfl⟩ := h
      simpa [flatten_lines, block_literal.flatten] using (loops_consume fuel).2.2.2 _ _ _ _ _ hb
  cases input with
  | nil =>
    simp [parse] at h; obtain ⟨rfl, rfl⟩ := h
    exact consumes_refl _ _
  | cons tok tl =>
    simp only [parse] at h
    split at h
    · rename_i hd
      have hm : tok.is_marker = true := by simp [filter_token.is_marker, hd]
      split at h
      · simp at h; obtain ⟨rfl, rfl⟩ := h
        exact consumes_marker _ _ _ hm
      · exact consumes_trans (consumes_marker _ _ _ hm) (key _ _ h)
    · exact key _ _ h

theorem consumes_length {before after : List token} {input rest : input_t}
    (h : Consumes before input after rest) : rest.length ≤ input.length := by
  obtain ⟨c, hi, _⟩ := h
  rw [hi]; simp

theorem extract_line_tokens_ok (input : input_t) (hne : input ≠ []) :
    ∀ ln : line, ∃ ln' rest, extract_line_tokens ln input = .ok (ln', rest) ∧
      rest.length ≤ input.length ∧
      (∀ tok tl, rest = tok :: tl → tok.is_marker = true) ∧
      (∀ tok tl, input = tok :: tl → tok.is_marker = false → rest.length < input.length) := by
  induction input with
  | nil => exact absurd rfl hne
  | cons tok tl ih =>
    intro ln
    simp only [extract_line_tokens]
    by_cases hm : tok.is_marker = true
    · refine ⟨ln, tok :: tl, by simp [hm], le_refl _, ?_, ?_⟩
      · intro tok' tl' h; cases h; exact hm
      · intro tok' tl' h hm'; cases h; rw [hm] at hm'; cases hm'
    · have hm' : tok.is_marker = false := by simpa using hm
      by_cases hemp : tl.isEmpty = true
      · refine ⟨ln ++ [translate tok], [], by simp [hm', hemp], by simp, ?_, ?_⟩
        · intro tok' tl' h; cases h
        · intro _ _ _ _; simp
      · have htl : tl ≠ [] := by simpa using hemp
        obtain ⟨ln', rest, hx, hlen, hmark, _⟩ := ih htl (ln ++ [translate tok])
        refine ⟨ln', rest, by simp [hm', hemp, hx], by simp; omega, hmark, ?_⟩
        intro _ _ _ _; simp; omega

theorem fuel_at_marker (tok : filter_token) (tl : input_t) (m l : Nat)
    (h : tok.is_marker = true) : fuel_at (tok :: tl) m l = 4 * (tl.length + 1) + m := by
  simp [fuel_at, h]

theorem fuel_at_leaf (tok : filter_token) (tl : input_t) (m l : Nat)
    (h : tok.is_marker = false) : fuel_at (tok :: tl) m l = 4 * (tl.length + 1) + l := by
  simp [fuel_at, h]

theorem fuel_at_le (input : input_t) (m l : Nat) (h : m ≤ l) :
    fuel_at input m l ≤ 4 * input.length + l := by
  unfold fuel_at
  split
  · split <;> omega
  · omega

theorem fuel_at_pos (input : input_t) (m l : Nat) (hm : 0 < m) (hl : 0 < l) :
    0 < fuel_at input m l := by
  unfold fuel_at
  split
  · split <;> omega
  · omega

/-- A line that starts at a token that is no marker consumes that token. -/
theorem parse_line_outer_progress (n : Nat) (p : column_t) (ln ln' : line) (e : Bool)
    (tok : filter_token) (tl rest : input_t) (hm : tok.is_marker = false)
    (h : parse_line_outer n p ln e (tok :: tl) = .ok (ln', rest)) :
    rest.length ≤ tl.length := by
  cases n with
  | zero => simp [parse_line_outer] at h
  | succ n =>
    obtain ⟨ln₁, r₁, hx, _, _, hlt⟩ := extract_line_tokens_ok (tok :: tl) (by simp) ln
    have hlt' := hlt tok tl rfl hm
    simp only [parse_line_outer, hx] at h
    split at h
    · simp at h; obtain ⟨_, rfl⟩ := h
      simp at hlt'; omega
    · have := consumes_length ((loops_consume n).2.1 _ _ _ _ _ _ h)
      simp at hlt'; omega

/-- The block loop consumes a marker it does not leave to the parent. -/
theorem parse_block_skip_progress (n : Nat) (c : column_t) (lines lines' : List line)
    (tok : filter_token) (tl rest : input_t)
    (hd : tok.data = filter_data.block_start_indentation) (hc : ¬ get_indent_column tok < c)
    (h : parse_block_skip n c lines (tok :: tl) = .ok (lines', rest)) :
    rest.length ≤ tl.length := by
  cases n with
  | zero => simp [parse_block_skip] at h
  | succ n =>
    simp only [parse_block_skip, hd, hc, if_false] at h
    split at h
    · simp at h; obtain ⟨_, rfl⟩ := h; exact le_refl _
    · exact consumes_length ((loops_consume n).2.2.2 _ _ _ _ _ h)


theorem error_ne_fuel_of {α β : Type} {x : Except Fault α} {e : Fault}
    (hx : x ≠ .error Fault.fuel) (he : x = .error e) :
    (Except.error e : Except Fault β) ≠ .error Fault.fuel := by
  intro h
  cases h
  exact hx he

/-- With four units of fuel for each remaining token (and a few more) no loop of the grouper
runs out of fuel: every loop round and every recursive call consumes a token or returns. -/
theorem loops_fuel_adequate (n : Nat) :
    (∀ p ln e input, 4 * input.length + 3 ≤ n →
      parse_line_outer n p ln e input ≠ .error Fault.fuel) ∧
    (∀ p ln e input, fuel_at input 2 4 ≤ n →
      parse_line_inner n p ln e input ≠ .error Fault.fuel) ∧
    (∀ p ln e input, 4 * input.length + 1 ≤ n →
      parse_line_continue n p ln e input ≠ .error Fault.fuel) ∧
    (∀ c lines input, fuel_at input 1 4 ≤ n →
      parse_block_skip n c lines input ≠ .error Fault.fuel) := by
  induction n with
  | zero =>
    refine ⟨?_, ?_, ?_, ?_⟩
    · intro p ln e input h; omega
    · intro p ln e input h
      have := fuel_at_pos input 2 4 (by omega) (by omega); omega
    · intro p ln e input h; omega
    · intro c lines input h
      have := fuel_at_pos input 1 4 (by omega) (by omega); omega
  | succ n ih =>
    obtain ⟨ihO, ihI, ihC, ihS⟩ := ih
    refine ⟨?_, ?_, ?_, ?_⟩
    · -- parse_line_outer
      intro p ln e input hfuel
      cases input with
      | nil => simp [parse_line_outer, extract_line_tokens]
      | cons tok tl =>
        obtain ⟨ln₁, r₁, hx, hlen, hmark, _⟩ := extract_line_tokens_ok (tok :: tl) (by simp) ln
        simp only [parse_line_outer, hx]
        split
        · simp
        · cases r₁ with
          | nil => simp at *
          | cons t₁ tl₁ =>
            apply ihI
            rw [fuel_at_marker t₁ tl₁ 2 4 (hmark t₁ tl₁ rfl)]
            simp at hlen hfuel ⊢; omega
    · -- parse_line_inner
      intro p ln e input hfuel
      cases input with
      | nil => simp [parse_line_inner]
      | cons tok tl =>
        have hrest : ∀ k, 4 * (tl.length + 1) + 2 ≤ k + 1 → fuel_at tl 2 4 ≤ k := by
          intro k hk
          have := fuel_at_le tl 2 4 (by omega); omega
        simp only [parse_line_inner]
        split
        · simp
        · rename_i hd
          have hm : tok.is_marker = true := by simp [filter_token.is_marker, hd]
          rw [fuel_at_marker tok tl 2 4 hm] at hfuel
          split
          · simp
          · split
            · simp
            · apply ihC; simp; omega
        · rename_i hd
          have hm : tok.is_marker = true := by simp [filter_token.is_marker, hd]
          rw [fuel_at_marker tok tl 2 4 hm] at hfuel
          split
          · simp
          · split
            · simp
            · split
              · simp
              · exact ihI _ _ _ _ (hrest n hfuel)
        · rename_i hd
          have hm : tok.is_marker = true := by simp [filter_token.is_marker, hd]
          rw [fuel_at_marker tok tl 2 4 hm] at hfuel
          split
          · simp
          · rename_i hlt
            split
            · split
              · simp
              · exact ihI _ _ _ _ (hrest n hfuel)
            · have hskip : parse_block_skip n (get_indent_column tok) [] (tok :: tl) ≠
                  .error Fault.fuel := by
                apply ihS
                rw [fuel_at_marker tok tl 1 4 hm]; omega
              split
              · rename_i e' he'
                exact error_ne_fuel_of hskip he'
              · rename_i lines input₁ hb
                have hprog := parse_block_skip_progress n _ _ _ tok tl input₁ hd
                  (Nat.lt_irrefl _) hb
                apply ihI
                have := fuel_at_le input₁ 2 4 (by omega); omega
        · rename_i d hd
          have hm : tok.is_marker = false := by simp [filter_token.is_marker, hd]
          rw [fuel_at_leaf tok tl 2 4 hm] at hfuel
          apply ihO; simp; omega
    · -- parse_line_continue
      intro p ln e input hfuel
      simp only [parse_line_continue]
      split
      · simp
      · rename_i hemp
        have htl : input.tail ≠ [] := by simpa using hemp
        have hlen_tail : input.tail.length + 1 ≤ input.length := by
          cases input with
          | nil => simp at htl
          | cons _ _ => simp
        obtain ⟨ln₁, r₁, hx, hlen, hmark, hstrict⟩ := extract_line_tokens_ok input.tail htl ln
        simp only [hx]
        split
        · simp
        · rename_i tok₁ rest₁
          have hm := hmark tok₁ rest₁ rfl
          simp at hlen
          split
          · apply ihC; simp; omega
          · apply ihI
            rw [fuel_at_marker tok₁ rest₁ 2 4 hm]; omega
    · -- parse_block_skip
      intro c lines input hfuel
      cases input with
      | nil => simp [parse_block_skip]
      | cons tok tl =>
        have hrest : ∀ k, 4 * (tl.length + 1) + 1 ≤ k + 1 → fuel_at tl 1 4 ≤ k := by
          intro k hk
          have := fuel_at_le tl 1 4 (by omega); omega
        have skip : tok.is_marker = true →
            (if tl.isEmpty = true then Except.ok (lines, tl)
              else parse_block_skip n c lines tl) ≠ Except.error Fault.fuel := by
          intro hm
          rw [fuel_at_marker tok tl 1 4 hm] at hfuel
          split
          · simp
          · exact ihS _ _ _ (hrest n hfuel)
        simp only [parse_block_skip]
        split
        · rename_i hd
          exact skip (by simp [filter_token.is_marker, hd])
        · rename_i hd
          split
          · simp
          · exact skip (by simp [filter_token.is_marker, hd])
        · rename_i hd
          split
          · simp
          · exact skip (by simp [filter_token.is_marker, hd])
        · rename_i hd
          split
          · simp
          · exact skip (by simp [filter_token.is_marker, hd])
        · rename_i d hd
          have hm : tok.is_marker = false := by simp [filter_token.is_marker, hd]
          rw [fuel_at_leaf tok tl 1 4 hm] at hfuel
          have hline : parse_line_outer n c [] false (tok :: tl) ≠ .error Fault.fuel := by
            apply ihO; simp; omega
          split
          · rename_i e' he'
            exact error_ne_fuel_of hline he'
          · rename_i ln₁ input₁ hl
            have hprog := parse_line_outer_progress n c [] ln₁ false tok tl input₁ hm hl
            split
            · simp
            · apply ihS
              have := fuel_at_le input₁ 1 4 (by omega); omega

/-- With four units of fuel for each token of the input, and four more, `parse` does not run
out of fuel. -/
theorem parse_fuel_adequate (fuel : Nat) (input : input_t) (h : 4 * input.length + 4 ≤ fuel) :
    parse fuel input ≠ .error Fault.fuel := by
  have key : ∀ c (inp : input_t), 4 * inp.length + 4 ≤ fuel →
      parse_block fuel inp c ≠ .error Fault.fuel := by
    intro c inp hf
    have hs : parse_block_skip fuel c [] inp ≠ .error Fault.fuel := by
      apply (loops_fuel_adequate fuel).2.2.2
      have := fuel_at_le inp 1 4 (by omega); omega
    simp only [parse_block]
    split
    · rename_i e' he'
      exact error_ne_fuel_of hs he'
    · simp
  cases input with
  | nil => simp [parse]
  | cons tok tl =>
    simp only [parse]
    split
    · split
      · simp
      · apply key; simp at h; omega
    · exact key _ _ h

theorem except_cases {α : Type} (x : Except Fault α) (h : x ≠ .error Fault.fuel) :
    x = .error Fault.invalid_read ∨ ∃ a, x = .ok a := by
  cases x with
  | error e =>
    cases e with
    | fuel => exact absurd rfl h
    | invalid_read => left; rfl
  | ok a => right; exact ⟨a, rfl⟩

/-- Claim C2. With enough fuel (four units for each token and four more) `parse` on any finite
input either dereferences the exhausted cursor, which has no result, or returns a tree whose
tokens that are not block literals, read depth first in line order, are exactly the copies
(same source range, same payload) of the tokens of the consumed part of the input that are
neither `new_line_indentation`, `block_start_indentation`, `block_end_indentation` nor
`semicolon_separator`, in input order: none is dropped, duplicated or reordered. -/
theorem parse_keeps_leaf_tokens (fuel : Nat) (input : input_t)
    (hfuel : 4 * input.length + 4 ≤ fuel) :
    parse fuel input = .error Fault.invalid_read ∨
    ∃ tree rest consumed, parse fuel input = .ok (tree, rest) ∧
      input = consumed ++ rest ∧ tree.flatten = consumed.filterMap leaf_copy := by
  rcases except_cases _ (parse_fuel_adequate fuel input hfuel) with h | ⟨⟨tree, rest⟩, h⟩
  · left; exact h
  · right
    obtain ⟨consumed, hi, hf⟩ := parse_consumes fuel input tree rest h
    exact ⟨tree, rest, consumed, h, hi, by simpa [leaf_tokens_eq_filterMap] using hf⟩

theorem parse_keeps_leaf_tokens_witness :
    parse 32 [new_line 1, filter_id "a", block_start 4, filter_id "b", block_end 1,
        new_line 1, filter_id "c"] =
      .ok (block_literal.mk [[id "a", token.block (block_start 4).range (.mk [[id "b"]])],
        [id "c"]], []) ∧
    (parse 32 [new_line 1, filter_id "a", block_start 4, filter_id "b", block_end 1,
        new_line 1, filter_id "c"] = .error Fault.invalid_read ∨
      ∃ tree rest consumed,
        parse 32 [new_line 1, filter_id "a", block_start 4, filter_id "b", block_end 1,
          new_line 1, filter_id "c"] = .ok (tree, rest) ∧
        [new_line 1, filter_id "a", block_start 4, filter_id "b", block_end 1,
          new_line 1, filter_id "c"] = consumed ++ rest ∧
        tree.flatten = consumed.filterMap leaf_copy) :=
  ⟨rfl, parse_keeps_leaf_tokens 32 _ (by decide)⟩

mutual
theorem token_marker_free_eq : (t : token) →
    t.marker_free = t.flatten.all token.is_leaf_copy
  | .unset => by simp [token.marker_free, token.flatten, token.is_leaf_copy]
  | .leaf _ _ => by simp [token.marker_free, token.flatten, token.is_leaf_copy]
  | .block _ b => by
    simp only [token.marker_free, token.flatten]
    exact block_marker_free_eq b
theorem block_marker_free_eq : (b : block_literal) →
    b.marker_free = b.flatten.all token.is_leaf_copy
  | .mk ls => by
    simp only [block_literal.marker_free, block_literal.flatten]
    exact marker_free_lines_eq ls
theorem marker_free_lines_eq : (ls : List (List token)) →
    marker_free_lines ls = (flatten_lines ls).all token.is_leaf_copy
  | [] => by simp [marker_free_lines, flatten_lines]
  | l :: ls => by
    simp only [marker_free_lines, flatten_lines, List.all_append]
    rw [marker_free_line_eq l, marker_free_lines_eq ls]
theorem marker_free_line_eq : (l : List token) →
    marker_free_line l = (flatten_line l).all token.is_leaf_copy
  | [] => by simp [marker_free_line, flatten_line]
  | t :: ts => by
    simp only [marker_free_line, flatten_line, List.all_append]
    rw [token_marker_free_eq t, marker_free_line_eq ts]
end

theorem leaf_copy_is_leaf_copy {tok : filter_token} {t : token} (h : leaf_copy tok = some t) :
    t.is_leaf_copy = true ∧ tok.is_marker = false ∧ t = translate tok := by
  unfold leaf_copy at h
  split at h
  · rename_i d hd
    simp at h; subst h
    simp [token.is_leaf_copy, filter_token.is_marker, translate, hd]
  · simp at h

/-- Claim C3. With enough fuel `parse` either dereferences the exhausted cursor, which has no
result, or returns a tree in which no line at any depth holds the copy of a
`new_line_indentation`, `block_start_indentation`, `block_end_indentation` or
`semicolon_separator`: every element of every line is a nested block literal or a token, and
every such token is the copy `translate tok` of an input token `tok` that is no marker. -/
theorem parse_lines_hold_no_marker (fuel : Nat) (input : input_t)
    (hfuel : 4 * input.length + 4 ≤ fuel) :
    parse fuel input = .error Fault.invalid_read ∨
    ∃ tree rest, parse fuel input = .ok (tree, rest) ∧ tree.marker_free = true ∧
      ∀ t ∈ tree.flatten, ∃ tok ∈ input, tok.is_marker = false ∧ t = translate tok := by
  rcases except_cases _ (parse_fuel_adequate fuel input hfuel) with h | ⟨⟨tree, rest⟩, h⟩
  · left; exact h
  · right
    refine ⟨tree, rest, h, ?_⟩
    obtain ⟨consumed, hi, hf⟩ := parse_consumes fuel input tree rest h
    have hf' : tree.flatten = consumed.filterMap leaf_copy := by
      simpa [leaf_tokens_eq_filterMap] using hf
    constructor
    · rw [block_marker_free_eq, hf', List.all_eq_true]
      intro t ht
      obtain ⟨tok, _, htok⟩ := List.mem_filterMap.1 ht
      exact (leaf_copy_is_leaf_copy htok).1
    · intro t ht
      rw [hf'] at ht
      obtain ⟨tok, hmem, htok⟩ := List.mem_filterMap.1 ht
      refine ⟨tok, ?_, (leaf_copy_is_leaf_copy htok).2.1, (leaf_copy_is_leaf_copy htok).2.2⟩
      rw [hi]; exact List.mem_append_left _ hmem

theorem parse_lines_hold_no_marker_witness :
    parse 36 [new_line 1, filter_id "a", block_start 1, block_start 4, filter_id "b",
        block_end 6, semicolon, block_end 1] =
      .ok (block_literal.mk [[id "a", token.block (block_start 1).range block_literal.empty,
        token.block (block_start 4).range (.mk [[id "b"]])]], []) ∧
    (parse 36 [new_line 1, filter_id "a", block_start 1, block_start 4, filter_id "b",
        block_end 6, semicolon, block_end 1] = .error Fault.invalid_read ∨
      ∃ tree rest,
        parse 36 [new_line 1, filter_id "a", block_start 1, block_start 4, filter_id "b",
          block_end 6, semicolon, block_end 1] = .ok (tree, rest) ∧
        tree.marker_free = true ∧
        ∀ t ∈ tree.flatten, ∃ tok ∈ [new_line 1, filter_id "a", block_start 1, block_start 4,
          filter_id "b", block_end 6, semicolon, block_end 1],
          tok.is_marker = false ∧ t = translate tok) :=
  ⟨rfl, parse_lines_hold_no_marker 36 _ (by decide)⟩

theorem extract_line_tokens_run (X : List filter_token) (hX : ∀ t ∈ X, t.is_marker = false)
    (m : filter_token) (rest : input_t) (hm : m.is_marker = true) (ln : line) :
    extract_line_tokens ln (X ++ m :: rest) = .ok (ln ++ X.map translate, m :: rest) := by
  induction X generalizing ln with
  | nil => simp [extract_line_tokens, hm]
  | cons x xs ih =>
    have hx : x.is_marker = false := hX x (List.mem_cons_self _ _)
    have hxs : ∀ t ∈ xs, t.is_marker = false := fun t ht => hX t (List.mem_cons_of_mem _ ht)
    simp only [List.cons_append, extract_line_tokens, hx]
    simp [ih hxs]

theorem extract_line_tokens_all (X : List filter_token) (hX : ∀ t ∈ X, t.is_marker = false)
    (hne : X ≠ []) (ln : line) :
    extract_line_tokens ln X = .ok (ln ++ X.map translate, []) := by
  induction X generalizing ln with
  | nil => exact absurd rfl hne
  | cons x xs ih =>
    have hx : x.is_marker = false := hX x (List.mem_cons_self _ _)
    have hxs : ∀ t ∈ xs, t.is_marker = false := fun t ht => hX t (List.mem_cons_of_mem _ ht)
    simp only [extract_line_tokens, hx]
    cases xs with
    | nil => simp
    | cons y ys => simp [ih hxs]

theorem leaf_head_data {x : filter_token} (hx : x.is_marker = false) :
    ∃ d, x.data = filter_data.leaf d := by
  unfold filter_token.is_marker at hx
  split at hx
  · rename_i d hd; exact ⟨d, hd⟩
  · simp at hx

/-- A line that runs to the end of the input. -/
theorem parse_line_outer_all (n : Nat) (c : column_t) (ln : line) (e : Bool)
    (X : List filter_token) (hX : ∀ t ∈ X, t.is_marker = false) (hne : X ≠ []) :
    parse_line_outer (n + 1) c ln e X = .ok (ln ++ X.map translate, []) := by
  simp [parse_line_outer, extract_line_tokens_all X hX hne]

/-- A line that is ended by a semicolon. -/
theorem parse_line_outer_semicolon (n : Nat) (c : column_t) (ln : line) (e : Bool)
    (X : List filter_token) (hX : ∀ t ∈ X, t.is_marker = false)
    (semi : filter_token) (hs : semi.data = filter_data.semicolon_separator) (rest : input_t) :
    parse_line_outer (n + 2) c ln e (X ++ semi :: rest) = .ok (ln ++ X.map translate, rest) := by
  have hm : semi.is_marker = true := by simp [filter_token.is_marker, hs]
  simp [parse_line_outer, extract_line_tokens_run X hX semi rest hm, parse_line_inner, hs]

/-- The step of `parse_block` at a token that is no marker: one line is parsed. -/
theorem parse_block_skip_leaf (n : Nat) (c : column_t) (lines : List line) (x : filter_token)
    (rest : input_t) (ln : line) (input : input_t) (hx : x.is_marker = false)
    (hl : parse_line_outer n c [] false (x :: rest) = .ok (ln, input)) :
    parse_block_skip (n + 1) c lines (x :: rest) =
      if input.isEmpty then .ok (lines ++ [ln], input)
      else parse_block_skip n c (lines ++ [ln]) input := by
  obtain ⟨d, hd⟩ := leaf_head_data hx
  simp only [parse_block_skip, hd, hl]

theorem parse_block_skip_semicolon_split (n : Nat) (c : column_t) (lines : List line)
    (X Y : List filter_token) (semi : filter_token)
    (hX : ∀ t ∈ X, t.is_marker = false) (hY : ∀ t ∈ Y, t.is_marker = false)
    (hXne : X ≠ []) (hYne : Y ≠ []) (hs : semi.data = filter_data.semicolon_separator) :
    parse_block_skip (n + 3) c lines (X ++ semi :: Y) =
      .ok (lines ++ [X.map translate, Y.map translate], []) := by
  obtain ⟨x, xs, rfl⟩ := List.exists_cons_of_ne_nil hXne
  obtain ⟨y, ys, rfl⟩ := List.exists_cons_of_ne_nil hYne
  have hx : x.is_marker = false := hX x (List.mem_cons_self _ _)
  have hy : y.is_marker = false := hY y (List.mem_cons_self _ _)
  have h1 := parse_line_outer_semicolon n c [] false (x :: xs) hX semi hs (y :: ys)
  have h2 := parse_line_outer_all n c [] false (y :: ys) hY hYne
  rw [List.cons_append] at h1
  rw [List.cons_append, parse_block_skip_leaf _ _ _ _ _ _ _ hx h1]
  simp only [List.isEmpty_cons, Bool.false_eq_true, if_false, List.nil_append]
  rw [parse_block_skip_leaf _ _ _ _ _ _ _ hy h2]
  simp

/-- Claim C5. A semicolon splits a line into two lines of the same block: for runs `X` and `Y` of
tokens that are no markers, both not empty, `parse` and `parse_block` (at every block column)
turn `X`, semicolon, `Y` into the block with exactly the two lines `X` and `Y` (their copies),
in that order; the whole input is consumed and no element of either line is a block literal. -/
theorem semicolon_splits_line (fuel : Nat) (c : column_t) (X Y : List filter_token)
    (semi : filter_token)
    (hX : ∀ t ∈ X, t.is_marker = false) (hY : ∀ t ∈ Y, t.is_marker = false)
    (hXne : X ≠ []) (hYne : Y ≠ []) (hs : semi.data = filter_data.semicolon_separator) :
    parse (fuel + 3) (X ++ semi :: Y) =
      .ok (block_literal.mk [X.map translate, Y.map translate], []) ∧
    parse_block (fuel + 3) (X ++ semi :: Y) c =
      .ok (block_literal.mk [X.map translate, Y.map translate], []) ∧
    ∀ t ∈ X.map translate ++ Y.map translate, t.is_leaf_copy = true := by
  have hb : ∀ c, parse_block (fuel + 3) (X ++ semi :: Y) c =
      .ok (block_literal.mk [X.map translate, Y.map translate], []) := by
    intro c
    simp [parse_block, parse_block_skip_semicolon_split fuel c [] X Y semi hX hY hXne hYne hs]
  refine ⟨?_, hb c, ?_⟩
  · obtain ⟨x, xs, rfl⟩ := List.exists_cons_of_ne_nil hXne
    obtain ⟨d, hd⟩ := leaf_head_data (hX x (List.mem_cons_self _ _))
    have := hb 0
    simp only [List.cons_append] at this ⊢
    simp only [parse, hd]
    exact this
  · intro t ht
    rw [← List.map_append] at ht
    obtain ⟨tok, hmem, rfl⟩ := List.mem_map.1 ht
    have hm : tok.is_marker = false := by
      rcases List.mem_append.1 hmem with h | h
      · exact hX _ h
      · exact hY _ h
    obtain ⟨d, hd⟩ := leaf_head_data hm
    simp [translate, hd, token.is_leaf_copy]

theorem semicolon_splits_line_witness :
    parse (0 + 3) ([filter_id "x"] ++ semicolon :: [filter_id "y"]) =
      .ok (block_literal.mk [[filter_id "x"].map translate, [filter_id "y"].map translate], []) ∧
    parse_block (0 + 3) ([filter_id "x"] ++ semicolon :: [filter_id "y"]) 1 =
      .ok (block_literal.mk [[filter_id "x"].map translate, [filter_id "y"].map translate], []) ∧
    ∀ t ∈ [filter_id "x"].map translate ++ [filter_id "y"].map translate,
      t.is_leaf_copy = true :=
  semicolon_splits_line 0 1 [filter_id "x"] [filter_id "y"] semicolon
    (by simp [filter_id, filter_token.is_marker]) (by simp [filter_id, filter_token.is_marker])
    (by simp) (by simp) rfl


/-- A line that is ended by the `block_end_indentation` of an enclosing block. -/
theorem parse_line_outer_parent_end (n : Nat) (c : column_t) (ln : line)
    (Y : List filter_token) (hY : ∀ t ∈ Y, t.is_marker = false)
    (be : filter_token) (hbe : be.data = filter_data.block_end_indentation)
    (hcol : get_indent_column be < c) (rest : input_t) :
    parse_line_outer (n + 2) c ln false (Y ++ be :: rest) =
      .ok (ln ++ Y.map translate, be :: rest) := by
  have hm : be.is_marker = true := by simp [filter_token.is_marker, hbe]
  simp [parse_line_outer, extract_line_tokens_run Y hY be rest hm, parse_line_inner, hbe, hcol]

/-- A block that holds the single line `Y` and is left at the end marker of its parent. -/
theorem parse_block_skip_single_line (n : Nat) (c : column_t)
    (Y : List filter_token) (hY : ∀ t ∈ Y, t.is_marker = false) (hYne : Y ≠ [])
    (bs be : filter_token) (hbs : bs.data = filter_data.block_start_indentation)
    (hbe : be.data = filter_data.block_end_indentation)
    (hc : get_indent_column bs = c) (hcol : get_indent_column be < c) (rest : input_t) :
    parse_block_skip (n + 4) c [] (bs :: (Y ++ be :: rest)) =
      .ok ([Y.map translate], be :: rest) := by
  obtain ⟨y, ys, rfl⟩ := List.exists_cons_of_ne_nil hYne
  have hy : y.is_marker = false := hY y (List.mem_cons_self _ _)
  have h1 : parse_block_skip (n + 4) c [] (bs :: (y :: ys ++ be :: rest)) =
      parse_block_skip (n + 3) c [] (y :: ys ++ be :: rest) := by
    simp [parse_block_skip, hbs, hc]
  have h2 := parse_line_outer_parent_end n c [] (y :: ys) hY be hbe hcol rest
  rw [List.cons_append] at h2
  rw [h1, List.cons_append, parse_block_skip_leaf _ _ _ _ _ _ _ hy h2]
  simp [parse_block_skip, hbe, hcol]

/-- Claim C4. For runs `X` and `Y` of tokens that are no markers, both not empty, and columns
`p < c`: parsing `X`, `block_start` at column `c`, `Y`, `block_end` at column `p` as a block of
column `p` gives a block with exactly one line, the copies of `X` followed by one nested block
literal whose only line is the copies of `Y`; the whole input, the end marker included, is
consumed. -/
theorem nested_block_is_grouped (fuel : Nat) (p c : column_t) (X Y : List filter_token)
    (bs be : filter_token)
    (hX : ∀ t ∈ X, t.is_marker = false) (hY : ∀ t ∈ Y, t.is_marker = false)
    (hXne : X ≠ []) (hYne : Y ≠ [])
    (hbs : bs.data = filter_data.block_start_indentation)
    (hbe : be.data = filter_data.block_end_indentation)
    (hc : get_indent_column bs = c) (hp : get_indent_column be = p) (hpc : p < c) :
    parse_block (fuel + 7) (X ++ bs :: (Y ++ [be])) p =
      .ok (block_literal.mk [X.map translate ++
        [token.block bs.range (block_literal.mk [Y.map translate])]], []) := by
  have hskip : parse_block_skip (fuel + 7) p [] (X ++ bs :: (Y ++ [be])) =
      .ok ([X.map translate ++
        [token.block bs.range (block_literal.mk [Y.map translate])]], []) := by
    obtain ⟨x, xs, rfl⟩ := List.exists_cons_of_ne_nil hXne
    have hx : x.is_marker = false := hX x (List.mem_cons_self _ _)
    have hm : bs.is_marker = true := by simp [filter_token.is_marker, hbs]
    have hlt : get_indent_column be < c := by rw [hp]; exact hpc
    have h1 : ¬ get_indent_column bs < p := by rw [hc]; exact Nat.not_lt.2 (Nat.le_of_lt hpc)
    have h2 : ¬ get_indent_column bs = p := by rw [hc]; exact Nat.ne_of_gt hpc
    have hinner : parse_line_inner (fuel + 5) p (List.map translate (x :: xs)) false
        (bs :: (Y ++ [be])) =
        .ok (List.map translate (x :: xs) ++
          [token.block bs.range (block_literal.mk [Y.map translate])], []) := by
      rw [parse_line_inner]
      simp only [hbs, h1, h2, if_false]
      rw [hc, parse_block_skip_single_line fuel c Y hY hYne bs be hbs hbe hc hlt []]
      simp [parse_line_inner, hbe, hp]
    have houter : parse_line_outer (fuel + 6) p [] false (x :: xs ++ bs :: (Y ++ [be])) =
        .ok (List.map translate (x :: xs) ++
          [token.block bs.range (block_literal.mk [Y.map translate])], []) := by
      rw [parse_line_outer, extract_line_tokens_run (x :: xs) hX bs (Y ++ [be]) hm []]
      simpa using hinner
    rw [List.cons_append] at houter
    rw [List.cons_append, parse_block_skip_leaf _ _ _ _ _ _ _ hx houter]
    simp
  simp [parse_block, hskip]

theorem nested_block_is_grouped_witness :
    parse_block (0 + 7) ([filter_id "if", filter_id "a"] ++ block_start 4 ::
        ([filter_id "b"] ++ [block_end 1])) 1 =
      .ok (block_literal.mk [[filter_id "if", filter_id "a"].map translate ++
        [token.block (block_start 4).range
          (block_literal.mk [[filter_id "b"].map translate])]], []) :=
  nested_block_is_grouped 0 1 4 [filter_id "if", filter_id "a"] [filter_id "b"]
    (block_start 4) (block_end 1)
    (by simp [filter_id, filter_token.is_marker]) (by simp [filter_id, filter_token.is_marker])
    (by simp) (by simp) rfl rfl rfl rfl (by decide)

/-- Claim C6, the code at the failing input. After a continuation line the grouper does not
look at the column of the next `new_line_indentation`: `new_line(1) a new_line(4) b new_line(1) c`
comes out as the single line `a b c`, the marker `new_line(1)` in front of `c` is consumed
although its column equals the column of the block and no end is expected. -/
theorem continuation_swallows_line_break :
    parse 6 [new_line 1, filter_id "a", new_line 4, filter_id "b", new_line 1, filter_id "c"] =
      .ok (block_literal.mk [[id "a", id "b", id "c"]], []) ∧
    parse_line 5 [filter_id "a", new_line 4, filter_id "b", new_line 1, filter_id "c"] 1 =
      .ok ([id "a", id "b", id "c"], []) ∧
    parse 6 [new_line 1, filter_id "a", new_line 1, filter_id "c"] =
      .ok (block_literal.mk [[id "a"], [id "c"]], []) :=
  ⟨rfl, rfl, rfl⟩

/-! ### Shape of the tree and consumption of the input -/

/-- Claim C30. When `parse_line` meets a `block_start_indentation` whose column is lower than
the column of the parent block, it appends one empty block literal, carrying the range of the
marker, to the line and ends the line at once: the marker stays at the head of the cursor.
This holds in the loop of `parse_line` for every line collected so far, and for `parse_line`
itself after any run `X` of tokens that are no markers. -/
theorem parse_line_ends_at_lower_block_start (fuel : Nat) (p : column_t) (tok : filter_token)
    (rest : input_t) (hd : tok.data = filter_data.block_start_indentation)
    (hcol : get_indent_column tok < p) :
    (∀ (ln : line) (e : Bool),
      parse_line_inner (fuel + 1) p ln e (tok :: rest) =
        .ok (ln ++ [token.block tok.range block_literal.empty], tok :: rest)) ∧
    (∀ X : List filter_token, (∀ t ∈ X, t.is_marker = false) →
      parse_line (fuel + 2) (X ++ tok :: rest) p =
        .ok (X.map translate ++ [token.block tok.range (block_literal.mk [])],
          tok :: rest)) := by
  have hinner : ∀ (n : Nat) (ln : line) (e : Bool),
      parse_line_inner (n + 1) p ln e (tok :: rest) =
        .ok (ln ++ [token.block tok.range block_literal.empty], tok :: rest) := by
    intro n ln e
    rw [parse_line_inner]
    simp [hd, hcol]
  refine ⟨hinner fuel, fun X hX => ?_⟩
  have hm : tok.is_marker = true := by simp [filter_token.is_marker, hd]
  unfold parse_line
  rw [parse_line_outer, extract_line_tokens_run X hX tok rest hm []]
  simp only [List.isEmpty_cons, Bool.false_eq_true, if_false, List.nil_append]
  rw [hinner fuel]
  rfl

theorem parse_line_ends_at_lower_block_start_witness :
    parse_line (0 + 2) ([filter_id "a"] ++ block_start 2 :: [filter_id "b"]) 4 =
      .ok ([filter_id "a"].map translate ++
        [token.block (block_start 2).range (block_literal.mk [])],
        block_start 2 :: [filter_id "b"]) :=
  (parse_line_ends_at_lower_block_start 0 4 (block_start 2) [filter_id "b"] rfl
    (by decide)).2 [filter_id "a"] (by simp [filter_id, filter_token.is_marker])

/-- The loop of `parse_block` leaves the cursor exhausted or at an indentation marker whose
column is lower than the column of the block. -/
theorem parse_block_skip_rest (fuel : Nat) :
    ∀ (c : column_t) (lines : List line) (input : input_t) (lines' : List line)
      (rest : input_t), parse_block_skip fuel c lines input = .ok (lines', rest) →
      rest = [] ∨ ∃ tok tl, rest = tok :: tl ∧ tok.is_below c = true := by
  induction fuel with
  | zero => intro c lines input lines' rest h; simp [parse_block_skip] at h
  | succ n ih =>
    intro c lines input lines' rest h
    cases input with
    | nil => simp [parse_block_skip] at h
    | cons tok tl =>
      simp only [parse_block_skip] at h
      have skip : ((if tl.isEmpty = true then Except.ok (lines, tl)
            else parse_block_skip n c lines tl) = Except.ok (lines', rest)) →
          rest = [] ∨ ∃ tok tl, rest = tok :: tl ∧ tok.is_below c = true := by
        intro h
        split at h
        · rename_i he
          simp at h
          left; rw [← h.2]; exact is_empty_eq_true he
        · exact ih _ _ _ _ _ h
      split at h
      · exact skip h
      · rename_i hd
        split at h
        · rename_i hlt
          simp at h
          right; exact ⟨tok, tl, h.2.symm, by simp [filter_token.is_below, hd, hlt]⟩
        · exact skip h
      · rename_i hd
        split at h
        · rename_i hlt
          simp at h
          right; exact ⟨tok, tl, h.2.symm, by simp [filter_token.is_below, hd, hlt]⟩
        · exact skip h
      · rename_i hd
        split at h
        · rename_i hlt
          simp at h
          right; exact ⟨tok, tl, h.2.symm, by simp [filter_token.is_below, hd, hlt]⟩
        · exact skip h
      · split at h
        · simp at h
        · rename_i ln1 input1 hl
          split at h
          · rename_i he
            simp at h
            left; rw [← h.2]; exact is_empty_eq_true he
          · exact ih _ _ _ _ _ h

theorem is_below_zero (tok : filter_token) : tok.is_below 0 = false := by
  unfold filter_token.is_below
  split <;> simp

/-- Claim C25, the claim refuted. For the input `new_line(4) a new_line(1) b` the root block
has column 4; `parse` returns the block with the one line `a` and leaves `new_line(1) b`
unconsumed: the marker has a column lower than the column of the root block, `parse_line` and
`parse_block` hand it to a parent that does not exist. -/
theorem parse_leaves_lower_lines :
    parse 4 [new_line 4, filter_id "a", new_line 1, filter_id "b"] =
      .ok (block_literal.mk [[id "a"]], [new_line 1, filter_id "b"]) ∧
    (∀ fuel, parse (fuel + 4) [new_line 4, filter_id "a", new_line 1, filter_id "b"] =
      .ok (block_literal.mk [[id "a"]], [new_line 1, filter_id "b"])) := by
  refine ⟨rfl, fun fuel => ?_⟩
  simp [parse, parse_block, parse_block_skip, parse_line_outer, parse_line_inner,
    extract_line_tokens, new_line, filter_id, get_indent_column, filter_token.is_marker,
    translate, id]

/-- Claim C25 as amended. With enough fuel `parse` on any finite input either dereferences the
exhausted cursor, which has no result, or returns with the cursor exhausted or standing on a
`new_line_indentation`, `block_start_indentation` or `block_end_indentation` whose column is
lower than the column of the root block; the tokens from that marker on are left ungrouped.
The cursor is exhausted whenever no such marker of the input has a column lower than the column
of the root block, so for every input that does not start with a `new_line_indentation` (the
column of the root block is 0 then). -/
theorem parse_consumes_up_to_lower_marker (fuel : Nat) (input : input_t)
    (hfuel : 4 * input.length + 4 ≤ fuel) :
    parse fuel input = .error Fault.invalid_read ∨
    ∃ tree rest, parse fuel input = .ok (tree, rest) ∧
      (rest = [] ∨ ∃ tok tl, rest = tok :: tl ∧ tok.is_below (root_column input) = true) ∧
      ((∀ tok ∈ input, tok.is_below (root_column input) = false) → rest = []) ∧
      (root_column input = 0 → rest = []) := by
  rcases except_cases _ (parse_fuel_adequate fuel input hfuel) with h | ⟨⟨tree, rest⟩, h⟩
  · left; exact h
  · right
    refine ⟨tree, rest, h, ?_⟩
    have hrest : rest = [] ∨
        ∃ tok tl, rest = tok :: tl ∧ tok.is_below (root_column input) = true := by
      have key : ∀ c inp, parse_block fuel inp c = .ok (tree, rest) →
          rest = [] ∨ ∃ tok tl, rest = tok :: tl ∧ tok.is_below c = true := by
        intro c inp hb
        simp only [parse_block] at hb
        split at hb
        · simp at hb
        · rename_i lines input1 hs
          simp at hb
          rw [← hb.2]
          exact parse_block_skip_rest fuel c [] inp lines input1 hs
      cases input with
      | nil => simp [parse] at h; left; exact h.2
      | cons tok tl =>
        simp only [parse] at h
        split at h
        · rename_i hd
          split at h
          · rename_i he
            simp at h
            left; rw [← h.2]; exact is_empty_eq_true he
          · simpa [root_column, hd] using key _ _ h
        · rename_i hd
          have hroot : root_column (tok :: tl) = 0 := by
            simp only [root_column]
          rw [hroot]
          exact key _ _ h
    refine ⟨hrest, fun hall => ?_, fun hzero => ?_⟩
    · rcases hrest with h0 | ⟨tok, tl, hr, hb⟩
      · exact h0
      · obtain ⟨consumed, hi, _⟩ := parse_consumes fuel input tree rest h
        have hmem : tok ∈ input := by rw [hi, hr]; simp
        rw [hall tok hmem] at hb
        exact absurd hb (by simp)
    · rcases hrest with h0 | ⟨tok, tl, hr, hb⟩
      · exact h0
      · rw [hzero, is_below_zero] at hb
        exact absurd hb (by simp)

theorem parse_consumes_up_to_lower_marker_witness :
    parse 20 [new_line 4, filter_id "a", new_line 1, filter_id "b"] =
      .error Fault.invalid_read ∨
    ∃ tree rest, parse 20 [new_line 4, filter_id "a", new_line 1, filter_id "b"] =
        .ok (tree, rest) ∧
      (rest = [] ∨ ∃ tok tl, rest = tok :: tl ∧
        tok.is_below (root_column [new_line 4, filter_id "a", new_line 1, filter_id "b"]) =
          true) ∧
      ((∀ tok ∈ [new_line 4, filter_id "a", new_line 1, filter_id "b"],
        tok.is_below (root_column [new_line 4, filter_id "a", new_line 1, filter_id "b"]) =
          false) → rest = []) ∧
      (root_column [new_line 4, filter_id "a", new_line 1, filter_id "b"] = 0 → rest = []) :=
  parse_consumes_up_to_lower_marker 20 _ (by decide)

theorem line_filled_append (a b : List token) :
    line_filled (a ++ b) = (line_filled a && line_filled b) := by
  induction a with
  | nil => simp [line_filled]
  | cons t ts ih => simp [line_filled, ih, Bool.and_assoc]

theorem lines_filled_append (a b : List (List token)) :
    lines_filled (a ++ b) = (lines_filled a && lines_filled b) := by
  induction a with
  | nil => simp [lines_filled]
  | cons l ls ih => simp [lines_filled, ih, Bool.and_assoc]

theorem line_filled_translate (ln : line) (tok : filter_token) (h : line_filled ln = true) :
    line_filled (ln ++ [translate tok]) = true := by
  rw [line_filled_append, h]
  cases hd : tok.data <;> simp [translate, hd, line_filled, token.lines_filled]

theorem line_filled_block (ln : line) (r : text_range) (lines : List line)
    (h : line_filled ln = true) (hl : lines_filled lines = true) :
    line_filled (ln ++ [token.block r (block_literal.mk lines)]) = true := by
  rw [line_filled_append, h]
  simp [line_filled, token.lines_filled, block_literal.lines_filled, hl]

theorem extract_line_tokens_filled (input : input_t) :
    ∀ (ln ln' : line) (rest : input_t), extract_line_tokens ln input = .ok (ln', rest) →
      line_filled ln = true →
      line_filled ln' = true ∧ ln.length ≤ ln'.length ∧
        (∀ tok tl, input = tok :: tl → tok.is_marker = false → ln.length < ln'.length) := by
  induction input with
  | nil => intro ln ln' rest h; simp [extract_line_tokens] at h
  | cons tok tl ih =>
    intro ln ln' rest h hf
    simp only [extract_line_tokens] at h
    split at h
    · rename_i hm
      simp at h; obtain ⟨rfl, rfl⟩ := h
      refine ⟨hf, Nat.le_refl _, ?_⟩
      intro tok' tl' heq hm'
      simp at heq
      rw [← heq.1, hm] at hm'
      exact absurd hm' (by simp)
    · have hf' := line_filled_translate ln tok hf
      split at h
      · simp at h; obtain ⟨rfl, rfl⟩ := h
        refine ⟨hf', by simp, ?_⟩
        intro _ _ _ _; simp
      · obtain ⟨h1, h2, _⟩ := ih _ _ _ h hf'
        simp at h2
        refine ⟨h1, by omega, ?_⟩
        intro _ _ _ _; omega

/-- The loops of the grouper keep every line they have built filled: a line only grows, a
block literal put into a line holds no empty line, and a line is put into a block only after
its first token has been copied into it. -/
theorem loops_keep_lines_filled (fuel : Nat) :
    (∀ p ln e input ln' rest, parse_line_outer fuel p ln e input = .ok (ln', rest) →
      line_filled ln = true →
      line_filled ln' = true ∧ ln.length ≤ ln'.length ∧
        (∀ tok tl, input = tok :: tl → tok.is_marker = false → ln.length < ln'.length)) ∧
    (∀ p ln e input ln' rest, parse_line_inner fuel p ln e input = .ok (ln', rest) →
      line_filled ln = true → line_filled ln' = true ∧ ln.length ≤ ln'.length) ∧
    (∀ p ln e input ln' rest, parse_line_continue fuel p ln e input = .ok (ln', rest) →
      line_filled ln = true → line_filled ln' = true ∧ ln.length ≤ ln'.length) ∧
    (∀ c lines input lines' rest, parse_block_skip fuel c lines input = .ok (lines', rest) →
      lines_filled lines = true → lines_filled lines' = true) := by
  induction fuel with
  | zero =>
    refine ⟨?_, ?_, ?_, ?_⟩ <;> intros <;> simp_all [parse_line_outer, parse_line_inner,
      parse_line_continue, parse_block_skip]
  | succ n ih =>
    obtain ⟨ihO, ihI, ihC, ihS⟩ := ih
    refine ⟨?_, ?_, ?_, ?_⟩
    · intro p ln e input ln' rest h hf
      simp only [parse_line_outer] at h
      split at h
      · simp at h
      · rename_i ln1 input1 hx
        obtain ⟨h1, h2, h3⟩ := extract_line_tokens_filled _ _ _ _ hx hf
        split at h
        · simp at h; obtain ⟨rfl, rfl⟩ := h
          exact ⟨h1, h2, h3⟩
        · obtain ⟨h4, h5⟩ := ihI _ _ _ _ _ _ h h1
          refine ⟨h4, by omega, ?_⟩
          intro tok tl heq hm
          have := h3 tok tl heq hm
          omega
    · intro p ln e input ln' rest h hf
      cases input with
      | nil => simp [parse_line_inner] at h
      | cons tok tl =>
        simp only [parse_line_inner] at h
        split at h
        · simp at h; obtain ⟨rfl, rfl⟩ := h
          exact ⟨hf, Nat.le_refl _⟩
        · split at h
          · simp at h; obtain ⟨rfl, rfl⟩ := h; exact ⟨hf, Nat.le_refl _⟩
          · split at h
            · simp at h; obtain ⟨rfl, rfl⟩ := h; exact ⟨hf, Nat.le_refl _⟩
            · exact ihC _ _ _ _ _ _ h hf
        · split at h
          · simp at h; obtain ⟨rfl, rfl⟩ := h; exact ⟨hf, Nat.le_refl _⟩
          · split at h
            · simp at h; obtain ⟨rfl, rfl⟩ := h; exact ⟨hf, Nat.le_refl _⟩
            · split at h
              · simp at h; obtain ⟨rfl, rfl⟩ := h; exact ⟨hf, Nat.le_refl _⟩
              · exact ihI _ _ _ _ _ _ h hf
        · have hempty : ∀ r, line_filled (ln ++ [token.block r block_literal.empty]) = true :=
            fun r => line_filled_block ln r [] hf rfl
          split at h
          · simp at h; obtain ⟨rfl, rfl⟩ := h
            exact ⟨hempty _, by simp⟩
          · split at h
            · split at h
              · simp at h; obtain ⟨rfl, rfl⟩ := h
                exact ⟨hempty _, by simp⟩
              · obtain ⟨h1, h2⟩ := ihI _ _ _ _ _ _ h (hempty _)
                simp at h2
                exact ⟨h1, by omega⟩
            · split at h
              · simp at h
              · rename_i lines input1 hb
                have hl := ihS _ _ _ _ _ hb rfl
                obtain ⟨h1, h2⟩ := ihI _ _ _ _ _ _ h (line_filled_block ln _ lines hf hl)
                simp at h2
                exact ⟨h1, by omega⟩
        · obtain ⟨h1, h2, _⟩ := ihO _ _ _ _ _ _ h hf
          exact ⟨h1, h2⟩
    · intro p ln e input ln' rest h hf
      simp only [parse_line_continue] at h
      split at h
      · simp at h; obtain ⟨rfl, rfl⟩ := h; exact ⟨hf, Nat.le_refl _⟩
      · split at h
        · simp at h
        · rename_i ln1 input1 hx
          obtain ⟨h1, h2, _⟩ := extract_line_tokens_filled _ _ _ _ hx hf
          split at h
          · simp at h; obtain ⟨rfl, rfl⟩ := h; exact ⟨h1, h2⟩
          · split at h
            · obtain ⟨h3, h4⟩ := ihC _ _ _ _ _ _ h h1
              exact ⟨h3, by omega⟩
            · obtain ⟨h3, h4⟩ := ihI _ _ _ _ _ _ h h1
              exact ⟨h3, by omega⟩
    · intro c lines input lines' rest h hf
      cases input with
      | nil => simp [parse_block_skip] at h
      | cons tok tl =>
        simp only [parse_block_skip] at h
        have skip : ((if tl.isEmpty = true then Except.ok (lines, tl)
              else parse_block_skip n c lines tl) = Except.ok (lines', rest)) →
            lines_filled lines' = true := by
          intro h
          split at h
          · simp at h; rw [← h.1]; exact hf
          · exact ihS _ _ _ _ _ h hf
        split at h
        · exact skip h
        · split at h
          · simp at h; rw [← h.1]; exact hf
          · exact skip h
        · split at h
          · simp at h; rw [← h.1]; exact hf
          · exact skip h
        · split at h
          · simp at h; rw [← h.1]; exact hf
          · exact skip h
        · rename_i d hd
          split at h
          · simp at h
          · rename_i ln1 input1 hl
            have hm : tok.is_marker = false := by simp [filter_token.is_marker, hd]
            obtain ⟨h1, _, h3⟩ := ihO _ _ _ _ _ _ hl rfl
            have hpos := h3 tok tl rfl hm
            have hne : ln1.isEmpty = false := by
              cases ln1 with
              | nil => simp at hpos
              | cons _ _ => rfl
            have hnew : lines_filled (lines ++ [ln1]) = true := by
              rw [lines_filled_append, hf]
              simp [lines_filled, hne, h1]
            split at h
            · simp at h; rw [← h.1]; exact hnew
            · exact ihS _ _ _ _ _ h hnew

/-- Claim C24. With enough fuel `parse` on any finite input either dereferences the exhausted
cursor, which has no result, or returns a tree in which every line of every block literal, the
root and all nested ones, holds at least one element. A block literal may hold no line. -/
theorem parse_lines_are_filled (fuel : Nat) (input : input_t)
    (hfuel : 4 * input.length + 4 ≤ fuel) :
    parse fuel input = .error Fault.invalid_read ∨
    ∃ tree rest, parse fuel input = .ok (tree, rest) ∧ tree.lines_filled = true := by
  rcases except_cases _ (parse_fuel_adequate fuel input hfuel) with h | ⟨⟨tree, rest⟩, h⟩
  · left; exact h
  · right
    refine ⟨tree, rest, h, ?_⟩
    have key : ∀ c inp, parse_block fuel inp c = .ok (tree, rest) →
        tree.lines_filled = true := by
      intro c inp hb
      simp only [parse_block] at hb
      split at hb
      · simp at hb
      · rename_i lines input1 hs
        simp at hb
        rw [← hb.1]
        exact (loops_keep_lines_filled fuel).2.2.2 _ _ _ _ _ hs rfl
    cases input with
    | nil => simp [parse] at h; rw [← h.1]; rfl
    | cons tok tl =>
      simp only [parse] at h
      split at h
      · split at h
        · simp at h; rw [← h.1]; rfl
        · exact key _ _ h
      · exact key _ _ h

theorem parse_lines_are_filled_witness :
    parse 36 [new_line 1, filter_id "a", block_start 1, block_start 4, filter_id "b",
        block_end 6, semicolon, block_end 1] =
      .ok (block_literal.mk [[id "a", token.block (block_start 1).range block_literal.empty,
        token.block (block_start 4).range (.mk [[id "b"]])]], []) ∧
    (parse 36 [new_line 1, filter_id "a", block_start 1, block_start 4, filter_id "b",
        block_end 6, semicolon, block_end 1] = .error Fault.invalid_read ∨
      ∃ tree rest,
        parse 36 [new_line 1, filter_id "a", block_start 1, block_start 4, filter_id "b",
          block_end 6, semicolon, block_end 1] = .ok (tree, rest) ∧
        tree.lines_filled = true) :=
  ⟨rfl, parse_lines_are_filled 36 _ (by decide)⟩

theorem count_blocks_line_append (a b : List token) :
    count_blocks_line (a ++ b) = count_blocks_line a + count_blocks_line b := by
  induction a with
  | nil => simp [count_blocks_line]
  | cons t ts ih => simp [count_blocks_line, ih, Nat.add_assoc]

theorem count_blocks_lines_append (a b : List (List token)) :
    count_blocks_lines (a ++ b) = count_blocks_lines a + count_blocks_lines b := by
  induction a with
  | nil => simp [count_blocks_lines]
  | cons l ls ih => simp [count_blocks_lines, ih, Nat.add_assoc]

theorem count_blocks_translate (X : List filter_token) :
    count_blocks_line (X.map translate) = 0 := by
  induction X with
  | nil => rfl
  | cons x xs ih =>
    cases hd : x.data <;>
      simp [count_blocks_line, translate, hd, token.count_blocks, ih]

theorem count_block_starts_append (a b : input_t) :
    count_block_starts (a ++ b) = count_block_starts a + count_block_starts b := by
  simp [count_block_starts]

theorem count_block_starts_cons (tok : filter_token) (b : input_t) :
    count_block_starts (tok :: b) =
      (if tok.is_block_start then 1 else 0) + count_block_starts b := by
  simp only [count_block_starts, List.filter_cons]
  split
  · simp; omega
  · simp

theorem count_block_starts_continues (c : column_t) (Y : input_t)
    (hY : ∀ t ∈ Y, t.continues c = true) : count_block_starts Y = 0 := by
  induction Y with
  | nil => rfl
  | cons y ys ih =>
    have hy := hY y (List.mem_cons_self _ _)
    have hys : ∀ t ∈ ys, t.continues c = true := fun t ht => hY t (List.mem_cons_of_mem _ ht)
    rw [count_block_starts_cons, ih hys]
    cases hd : y.data <;> simp [filter_token.continues, hd] at hy <;>
      simp [filter_token.is_block_start, hd]

theorem count_block_starts_run (X : input_t) (hX : ∀ t ∈ X, t.is_marker = false) :
    count_block_starts X = 0 := by
  induction X with
  | nil => rfl
  | cons x xs ih =>
    have hx := hX x (List.mem_cons_self _ _)
    have hxs : ∀ t ∈ xs, t.is_marker = false := fun t ht => hX t (List.mem_cons_of_mem _ ht)
    rw [count_block_starts_cons, ih hxs]
    obtain ⟨d, hd⟩ := leaf_head_data hx
    simp [filter_token.is_block_start, hd]

theorem count_block_starts_head (c : column_t) (H : input_t) (hH : LineHead c H) :
    count_block_starts H = 0 := by
  cases hH with
  | run _ hne hX => exact count_block_starts_run H hX
  | continued X nl Y hne hX hnl hcol hY =>
    rw [count_block_starts_append, count_block_starts_cons, count_block_starts_run X hX,
      count_block_starts_continues c Y hY]
    simp [filter_token.is_block_start, hnl]

/-- The tokens that go on with a continued line split into a run of tokens that are no markers
and, if any token is left, a `new_line_indentation` followed by more such tokens. -/
theorem continues_split (c : column_t) (Y : input_t) (hY : ∀ t ∈ Y, t.continues c = true) :
    ∃ X Y', Y = X ++ Y' ∧ (∀ t ∈ X, t.is_marker = false) ∧
      (Y' = [] ∨ ∃ nl Y₂, Y' = nl :: Y₂ ∧ nl.data = filter_data.new_line_indentation ∧
        ∀ t ∈ Y₂, t.continues c = true) := by
  induction Y with
  | nil => exact ⟨[], [], rfl, by simp, Or.inl rfl⟩
  | cons y ys ih =>
    have hy := hY y (List.mem_cons_self _ _)
    have hys : ∀ t ∈ ys, t.continues c = true := fun t ht => hY t (List.mem_cons_of_mem _ ht)
    cases hd : y.data with
    | leaf d =>
      obtain ⟨X, Y', hsplit, hX, hY'⟩ := ih hys
      refine ⟨y :: X, Y', by simp [hsplit], ?_, hY'⟩
      intro t ht
      rcases List.mem_cons.1 ht with h | h
      · rw [h]; simp [filter_token.is_marker, hd]
      · exact hX t h
    | new_line_indentation =>
      exact ⟨[], y :: ys, rfl, by simp, Or.inr ⟨y, ys, rfl, hd, hys⟩⟩
    | block_start_indentation => simp [filter_token.continues, hd] at hy
    | block_end_indentation => simp [filter_token.continues, hd] at hy
    | semicolon_separator => simp [filter_token.continues, hd] at hy

/-- The continuation loop of `parse_line` over the tokens that go on with a continued line:
up to running out of fuel, it ends the line at the end of the input or hands the line, with no
block literal added, to the loop of `parse_line` at the marker that follows. -/
theorem parse_line_continue_run (c : column_t) (e : Bool) (rest : input_t)
    (hrest : rest = [] ∨ ∃ m tl, rest = m :: tl ∧ m.is_marker = true ∧
      m.data ≠ filter_data.new_line_indentation) (fuel : Nat) :
    ∀ (ln : line) (nl : filter_token) (Y : input_t), (∀ t ∈ Y, t.continues c = true) →
      parse_line_continue fuel c ln e (nl :: (Y ++ rest)) = .error Fault.fuel ∨
      (rest = [] ∧ ∃ ln', parse_line_continue fuel c ln e (nl :: (Y ++ rest)) = .ok (ln', []) ∧
        count_blocks_line ln' = count_blocks_line ln) ∨
      (rest ≠ [] ∧ ∃ ln' fuel', count_blocks_line ln' = count_blocks_line ln ∧
        parse_line_continue fuel c ln e (nl :: (Y ++ rest)) =
          parse_line_inner fuel' c ln' e rest) := by
  induction fuel with
  | zero => intro ln nl Y hY; left; simp [parse_line_continue]
  | succ n ih =>
    intro ln nl Y hY
    obtain ⟨X, Y', hsplit, hX, hY'⟩ := continues_split c Y hY
    have hcount : count_blocks_line (ln ++ X.map translate) = count_blocks_line ln := by
      rw [count_blocks_line_append, count_blocks_translate]; rfl
    subst hsplit
    rcases hY' with hnil | ⟨nl₂, Y₂, hcons, hd₂, hY₂⟩
    · subst hnil
      simp only [List.append_nil]
      rcases hrest with hr | ⟨m, tl, hr, hm, hnn⟩
      · subst hr
        simp only [List.append_nil]
        by_cases hXe : X = []
        · subst hXe
          right; left
          exact ⟨trivial, ln, by simp [parse_line_continue], rfl⟩
        · right; left
          refine ⟨trivial, ln ++ X.map translate, ?_, hcount⟩
          have hne : X.isEmpty = false := by
            cases X with
            | nil => exact absurd rfl hXe
            | cons _ _ => rfl
          simp only [parse_line_continue, List.tail_cons, hne, Bool.false_eq_true, if_false]
          rw [extract_line_tokens_all X hX hXe ln]
      · subst hr
        right; right
        refine ⟨by simp, ln ++ X.map translate, n, hcount, ?_⟩
        have hne : (X ++ m :: tl).isEmpty = false := by
          cases X <;> rfl
        simp only [parse_line_continue, List.tail_cons, hne, Bool.false_eq_true, if_false]
        rw [extract_line_tokens_run X hX m tl hm ln]
        cases hd : m.data <;> first | exact absurd hd hnn | simp only [hd]
    · subst hcons
      have hm₂ : nl₂.is_marker = true := by simp [filter_token.is_marker, hd₂]
      have hassoc : X ++ nl₂ :: Y₂ ++ rest = X ++ nl₂ :: (Y₂ ++ rest) := by simp
      rw [hassoc]
      have hne : (X ++ nl₂ :: (Y₂ ++ rest)).isEmpty = false := by
        cases X <;> rfl
      simp only [parse_line_continue, List.tail_cons, hne, Bool.false_eq_true, if_false]
      rw [extract_line_tokens_run X hX nl₂ (Y₂ ++ rest) hm₂ ln]
      simp only [hd₂]
      rcases ih (ln ++ X.map translate) nl₂ Y₂ hY₂ with h | ⟨hr, ln', h, hc⟩ | ⟨hr, ln', f', hc, h⟩
      · left; exact h
      · right; left; exact ⟨hr, ln', h, by rw [hc, hcount]⟩
      · right; right; exact ⟨hr, ln', f', by rw [hc, hcount], h⟩

/-- A line of a well-formed block, read by `parse_line` from its first token: up to running
out of fuel, the start of the line is copied into the line, with no block literal added, and
the line ends at the end of the input or is handed to the loop of `parse_line` at the marker
that follows the start of the line. -/
theorem parse_line_outer_head (c : column_t) (H rest : input_t) (hH : LineHead c H)
    (hrest : rest = [] ∨ ∃ m tl, rest = m :: tl ∧ m.is_marker = true ∧
      m.data ≠ filter_data.new_line_indentation) (fuel : Nat) (ln : line) :
    parse_line_outer fuel c ln false (H ++ rest) = .error Fault.fuel ∨
    (rest = [] ∧ ∃ ln', parse_line_outer fuel c ln false (H ++ rest) = .ok (ln', []) ∧
      count_blocks_line ln' = count_blocks_line ln) ∨
    (rest ≠ [] ∧ ∃ ln' fuel', count_blocks_line ln' = count_blocks_line ln ∧
      parse_line_outer fuel c ln false (H ++ rest) =
        parse_line_inner fuel' c ln' false rest) := by
  cases fuel with
  | zero => left; simp [parse_line_outer]
  | succ n =>
    cases hH with
    | run _ hne hX =>
      have hcount : count_blocks_line (ln ++ H.map translate) = count_blocks_line ln := by
        rw [count_blocks_line_append, count_blocks_translate]; rfl
      rcases hrest with hr | ⟨m, tl, hr, hm, _⟩
      · subst hr
        right; left
        refine ⟨rfl, ln ++ H.map translate, ?_, hcount⟩
        simp only [List.append_nil]
        exact parse_line_outer_all n c ln false H hX hne
      · subst hr
        right; right
        refine ⟨by simp, ln ++ H.map translate, n, hcount, ?_⟩
        rw [parse_line_outer, extract_line_tokens_run H hX m tl hm ln]
        simp
    | continued X nl Y hne hX hnl hcol hY =>
      have hcount : count_blocks_line (ln ++ X.map translate) = count_blocks_line ln := by
        rw [count_blocks_line_append, count_blocks_translate]; rfl
      have hm : nl.is_marker = true := by simp [filter_token.is_marker, hnl]
      have hassoc : X ++ nl :: Y ++ rest = X ++ nl :: (Y ++ rest) := by simp
      rw [hassoc, parse_line_outer, extract_line_tokens_run X hX nl (Y ++ rest) hm ln]
      simp only [List.isEmpty_cons, Bool.false_eq_true, if_false]
      cases n with
      | zero => left; simp [parse_line_inner]
      | succ k =>
        have h1 : ¬ get_indent_column nl < c := Nat.not_lt.2 (Nat.le_of_lt hcol)
        have h2 : ¬ get_indent_column nl = c := Nat.ne_of_gt hcol
        rw [parse_line_inner]
        simp only [hnl, h1, h2, if_false, decide_False, Bool.false_and, Bool.false_eq_true]
        rcases parse_line_continue_run c false rest hrest k (ln ++ X.map translate) nl Y hY
          with h | ⟨hr, ln', h, hc⟩ | ⟨hr, ln', f', hc, h⟩
        · left; exact h
        · right; left; exact ⟨hr, ln', h, by rw [hc, hcount]⟩
        · right; right; exact ⟨hr, ln', f', by rw [hc, hcount], h⟩

/-- The step of `parse_block` at a token that is no marker, when the line cannot be read. -/
theorem parse_block_skip_leaf_error (n : Nat) (c : column_t) (lines : List line)
    (x : filter_token) (rest : input_t) (e : Fault) (hx : x.is_marker = false)
    (hl : parse_line_outer n c [] false (x :: rest) = .error e) :
    parse_block_skip (n + 1) c lines (x :: rest) = .error e := by
  obtain ⟨d, hd⟩ := leaf_head_data hx
  simp only [parse_block_skip, hd, hl]

theorem line_head_cons (c : column_t) (H : input_t) (hH : LineHead c H) :
    ∃ x tl, H = x :: tl ∧ x.is_marker = false := by
  cases hH with
  | run _ hne hX =>
    obtain ⟨x, tl, rfl⟩ := List.exists_cons_of_ne_nil hne
    exact ⟨x, tl, rfl, hX x (List.mem_cons_self _ _)⟩
  | continued X nl Y hne hX hnl hcol hY =>
    obtain ⟨x, tl, rfl⟩ := List.exists_cons_of_ne_nil hne
    exact ⟨x, tl ++ nl :: Y, rfl, hX x (List.mem_cons_self _ _)⟩

/-- The end of a round of the loop of `parse_block`: with the cursor exhausted the block is
returned, else the loop goes on. -/
theorem parse_block_skip_tail (c : column_t) (n : Nat) (B rest : input_t) (lines : List line)
    (ih : B ++ rest ≠ [] →
      parse_block_skip n c lines (B ++ rest) = .error Fault.fuel ∨
      ∃ L, parse_block_skip n c lines (B ++ rest) = .ok (lines ++ L, rest) ∧
        count_blocks_lines L = count_block_starts B) :
    (if (B ++ rest).isEmpty then Except.ok (lines, B ++ rest)
      else parse_block_skip n c lines (B ++ rest)) = .error Fault.fuel ∨
    ∃ L, (if (B ++ rest).isEmpty then Except.ok (lines, B ++ rest)
      else parse_block_skip n c lines (B ++ rest)) = .ok (lines ++ L, rest) ∧
        count_blocks_lines L = count_block_starts B := by
  by_cases he : B ++ rest = []
  · have hB : B = [] := (List.append_eq_nil.1 he).1
    have hr : rest = [] := (List.append_eq_nil.1 he).2
    subst hB; subst hr
    right; exact ⟨[], by simp, rfl⟩
  · have hne : (B ++ rest).isEmpty = false := by
      cases h : B ++ rest with
      | nil => exact absurd h he
      | cons _ _ => rfl
    simp only [hne, Bool.false_eq_true, if_false]
    exact ih he

/-- The loop of `parse_block` on the tokens of a well-formed block of column `c`, followed by
the end of the input or by the `block_end_indentation` of the enclosing block: up to running
out of fuel, all tokens of the block are consumed, and the lines added hold as many block
literals as the block has `block_start_indentation` markers. -/
theorem parse_block_skip_well_formed {c : column_t} {B : input_t} (hB : WellFormedBody c B) :
    ∀ (fuel : Nat) (lines : List line) (rest : input_t),
      (rest = [] ∨ ∃ m tl, rest = m :: tl ∧ m.data = filter_data.block_end_indentation ∧
        get_indent_column m < c) →
      B ++ rest ≠ [] →
      parse_block_skip fuel c lines (B ++ rest) = .error Fault.fuel ∨
      ∃ L, parse_block_skip fuel c lines (B ++ rest) = .ok (lines ++ L, rest) ∧
        count_blocks_lines L = count_block_starts B := by
  induction hB with
  | done c =>
    intro fuel lines rest hrest hne
    rcases hrest with hr | ⟨m, tl, hr, hd, hlt⟩
    · subst hr; exact absurd rfl hne
    · subst hr
      cases fuel with
      | zero => left; simp [parse_block_skip]
      | succ n =>
        right
        exact ⟨[], by simp [parse_block_skip, hd, hlt], rfl⟩
  | semicolon c tok B hd hB ih =>
    intro fuel lines rest hrest hne
    have hcount : count_block_starts (tok :: B) = count_block_starts B := by
      rw [count_block_starts_cons]; simp [filter_token.is_block_start, hd]
    cases fuel with
    | zero => left; simp [parse_block_skip]
    | succ n =>
      rw [hcount]
      have hstep : parse_block_skip (n + 1) c lines (tok :: B ++ rest) =
          if (B ++ rest).isEmpty then Except.ok (lines, B ++ rest)
          else parse_block_skip n c lines (B ++ rest) := by
        simp only [List.cons_append, parse_block_skip, hd]
      rw [hstep]
      exact parse_block_skip_tail c n B rest lines (ih n lines rest hrest)
  | new_line c tok B hd hcol hB ih =>
    intro fuel lines rest hrest hne
    have hcount : count_block_starts (tok :: B) = count_block_starts B := by
      rw [count_block_starts_cons]; simp [filter_token.is_block_start, hd]
    cases fuel with
    | zero => left; simp [parse_block_skip]
    | succ n =>
      rw [hcount]
      have hstep : parse_block_skip (n + 1) c lines (tok :: B ++ rest) =
          if (B ++ rest).isEmpty then Except.ok (lines, B ++ rest)
          else parse_block_skip n c lines (B ++ rest) := by
        simp only [List.cons_append, parse_block_skip, hd, hcol, Nat.lt_irrefl, if_false]
      rw [hstep]
      exact parse_block_skip_tail c n B rest lines (ih n lines rest hrest)
  | last_line c H hH =>
    intro fuel lines rest hrest hne
    obtain ⟨x, tl', hcons, hx⟩ := line_head_cons c H hH
    have hrest' : rest = [] ∨ ∃ m tl, rest = m :: tl ∧ m.is_marker = true ∧
        m.data ≠ filter_data.new_line_indentation := by
      rcases hrest with hr | ⟨m, tl, hr, hd, _⟩
      · left; exact hr
      · right; exact ⟨m, tl, hr, by simp [filter_token.is_marker, hd], by simp [hd]⟩
    rw [count_block_starts_head c H hH]
    cases fuel with
    | zero => left; simp [parse_block_skip]
    | succ n =>
      have hin : H ++ rest = x :: (tl' ++ rest) := by rw [hcons]; rfl
      rcases parse_line_outer_head c H rest hH hrest' n [] with
        h | ⟨hr, ln', h, hc⟩ | ⟨hr, ln', f', hc, h⟩
      · left
        rw [hin] at h ⊢
        exact parse_block_skip_leaf_error n c lines x _ _ hx h
      · right
        subst hr
        refine ⟨[ln'], ?_, ?_⟩
        · rw [hin] at h ⊢
          rw [parse_block_skip_leaf n c lines x _ ln' [] hx h]
          rfl
        · simp [count_blocks_lines, hc, count_blocks_line]
      · rcases hrest with hr' | ⟨m, tl, hr', hd, hlt⟩
        · exact absurd hr' hr
        · subst hr'
          cases f' with
          | zero =>
            left
            rw [hin] at h ⊢
            exact parse_block_skip_leaf_error n c lines x _ _ hx
              (by rw [h]; simp [parse_line_inner])
          | succ k =>
            have hl : parse_line_outer n c [] false (H ++ m :: tl) = .ok (ln', m :: tl) := by
              rw [h, parse_line_inner]; simp [hd, hlt]
            rw [hin] at hl ⊢
            rw [parse_block_skip_leaf n c lines x _ ln' (m :: tl) hx hl]
            simp only [List.isEmpty_cons, Bool.false_eq_true, if_false]
            cases n with
            | zero => left; simp [parse_block_skip]
            | succ j =>
              right
              refine ⟨[ln'], by simp [parse_block_skip, hd, hlt], ?_⟩
              simp [count_blocks_lines, hc, count_blocks_line]
  | line_semicolon c H tok B hH hd hB ih =>
    intro fuel lines rest hrest hne
    obtain ⟨x, tl', hcons, hx⟩ := line_head_cons c H hH
    have hassoc : H ++ tok :: B ++ rest = H ++ tok :: (B ++ rest) := by simp
    have hin : H ++ tok :: (B ++ rest) = x :: (tl' ++ tok :: (B ++ rest)) := by
      rw [hcons]; rfl
    have hcount : count_block_starts (H ++ tok :: B) = count_block_starts B := by
      rw [count_block_starts_append, count_block_starts_cons, count_block_starts_head c H hH]
      simp [filter_token.is_block_start, hd]
    rw [hcount, hassoc]
    cases fuel with
    | zero => left; simp [parse_block_skip]
    | succ n =>
      rcases parse_line_outer_head c H (tok :: (B ++ rest)) hH
          (Or.inr ⟨tok, B ++ rest, rfl, by simp [filter_token.is_marker, hd], by simp [hd]⟩)
          n [] with h | ⟨hr, _⟩ | ⟨_, ln', f', hc, h⟩
      · left
        rw [hin] at h ⊢
        exact parse_block_skip_leaf_error n c lines x _ _ hx h
      · exact absurd hr (by simp)
      · cases f' with
        | zero =>
          left
          rw [hin] at h ⊢
          exact parse_block_skip_leaf_error n c lines x _ _ hx
            (by rw [h]; simp [parse_line_inner])
        | succ k =>
          have hl : parse_line_outer n c [] false (H ++ tok :: (B ++ rest)) =
              .ok (ln', B ++ rest) := by
            rw [h, parse_line_inner]; simp [hd]
          rw [hin] at hl ⊢
          rw [parse_block_skip_leaf n c lines x _ ln' (B ++ rest) hx hl]
          rcases parse_block_skip_tail c n B rest (lines ++ [ln'])
              (ih n (lines ++ [ln']) rest hrest) with h' | ⟨L, h', hL⟩
          · left; exact h'
          · right
            refine ⟨[ln'] ++ L, by rw [h']; simp, ?_⟩
            rw [count_blocks_lines_append, hL]
            simp [count_blocks_lines, hc, count_blocks_line]
  | line_new_line c X tok B hXne hX hd hcol hB ih =>
    intro fuel lines rest hrest hne
    obtain ⟨x, tl', hcons⟩ := List.exists_cons_of_ne_nil hXne
    have hx : x.is_marker = false := hX x (by rw [hcons]; exact List.mem_cons_self _ _)
    have hm : tok.is_marker = true := by simp [filter_token.is_marker, hd]
    have hassoc : X ++ tok :: B ++ rest = X ++ tok :: (B ++ rest) := by simp
    have hin : X ++ tok :: (B ++ rest) = x :: (tl' ++ tok :: (B ++ rest)) := by
      rw [hcons]; rfl
    have hcount : count_block_starts (X ++ tok :: B) = count_block_starts B := by
      rw [count_block_starts_append, count_block_starts_cons, count_block_starts_run X hX]
      simp [filter_token.is_block_start, hd]
    have hc : count_blocks_line ([] ++ X.map translate) = 0 := by
      simpa using count_blocks_translate X
    rw [hcount, hassoc]
    cases fuel with
    | zero => left; simp [parse_block_skip]
    | succ n =>
      cases n with
      | zero =>
        left
        rw [hin]
        exact parse_block_skip_leaf_error 0 c lines x _ _ hx (by simp [parse_line_outer])
      | succ k =>
        have houter : parse_line_outer (k + 1) c [] false (X ++ tok :: (B ++ rest)) =
            parse_line_inner k c ([] ++ X.map translate) false (tok :: (B ++ rest)) := by
          rw [parse_line_outer, extract_line_tokens_run X hX tok (B ++ rest) hm []]
          simp
        cases k with
        | zero =>
          left
          rw [hin] at houter ⊢
          exact parse_block_skip_leaf_error 1 c lines x _ _ hx
            (by rw [houter]; simp [parse_line_inner])
        | succ j =>
          have hl : parse_line_outer (j + 1 + 1) c [] false (X ++ tok :: (B ++ rest)) =
              .ok ([] ++ X.map translate, tok :: (B ++ rest)) := by
            rw [houter, parse_line_inner]; simp [hd, hcol]
          rw [hin] at hl ⊢
          rw [parse_block_skip_leaf (j + 1 + 1) c lines x _ _ (tok :: (B ++ rest)) hx hl]
          simp only [List.isEmpty_cons, Bool.false_eq_true, if_false]
          have hstep : parse_block_skip (j + 1 + 1) c (lines ++ [[] ++ X.map translate])
              (tok :: (B ++ rest)) =
              if (B ++ rest).isEmpty
              then Except.ok (lines ++ [[] ++ X.map translate], B ++ rest)
              else parse_block_skip (j + 1) c (lines ++ [[] ++ X.map translate])
                (B ++ rest) := by
            simp only [parse_block_skip, hd, hcol, Nat.lt_irrefl, if_false]
          rw [hstep]
          rcases parse_block_skip_tail c (j + 1) B rest (lines ++ [[] ++ X.map translate])
              (ih (j + 1) (lines ++ [[] ++ X.map translate]) rest hrest) with h' | ⟨L, h', hL⟩
          · left; exact h'
          · right
            refine ⟨[[] ++ X.map translate] ++ L, by rw [h']; simp, ?_⟩
            rw [count_blocks_lines_append, hL]
            simp only [count_blocks_lines, hc]
            omega
  | line_block c c' H bs inner be B hH hbs hcs hlt hinner hbe hce hB ih_inner ih =>
    intro fuel lines rest hrest hne
    obtain ⟨x, tl', hcons, hx⟩ := line_head_cons c H hH
    have hassoc : H ++ bs :: (inner ++ be :: B) ++ rest =
        H ++ bs :: (inner ++ be :: (B ++ rest)) := by simp
    have hin : H ++ bs :: (inner ++ be :: (B ++ rest)) =
        x :: (tl' ++ bs :: (inner ++ be :: (B ++ rest))) := by
      rw [hcons]; rfl
    have hcount : count_block_starts (H ++ bs :: (inner ++ be :: B)) =
        1 + count_block_starts inner + count_block_starts B := by
      rw [count_block_starts_append, count_block_starts_cons, count_block_starts_append,
        count_block_starts_cons, count_block_starts_head c H hH]
      simp [filter_token.is_block_start, hbs, hbe]
      omega
    rw [hcount, hassoc]
    cases fuel with
    | zero => left; simp [parse_block_skip]
    | succ n =>
      rcases parse_line_outer_head c H (bs :: (inner ++ be :: (B ++ rest))) hH
          (Or.inr ⟨bs, _, rfl, by simp [filter_token.is_marker, hbs], by simp [hbs]⟩)
          n [] with h | ⟨hr, _⟩ | ⟨_, ln', f', hc, h⟩
      · left
        rw [hin] at h ⊢
        exact parse_block_skip_leaf_error n c lines x _ _ hx h
      · exact absurd hr (by simp)
      · have h1 : ¬ c' < c := Nat.not_lt.2 (Nat.le_of_lt hlt)
        have h2 : ¬ c' = c := Nat.ne_of_gt hlt
        have hfail : parse_line_outer n c [] false (H ++ bs :: (inner ++ be :: (B ++ rest))) =
            .error Fault.fuel →
            parse_block_skip (n + 1) c lines (H ++ bs :: (inner ++ be :: (B ++ rest))) =
              .error Fault.fuel := by
          intro hf
          rw [hin] at hf ⊢
          exact parse_block_skip_leaf_error n c lines x _ _ hx hf
        cases f' with
        | zero => left; exact hfail (by rw [h]; simp [parse_line_inner])
        | succ k =>
          cases k with
          | zero =>
            left; apply hfail
            rw [h, parse_line_inner]
            simp only [hbs, hcs, h1, h2, if_false]
            simp [parse_block_skip]
          | succ j =>
            have hopen : parse_block_skip (j + 1) c' [] (bs :: (inner ++ be :: (B ++ rest))) =
                parse_block_skip j c' [] (inner ++ be :: (B ++ rest)) := by
              have hne' : (inner ++ be :: (B ++ rest)).isEmpty = false := by
                cases inner <;> rfl
              simp only [parse_block_skip, hbs, hcs, Nat.lt_irrefl, if_false, hne',
                Bool.false_eq_true]
            rcases ih_inner j [] (be :: (B ++ rest))
                (Or.inr ⟨be, B ++ rest, rfl, hbe, by rw [hce]; exact hlt⟩)
                (by cases inner <;> simp) with hi | ⟨L', hi, hL'⟩
            · left; apply hfail
              rw [h, parse_line_inner]
              simp only [hbs, hcs, h1, h2, if_false]
              rw [hopen, hi]
            · have hl : parse_line_outer n c [] false
                  (H ++ bs :: (inner ++ be :: (B ++ rest))) =
                  .ok (ln' ++ [token.block bs.range (block_literal.mk ([] ++ L'))],
                    B ++ rest) := by
                rw [h, parse_line_inner]
                simp only [hbs, hcs, h1, h2, if_false]
                rw [hopen, hi]
                simp only
                rw [parse_line_inner]
                simp [hbe, hce]
              rw [hin] at hl ⊢
              rw [parse_block_skip_leaf n c lines x _ _ (B ++ rest) hx hl]
              rcases parse_block_skip_tail c n B rest
                  (lines ++ [ln' ++ [token.block bs.range (block_literal.mk ([] ++ L'))]])
                  (ih n _ rest hrest) with h' | ⟨L, h', hL⟩
              · left; exact h'
              · right
                refine ⟨[ln' ++ [token.block bs.range (block_literal.mk ([] ++ L'))]] ++ L,
                  by rw [h']; simp, ?_⟩
                rw [count_blocks_lines_append, hL]
                simp only [count_blocks_lines, count_blocks_line_append, hc, count_blocks_line,
                  token.count_blocks, block_literal.count_blocks, List.nil_append, hL']
                omega

/-- Claim C23. Block nesting mirrors indentation: for every well-formed input (the lines of a
block are separated by semicolons or by `new_line_indentation` markers at the column of the
block, a `new_line_indentation` with a greater column continues a line, and every
`block_start_indentation` follows the start of a line, has a column greater than the column of
the enclosing block, opens a well-formed block and is closed by a `block_end_indentation` at
the column of the enclosing block), `parse` with enough fuel returns a tree, with the whole
input consumed, and the number of block literals in the tree (the nested block tokens inside
lines, at every depth) is the number of `block_start_indentation` markers in the input. -/
theorem parse_counts_block_starts (fuel : Nat) (input : input_t) (hwf : WellFormed input)
    (hfuel : 4 * input.length + 4 ≤ fuel) :
    ∃ tree, parse fuel input = .ok (tree, []) ∧
      tree.count_blocks = count_block_starts input := by
  have hnf := parse_fuel_adequate fuel input hfuel
  have key : ∀ (c : column_t) (inp : input_t), WellFormedBody c inp → inp ≠ [] →
      parse_block fuel inp c ≠ .error Fault.fuel →
      ∃ tree, parse_block fuel inp c = .ok (tree, []) ∧
        tree.count_blocks = count_block_starts inp := by
    intro c inp hbody hne hnf'
    have hmain := parse_block_skip_well_formed hbody fuel [] [] (Or.inl rfl)
      (by simpa using hne)
    simp only [List.append_nil, List.nil_append] at hmain
    rcases hmain with h | ⟨L, h, hL⟩
    · exact absurd (by simp [parse_block, h]) hnf'
    · exact ⟨block_literal.mk L, by simp [parse_block, h],
        by simpa [block_literal.count_blocks] using hL⟩
  cases input with
  | nil => exact ⟨block_literal.empty, rfl, rfl⟩
  | cons tok rest =>
    cases hd : tok.data with
    | new_line_indentation =>
      simp only [WellFormed, hd] at hwf
      have hcount : count_block_starts (tok :: rest) = count_block_starts rest := by
        rw [count_block_starts_cons]; simp [filter_token.is_block_start, hd]
      rw [hcount]
      by_cases he : rest = []
      · subst he
        exact ⟨block_literal.empty, by simp [parse, hd], rfl⟩
      · have hne : rest.isEmpty = false := by
          cases rest with
          | nil => exact absurd rfl he
          | cons _ _ => rfl
        have hp : parse fuel (tok :: rest) = parse_block fuel rest (get_indent_column tok) := by
          simp [parse, hd, hne]
        rw [hp] at hnf ⊢
        exact key _ _ hwf he hnf
    | block_start_indentation =>
      simp only [WellFormed, hd] at hwf
      have hp : parse fuel (tok :: rest) = parse_block fuel (tok :: rest) 0 := by
        simp [parse, hd]
      rw [hp] at hnf ⊢
      exact key _ _ hwf (by simp) hnf
    | block_end_indentation =>
      simp only [WellFormed, hd] at hwf
      have hp : parse fuel (tok :: rest) = parse_block fuel (tok :: rest) 0 := by
        simp [parse, hd]
      rw [hp] at hnf ⊢
      exact key _ _ hwf (by simp) hnf
    | semicolon_separator =>
      simp only [WellFormed, hd] at hwf
      have hp : parse fuel (tok :: rest) = parse_block fuel (tok :: rest) 0 := by
        simp [parse, hd]
      rw [hp] at hnf ⊢
      exact key _ _ hwf (by simp) hnf
    | leaf d =>
      simp only [WellFormed, hd] at hwf
      have hp : parse fuel (tok :: rest) = parse_block fuel (tok :: rest) 0 := by
        simp [parse, hd]
      rw [hp] at hnf ⊢
      exact key _ _ hwf (by simp) hnf

/-- The input `new_line(1) a block_start(4) b block_end(1) new_line(1) c` is well-formed. -/
theorem sample_input_well_formed :
    WellFormed [new_line 1, filter_id "a", block_start 4, filter_id "b", block_end 1,
      new_line 1, filter_id "c"] :=
  WellFormedBody.line_block 1 4 [filter_id "a"] (block_start 4) [filter_id "b"] (block_end 1)
    [new_line 1, filter_id "c"]
    (LineHead.run [filter_id "a"] (by simp) (by simp [filter_id, filter_token.is_marker]))
    rfl rfl (by decide)
    (WellFormedBody.last_line 4 [filter_id "b"]
      (LineHead.run [filter_id "b"] (by simp) (by simp [filter_id, filter_token.is_marker])))
    rfl rfl
    (WellFormedBody.new_line 1 (new_line 1) [filter_id "c"] rfl rfl
      (WellFormedBody.last_line 1 [filter_id "c"]
        (LineHead.run [filter_id "c"] (by simp)
          (by simp [filter_id, filter_token.is_marker]))))

theorem parse_counts_block_starts_witness :
    parse 32 [new_line 1, filter_id "a", block_start 4, filter_id "b", block_end 1,
        new_line 1, filter_id "c"] =
      .ok (block_literal.mk [[id "a", token.block (block_start 4).range (.mk [[id "b"]])],
        [id "c"]], []) ∧
    count_block_starts [new_line 1, filter_id "a", block_start 4, filter_id "b", block_end 1,
      new_line 1, filter_id "c"] = 1 ∧
    ∃ tree, parse 32 [new_line 1, filter_id "a", block_start 4, filter_id "b", block_end 1,
        new_line 1, filter_id "c"] = .ok (tree, []) ∧
      tree.count_blocks = count_block_starts [new_line 1, filter_id "a", block_start 4,
        filter_id "b", block_end 1, new_line 1, filter_id "c"] :=
  ⟨rfl, rfl, parse_counts_block_starts 32 _ sample_input_well_formed (by decide)⟩

/-- A `block_start_indentation` at the head of a line is no part of a well-formed input:
`parse_block` consumes it like a `new_line_indentation` (the source marks the place as an
indentation error), so `new_line(1) block_start(4) b block_end(1)` gives the one line `b` and
no block literal. -/
theorem block_start_at_line_head_is_skipped :
    parse 20 [new_line 1, block_start 4, filter_id "b", block_end 1] =
      .ok (block_literal.mk [[id "b"]], []) ∧
    (block_literal.mk [[id "b"]]).count_blocks = 0 ∧
    count_block_starts [new_line 1, block_start 4, filter_id "b", block_end 1] = 1 :=
  ⟨rfl, rfl, rfl⟩

/-! ## Block ends, empty blocks, termination and the exhausted cursor -/

/-- Claim C31. `parse_line` treats a `block_end_indentation` by its column, whatever the line
collected so far and whether an end is expected. With a column lower than the column of the
parent block the line ends and the marker stays at the head of the cursor; with the column of
the parent block the marker is consumed and the line ends; with a greater column the marker is
dropped and the line goes on: at the end of the input it is returned, else the loop goes on at
the token behind the marker, so that a run `Y` of tokens that are no markers behind it is
copied into the line. -/
theorem parse_line_treats_block_end_by_column (fuel : Nat) (p : column_t) (ln : line)
    (e : Bool) (tok : filter_token) (rest : input_t)
    (hd : tok.data = filter_data.block_end_indentation) :
    (get_indent_column tok < p →
      parse_line_inner (fuel + 1) p ln e (tok :: rest) = .ok (ln, tok :: rest)) ∧
    (get_indent_column tok = p →
      parse_line_inner (fuel + 1) p ln e (tok :: rest) = .ok (ln, rest)) ∧
    (p < get_indent_column tok → rest = [] →
      parse_line_inner (fuel + 1) p ln e (tok :: rest) = .ok (ln, [])) ∧
    (p < get_indent_column tok → rest ≠ [] →
      parse_line_inner (fuel + 1) p ln e (tok :: rest) = parse_line_inner fuel p ln e rest) ∧
    (p < get_indent_column tok → ∀ Y : List filter_token, Y ≠ [] →
      (∀ t ∈ Y, t.is_marker = false) → rest = Y →
      parse_line_inner (fuel + 3) p ln e (tok :: rest) = .ok (ln ++ Y.map translate, [])) := by
  have hgt : p < get_indent_column tok → rest ≠ [] → ∀ n,
      parse_line_inner (n + 1) p ln e (tok :: rest) = parse_line_inner n p ln e rest := by
    intro hlt hne n
    have h1 : ¬ get_indent_column tok < p := Nat.not_lt.2 (Nat.le_of_lt hlt)
    have h2 : ¬ get_indent_column tok = p := Nat.ne_of_gt hlt
    have h3 : rest.isEmpty = false := by
      cases rest with
      | nil => exact absurd rfl hne
      | cons _ _ => rfl
    rw [parse_line_inner]
    simp [hd, h1, h2, h3]
  refine ⟨fun hlt => ?_, fun heq => ?_, fun hlt hr => ?_, fun hlt hne => hgt hlt hne fuel,
    fun hlt Y hYne hY hr => ?_⟩
  · rw [parse_line_inner]; simp [hd, hlt]
  · rw [parse_line_inner]; simp [hd, heq]
  · have h1 : ¬ get_indent_column tok < p := Nat.not_lt.2 (Nat.le_of_lt hlt)
    have h2 : ¬ get_indent_column tok = p := Nat.ne_of_gt hlt
    rw [parse_line_inner]; simp [hd, h1, h2, hr]
  · subst hr
    rw [hgt hlt hYne (fuel + 2)]
    obtain ⟨y, ys, rfl⟩ := List.exists_cons_of_ne_nil hYne
    obtain ⟨d, hdy⟩ := leaf_head_data (hY y (List.mem_cons_self _ _))
    rw [parse_line_inner]
    simp only [hdy]
    exact parse_line_outer_all fuel p ln e (y :: ys) hY hYne

theorem parse_line_treats_block_end_by_column_witness :
    parse_line_inner (0 + 1) 4 [id "a"] false (block_end 1 :: [filter_id "b"]) =
      .ok ([id "a"], block_end 1 :: [filter_id "b"]) ∧
    parse_line_inner (0 + 1) 4 [id "a"] false (block_end 4 :: [filter_id "b"]) =
      .ok ([id "a"], [filter_id "b"]) ∧
    parse_line_inner (0 + 3) 4 [id "a"] false (block_end 8 :: [filter_id "b"]) =
      .ok ([id "a"] ++ [filter_id "b"].map translate, []) :=
  ⟨(parse_line_treats_block_end_by_column 0 4 [id "a"] false (block_end 1) [filter_id "b"]
      rfl).1 (by decide),
    (parse_line_treats_block_end_by_column 0 4 [id "a"] false (block_end 4) [filter_id "b"]
      rfl).2.1 rfl,
    (parse_line_treats_block_end_by_column 0 4 [id "a"] false (block_end 8) [filter_id "b"]
      rfl).2.2.2.2 (by decide) [filter_id "b"] (by simp)
      (by simp [filter_id, filter_token.is_marker]) rfl⟩

/-- Claim C32, the claim refuted. For a block of column 1 and the input
`a block_start(1) new_line(1) b`, `parse_line` pushes the empty block literal for the
`block_start` at the column of the parent and then consumes the `new_line` at that column as a
continuation: the line is `a`, the empty block, `b`, and the input is used up. Without the
`block_start` the same `new_line` ends the line and stays at the head of the cursor. -/
theorem empty_block_expects_end :
    parse_line 5 [filter_id "a", block_start 1, new_line 1, filter_id "b"] 1 =
      .ok ([id "a", token.block (block_start 1).range block_literal.empty, id "b"], []) ∧
    parse_line 5 [filter_id "a", block_start 1, new_line 1, filter_id "b"] 1 ≠
      .ok ([id "a", token.block (block_start 1).range block_literal.empty],
        [new_line 1, filter_id "b"]) ∧
    parse_line 5 [filter_id "a", new_line 1, filter_id "b"] 1 =
      .ok ([id "a"], [new_line 1, filter_id "b"]) := by
  refine ⟨rfl, ?_, rfl⟩
  intro h
  have h' : parse_line 5 [filter_id "a", block_start 1, new_line 1, filter_id "b"] 1 =
      .ok ([id "a", token.block (block_start 1).range block_literal.empty, id "b"], []) := rfl
  rw [h'] at h
  injection h with h
  injection h with _ h
  cases h

/-- Claim C32 as amended. `parse_line` sets `expect_end` at every `block_start_indentation`
it meets, whatever its column. After a `block_start_indentation` at the column of the parent
block (an empty block literal is pushed and collecting goes on at the same level) a following
`new_line_indentation` at the column of the parent block does not end the line: it is consumed
as a continuation, and a run `X` of tokens that are no markers behind it is copied into the
same line. Only while no `block_start_indentation` has been met (`expect_end` is not set) does
a `new_line_indentation` at the column of the parent block end the line and stay at the head
of the cursor. -/
theorem parse_line_continues_behind_empty_block (fuel : Nat) (p : column_t) (ln : line)
    (e : Bool) (bs nl : filter_token) (rest : input_t)
    (hbs : bs.data = filter_data.block_start_indentation) (hcs : get_indent_column bs = p)
    (hnl : nl.data = filter_data.new_line_indentation) (hcn : get_indent_column nl = p) :
    parse_line_inner (fuel + 2) p ln e (bs :: nl :: rest) =
      parse_line_continue fuel p (ln ++ [token.block bs.range block_literal.empty]) true
        (nl :: rest) ∧
    (∀ X : List filter_token, X ≠ [] → (∀ t ∈ X, t.is_marker = false) → rest = X →
      parse_line_inner (fuel + 3) p ln e (bs :: nl :: rest) =
        .ok (ln ++ [token.block bs.range block_literal.empty] ++ X.map translate, [])) ∧
    parse_line_inner (fuel + 1) p ln false (nl :: rest) = .ok (ln, nl :: rest) := by
  have hstep : ∀ n, parse_line_inner (n + 2) p ln e (bs :: nl :: rest) =
      parse_line_continue n p (ln ++ [token.block bs.range block_literal.empty]) true
        (nl :: rest) := by
    intro n
    rw [parse_line_inner]
    simp only [hbs, hcs, Nat.lt_irrefl, if_false, if_true, List.isEmpty_cons,
      Bool.false_eq_true]
    rw [parse_line_inner]
    simp [hnl, hcn]
  refine ⟨hstep fuel, fun X hXne hX hr => ?_, ?_⟩
  · subst hr
    rw [hstep (fuel + 1)]
    have hne : rest.isEmpty = false := by
      cases rest with
      | nil => exact absurd rfl hXne
      | cons _ _ => rfl
    simp only [parse_line_continue, List.tail_cons, hne, Bool.false_eq_true, if_false]
    rw [extract_line_tokens_all rest hX hXne]
  · rw [parse_line_inner]
    simp [hnl, hcn]

theorem parse_line_continues_behind_empty_block_witness :
    parse_line_inner (0 + 3) 1 [id "a"] false
        (block_start 1 :: new_line 1 :: [filter_id "b"]) =
      .ok ([id "a"] ++ [token.block (block_start 1).range block_literal.empty] ++
        [filter_id "b"].map translate, []) :=
  (parse_line_continues_behind_empty_block 0 1 [id "a"] false (block_start 1) (new_line 1)
    [filter_id "b"] rfl rfl rfl rfl).2.1 [filter_id "b"] (by simp)
    (by simp [filter_id, filter_token.is_marker]) rfl

/-- Claim C33. `parse` terminates on every finite input: with four units of fuel for each
token and four more, no loop of `parse`, `parse_block` and `parse_line` runs out of fuel, for
every column and every cursor, because every round of a loop and every recursive call returns
or consumes a token. `parse` then either dereferences the exhausted cursor, which has no
result, or returns with a rest that is a part of the input. -/
theorem parse_terminates (fuel : Nat) (input : input_t)
    (hfuel : 4 * input.length + 4 ≤ fuel) :
    parse fuel input ≠ .error Fault.fuel ∧
    (parse fuel input = .error Fault.invalid_read ∨
      ∃ tree rest, parse fuel input = .ok (tree, rest) ∧ rest.length ≤ input.length) ∧
    (∀ (c : column_t) (cursor : input_t), cursor.length ≤ input.length →
      parse_block fuel cursor c ≠ .error Fault.fuel) ∧
    (∀ (p : column_t) (cursor : input_t), cursor.length ≤ input.length →
      parse_line fuel cursor p ≠ .error Fault.fuel) := by
  have hnf := parse_fuel_adequate fuel input hfuel
  refine ⟨hnf, ?_, ?_, ?_⟩
  · rcases except_cases _ hnf with h | ⟨⟨tree, rest⟩, h⟩
    · left; exact h
    · right
      exact ⟨tree, rest, h, consumes_length (parse_consumes fuel input tree rest h)⟩
  · intro c cursor hlen
    have hs : parse_block_skip fuel c [] cursor ≠ .error Fault.fuel := by
      apply (loops_fuel_adequate fuel).2.2.2
      have := fuel_at_le cursor 1 4 (by omega); omega
    simp only [parse_block]
    split
    · rename_i e' he'
      exact error_ne_fuel_of hs he'
    · simp
  · intro p cursor hlen
    unfold parse_line
    apply (loops_fuel_adequate fuel).1
    omega

theorem parse_terminates_witness :
    parse 32 [new_line 1, filter_id "a", block_start 4, filter_id "b", block_end 1,
        new_line 1, filter_id "c"] ≠ .error Fault.fuel :=
  (parse_terminates 32 [new_line 1, filter_id "a", block_start 4, filter_id "b", block_end 1,
    new_line 1, filter_id "c"] (by decide)).1

/-- Claim C35, the code at the failing input. In `a block_start(4) b` the nested block runs to
the end of the input. `parse_block` returns to `parse_line` with the cursor exhausted, and the
loop of `parse_line` goes on with `input->one_of<...>()`: the head of an exhausted cursor is
read. The same input closed by `block_end(0)` is grouped. -/
theorem parse_reads_exhausted_cursor :
    (∀ fuel, parse (fuel + 6) [filter_id "a", block_start 4, filter_id "b"] =
      .error Fault.invalid_read) ∧
    (∀ fuel, parse_block (fuel + 3) [block_start 4, filter_id "b"] 4 =
      .ok (block_literal.mk [[id "b"]], [])) ∧
    (∀ fuel p ln e, parse_line_inner (fuel + 1) p ln e [] = .error Fault.invalid_read) ∧
    parse 8 [filter_id "a", block_start 4, filter_id "b", block_end 0] =
      .ok (block_literal.mk [[id "a", token.block (block_start 4).range
        (block_literal.mk [[id "b"]])]], []) := by
  refine ⟨fun fuel => ?_, fun fuel => ?_, fun fuel p ln e => ?_, rfl⟩
  · simp [parse, parse_block, parse_block_skip, parse_line_outer, parse_line_inner,
      extract_line_tokens, block_start, filter_id, get_indent_column, filter_token.is_marker,
      translate]
  · simp [parse_block, parse_block_skip, parse_line_outer, parse_line_inner,
      extract_line_tokens, block_start, filter_id, get_indent_column, filter_token.is_marker,
      translate, id]
  · simp [parse_line_inner]

end parser.block

/-! ## Semantic parser -/

namespace parser.Parser

open Instance (Name Entry Scope Function Parameter Variable InstanceType ParameterSide)

variable {σ : Type}

/-- Claim C7. A line that consists of the single token `t`, a `StringLiteral`, a `NumberLiteral`
or an `IdentifierLiteral` that is not bound in the scope, adds exactly one node to the block: the
`Value` that holds `t` and is typed with the intrinsic type registered for the kind of `t`. So
`Parser::parse` of the block with that one line returns the block with that one node. -/
theorem single_literal_line_gives_value (context : ContextApi σ) (fuel : Nat)
    (isTainted hasErrors : Bool) (nodes : List Node) (t : nesting.Token) (value : Node) (s : σ)
    (hliteral : literal_value context t = some value)
    (hunbound : unbound context
      (reported context isTainted (nesting.BlockLine.mk [t] hasErrors) s) t) :
    parseLine context (fuel + 6) isTainted nodes (nesting.BlockLine.mk [t] hasErrors) s =
      .ok (nodes ++ [value], reported context isTainted (nesting.BlockLine.mk [t] hasErrors) s) ∧
    parse context (fuel + 6) (nesting.BlockLiteral.mk [nesting.BlockLine.mk [t] hasErrors]
        isTainted) s =
      .ok (⟨[value]⟩, reported context isTainted (nesting.BlockLine.mk [t] hasErrors) s) := by
  have key : ∀ nodes, parseLine context (fuel + 6) isTainted nodes
      (nesting.BlockLine.mk [t] hasErrors) s =
      .ok (nodes ++ [value],
        reported context isTainted (nesting.BlockLine.mk [t] hasErrors) s) := by
    intro nodes
    cases t <;> simp [literal_value] at hliteral
    · -- IdentifierLiteral
      subst hliteral
      simp only [unbound] at hunbound
      simp [parseLine, parseTuple, parseTupleInto, parseSingleTypedCallback, applyCallback,
        parseSingle, parseStep, typedHead, parseOptionalComma, makeTokenValue, lookupIdentifier,
        BlockLineView.peek, BlockLineView.valid, BlockLineView.ofLine, BlockLineView.advance,
        nesting.BlockLine.tokens, NameTypeValue.empty,
        NameTypeValue.value, NameTypeValue.name, NameTypeValue.type, reported] at hunbound ⊢
      simp [hunbound]
    · subst hliteral
      simp [parseLine, parseTuple, parseTupleInto, parseSingleTypedCallback, applyCallback,
        parseSingle, parseStep, typedHead, parseOptionalComma, makeTokenValue,
        BlockLineView.peek, BlockLineView.valid, BlockLineView.ofLine, BlockLineView.advance,
        nesting.BlockLine.tokens, NameTypeValue.empty,
        NameTypeValue.value, NameTypeValue.name, NameTypeValue.type, reported]
    · subst hliteral
      simp [parseLine, parseTuple, parseTupleInto, parseSingleTypedCallback, applyCallback,
        parseSingle, parseStep, typedHead, parseOptionalComma, makeTokenValue,
        BlockLineView.peek, BlockLineView.valid, BlockLineView.ofLine, BlockLineView.advance,
        nesting.BlockLine.tokens, NameTypeValue.empty,
        NameTypeValue.value, NameTypeValue.name, NameTypeValue.type, reported]
  refine ⟨key nodes, ?_⟩
  simp [parse, parseLines, nesting.BlockLiteral.lines, nesting.BlockLiteral.isTainted, key []]

theorem single_literal_line_gives_value_witness :
    parse (scope_context infix_scope) (0 + 6)
        (nesting.BlockLiteral.mk [nesting.BlockLine.mk [nesting.Token.IdentifierLiteral "a"] false]
          false) () =
      .ok (⟨[Node.Value (ValueData.IdentifierLiteral "a")
        (TypeExpression.TypeInstance ⟨1, Instance.Parser.SingleToken⟩)]⟩, ()) :=
  (single_literal_line_gives_value (scope_context infix_scope) 0 false false []
    (nesting.Token.IdentifierLiteral "a") _ () rfl
    (by simp [unbound, scope_context, Instance.Scope.range, infix_scope])).2

theorem spec_line_nodes_length (tuple : List NameTypeValue) :
    (spec_line_nodes tuple).length ≤ 1 := by
  unfold spec_line_nodes
  split
  · simp
  · split <;> simp

theorem view_of_line_valid (line : nesting.BlockLine) :
    (BlockLineView.ofLine line).valid = true ↔ line.tokens ≠ [] := by
  cases h : line.tokens <;> simp [BlockLineView.ofLine, BlockLineView.valid, h]

/-- What the body of the line loop of `Parser::parse` adds for one line. -/
theorem parseLine_adds (context : ContextApi σ) (fuel : Nat) (isTainted : Bool)
    (nodes nodes' : List Node) (line : nesting.BlockLine) (s s' : σ)
    (h : parseLine context fuel isTainted nodes line s = .ok (nodes', s')) :
    (line.tokens = [] ∧ nodes' = nodes ∧ s' = reported context isTainted line s) ∨
    (line.tokens ≠ [] ∧ ∃ tuple it,
      parseTuple context fuel (BlockLineView.ofLine line) (reported context isTainted line s) =
        .ok (tuple, it, s') ∧
      nodes' = nodes ++ spec_line_nodes tuple) := by
  unfold parseLine at h
  simp only at h
  split at h
  · rename_i hv
    right
    refine ⟨(view_of_line_valid line).1 hv, ?_⟩
    split at h
    · simp at h
    · rename_i expr it s₁ htuple
      refine ⟨expr, it, ?_⟩
      split at h
      · simp at h; obtain ⟨rfl, rfl⟩ := h
        exact ⟨htuple, by simp [spec_line_nodes]⟩
      · simp at h; obtain ⟨rfl, rfl⟩ := h
        exact ⟨htuple, by simp [spec_line_nodes]⟩
      · rename_i hne1 hne2
        simp at h; obtain ⟨rfl, rfl⟩ := h
        refine ⟨htuple, ?_⟩
        unfold spec_line_nodes
        split
        · rename_i hemp
          exact absurd (by simpa using hemp) hne1
        · split
          · rename_i value _
            exact absurd rfl (hne2 value)
          · rfl
  · rename_i hv
    left
    have : line.tokens = [] := by
      by_contra hne
      exact hv ((view_of_line_valid line).2 hne)
    simp at h
    exact ⟨this, h.1.symm, by simp [reported, h.2.symm]⟩

theorem parseLines_adds (context : ContextApi σ) (fuel : Nat) (isTainted : Bool)
    (lines : List nesting.BlockLine) :
    ∀ (nodes nodes' : List Node) (s s' : σ),
      parseLines context fuel isTainted nodes lines s = .ok (nodes', s') →
      ∃ added, nodes' = nodes ++ added ∧ added.length ≤ lines.length ∧
        SpecBlockNodes context fuel isTainted lines s added s' := by
  induction lines with
  | nil =>
    intro nodes nodes' s s' h
    simp [parseLines] at h
    obtain ⟨rfl, rfl⟩ := h
    exact ⟨[], by simp, by simp, SpecBlockNodes.done s⟩
  | cons line rest ih =>
    intro nodes nodes' s s' h
    simp only [parseLines] at h
    split at h
    · simp at h
    · rename_i nodes₁ s₁ hline
      obtain ⟨added, rfl, hlen, hspec⟩ := ih _ _ _ _ h
      rcases parseLine_adds context fuel isTainted nodes nodes₁ line s s₁ hline with
        ⟨hblank, rfl, rfl⟩ | ⟨hne, tuple, it, htuple, rfl⟩
      · exact ⟨added, rfl, by simp; omega, SpecBlockNodes.blank line rest s s' added hblank hspec⟩
      · refine ⟨spec_line_nodes tuple ++ added, by simp, ?_,
          SpecBlockNodes.line line rest s s₁ s' tuple it added hne htuple hspec⟩
        have := spec_line_nodes_length tuple
        simp; omega

theorem parseLine_blank (context : ContextApi σ) (fuel : Nat) (isTainted : Bool)
    (nodes : List Node) (line : nesting.BlockLine) (s : σ) (h : line.tokens = []) :
    parseLine context fuel isTainted nodes line s =
      .ok (nodes, reported context isTainted line s) := by
  have hv : (BlockLineView.ofLine line).valid = false := by
    simp [BlockLineView.ofLine, BlockLineView.valid, h]
  simp [parseLine, hv, reported]

theorem parseLine_of_tuple (context : ContextApi σ) (fuel : Nat) (isTainted : Bool)
    (nodes : List Node) (line : nesting.BlockLine) (s s₁ : σ)
    (tuple : List NameTypeValue) (it : BlockLineView) (hne : line.tokens ≠ [])
    (h : parseTuple context fuel (BlockLineView.ofLine line)
      (reported context isTainted line s) = .ok (tuple, it, s₁)) :
    parseLine context fuel isTainted nodes line s =
      .ok (nodes ++ spec_line_nodes tuple, s₁) := by
  have hv : (BlockLineView.ofLine line).valid = true := (view_of_line_valid line).2 hne
  unfold reported at h
  unfold parseLine
  simp only [hv, if_true, h]
  unfold spec_line_nodes
  split
  · simp
  · simp
  · rename_i hne1 hne2
    split
    · rename_i hemp
      exact absurd (by simpa using hemp) hne1
    · split
      · rename_i value _
        exact absurd rfl (hne2 value)
      · rfl

theorem parseLines_of_spec (context : ContextApi σ) (fuel : Nat) (isTainted : Bool)
    (lines : List nesting.BlockLine) (s s' : σ) (added : List Node)
    (h : SpecBlockNodes context fuel isTainted lines s added s') :
    ∀ nodes, parseLines context fuel isTainted nodes lines s = .ok (nodes ++ added, s') := by
  induction h with
  | done s => intro nodes; simp [parseLines]
  | blank line rest s s' added hline _ ih =>
    intro nodes
    simp only [parseLines, parseLine_blank context fuel isTainted nodes line s hline]
    exact ih nodes
  | line line rest s s₁ s' tuple it added hline htuple _ ih =>
    intro nodes
    simp only [parseLines,
      parseLine_of_tuple context fuel isTainted nodes line s s₁ tuple it hline htuple]
    rw [← List.append_assoc]
    exact ih _

/-- Claim C8. `Parser::parse` emits at most one node per line, in line order: it returns a
block exactly when the nodes of that block are, line after line, nothing for a line whose tuple
is empty (or that has no token), the bare value for a tuple of exactly one entry that has a
value but neither name nor type, and the whole `NameTypeValueTuple` node in every other case;
so the block never has more nodes than lines. -/
theorem parse_emits_one_node_per_line (context : ContextApi σ) (fuel : Nat)
    (blockLiteral : nesting.BlockLiteral) (s s' : σ) (nodes : List Node) :
    (parse context fuel blockLiteral s = .ok (⟨nodes⟩, s') ↔
      SpecBlockNodes context fuel blockLiteral.isTainted blockLiteral.lines s nodes s') ∧
    (SpecBlockNodes context fuel blockLiteral.isTainted blockLiteral.lines s nodes s' →
      nodes.length ≤ blockLiteral.lines.length) := by
  have forward : parse context fuel blockLiteral s = .ok (⟨nodes⟩, s') →
      SpecBlockNodes context fuel blockLiteral.isTainted blockLiteral.lines s nodes s' ∧
      nodes.length ≤ blockLiteral.lines.length := by
    intro h
    unfold parse at h
    split at h
    · simp at h
    · rename_i nodes₁ s₁ hlines
      simp at h; obtain ⟨rfl, rfl⟩ := h
      obtain ⟨added, hnodes, hlen, hspec⟩ := parseLines_adds context fuel _ _ _ _ _ _ hlines
      simp at hnodes
      subst hnodes
      exact ⟨hspec, hlen⟩
  have backward : SpecBlockNodes context fuel blockLiteral.isTainted blockLiteral.lines s
      nodes s' → parse context fuel blockLiteral s = .ok (⟨nodes⟩, s') := by
    intro h
    have := parseLines_of_spec context fuel _ _ _ _ _ h []
    simp [parse, this]
  exact ⟨⟨fun h => (forward h).1, backward⟩, fun h => (forward (backward h)).2⟩

theorem parse_emits_one_node_per_line_witness :
    parse (scope_context infix_scope) 12 sample_block () = .ok (⟨sample_nodes⟩, ()) ∧
    SpecBlockNodes (scope_context infix_scope) 12 sample_block.isTainted sample_block.lines ()
      sample_nodes () ∧
    sample_nodes.length ≤ sample_block.lines.length :=
  ⟨rfl,
    (parse_emits_one_node_per_line (scope_context infix_scope) 12 sample_block () ()
      sample_nodes).1.1 rfl,
    (parse_emits_one_node_per_line (scope_context infix_scope) 12 sample_block () ()
      sample_nodes).2
      ((parse_emits_one_node_per_line (scope_context infix_scope) 12 sample_block () ()
        sample_nodes).1.1 rfl)⟩

/-- Claim C9, the code at the failing input. For the line `1 f 2`, where `f` has the left
parameter `l` and the right parameter `r`, the left expression `1` passes `retireLeft` against
`l`, and `parseCall` builds the call `f` with the single assignment `r = 2`: no assignment
carries the left parameter `l`, the matched left value is gone from the tree. -/
theorem left_argument_is_not_assigned :
    ((Overload.ofFunction infix_function).retireLeft
      [NameTypeValue.mk none none (some infix_left_value)]).active = true ∧
    infix_function.leftParameters = [infix_left] ∧
    parse (scope_context infix_scope) 20 (nesting.BlockLiteral.mk [infix_line] false) () =
      .ok (⟨[Node.Call infix_function
        [ArgumentAssignment.mk infix_right [infix_right_value]]]⟩, ()) ∧
    ∀ a ∈ [ArgumentAssignment.mk infix_right [infix_right_value]],
      a.parameter ≠ infix_left := by
  refine ⟨rfl, rfl, rfl, ?_⟩
  intro a ha
  simp at ha
  subst ha
  simp [ArgumentAssignment.parameter, infix_right, infix_left]

theorem right_parameters_of_no_parameters (f : Function) (h : f.parameters.isEmpty = true) :
    f.rightParameters = [] := by
  have : f.parameters = [] := by simpa using h
  simp [Function.rightParameters, this]

theorem assigned_ofFunction (f : Function) : Overload.assigned f (Overload.ofFunction f) := by
  refine ⟨rfl, ?_, ?_⟩
  · intro hc
    simp only [Overload.ofFunction] at hc
    simp [Overload.ofFunction, right_parameters_of_no_parameters f hc]
  · intro i p hi
    simp [Overload.ofFunction] at hi

theorem retireLeftLoop_only_active (ov : Overload) (la : List Parameter)
    (left : List NameTypeValue) :
    ∀ o t, ∃ b, Overload.retireLeftLoop ov la left o t = { ov with active := b } := by
  induction left with
  | nil =>
    intro o t
    simp only [Overload.retireLeftLoop]
    split
    · exact ⟨ov.active, rfl⟩
    · exact ⟨false, rfl⟩
  | cons typed rest ih =>
    intro o t
    simp only [Overload.retireLeftLoop]
    split
    · exact ⟨false, rfl⟩
    · split
      · split
        · split
          · exact ih _ _
          · exact ⟨false, rfl⟩
        · exact ⟨false, rfl⟩
      · split
        · split
          · exact ih _ _
          · exact ⟨false, rfl⟩
        · exact ⟨false, rfl⟩

theorem assigned_retireLeft (f : Function) (o : Overload) (left : List NameTypeValue)
    (h : Overload.assigned f o) : Overload.assigned f (o.retireLeft left) := by
  obtain ⟨b, hb⟩ := retireLeftLoop_only_active o o.function.leftParameters left 0 0
  unfold Overload.retireLeft
  rw [hb]
  exact h

theorem assigned_append (f : Function) (o : Overload) (a : ArgumentAssignment)
    (h : Overload.assigned f o) :
    Overload.assigned f { o with rightArgs := o.rightArgs ++ [a] } := by
  obtain ⟨hf, hc, hcov⟩ := h
  refine ⟨hf, hc, ?_⟩
  intro i p hi hp
  obtain ⟨a', ha', hpa⟩ := hcov i p hi hp
  exact ⟨a', List.mem_append_left _ ha', hpa⟩

theorem assigned_append_next (f : Function) (o : Overload) (posParam : Parameter)
    (values : List Node) (h : Overload.assigned f o)
    (hpos : f.rightParameters.get? o.nextArg = some posParam) :
    Overload.assigned f { o with
      rightArgs := o.rightArgs ++ [ArgumentAssignment.mk posParam values]
      nextArg := o.nextArg + 1 } := by
  obtain ⟨hf, hc, hcov⟩ := h
  have hlt : o.nextArg < f.rightParameters.length := by
    by_contra hge
    have : f.rightParameters.get? o.nextArg = none := List.get?_eq_none.2 (by omega)
    rw [this] at hpos
    exact Option.noConfusion hpos
  refine ⟨hf, ?_, ?_⟩
  · intro hcomplete
    have := hc hcomplete
    omega
  · intro i p hi hp
    simp only at hi
    by_cases hlast : i = o.nextArg
    · subst hlast
      rw [hpos] at hp
      cases hp
      exact ⟨ArgumentAssignment.mk posParam values, by simp, rfl⟩
    · obtain ⟨a', ha', hpa⟩ := hcov i p (by omega) hp
      exact ⟨a', List.mem_append_left _ ha', hpa⟩

theorem assigned_hasBlocks (f : Function) (o : Overload) (b : Bool)
    (h : Overload.assigned f o) : Overload.assigned f { o with hasBlocks := b } := h

theorem assigned_storeValue (f : Function) (o : Overload) (posParam : Parameter)
    (name : Option Name) (value : Node) (h : Overload.assigned f o)
    (hpos : f.rightParameters.get? o.nextArg = some posParam) :
    Overload.assigned f (storeValue o posParam name value) := by
  unfold storeValue
  split
  · split
    · split
      · exact assigned_append f o _ h
      · exact h
    · exact h
  · split
    · exact assigned_append_next f o posParam _ h hpos
    · exact h

theorem assigned_assignArgument (context : ContextApi σ) (f : Function) (o : Overload)
    (posParam : Parameter) (typed : NameTypeValue) (h : Overload.assigned f o)
    (hpos : f.rightParameters.get? o.nextArg = some posParam) :
    Overload.assigned f (assignArgument context o posParam typed) := by
  unfold assignArgument
  split
  · split
    · exact assigned_append_next f o posParam _ h hpos
    · exact h
  · split
    · split
      · exact assigned_append_next f o posParam _ h hpos
      · exact h
    · split
      · exact assigned_storeValue f _ posParam _ _ (assigned_hasBlocks f o true h) hpos
      · exact assigned_storeValue f _ posParam _ _ h hpos

theorem assigned_finishArgument (f : Function) (o : Overload) (h : Overload.assigned f o) :
    Overload.assigned f (finishArgument o) := by
  obtain ⟨hf, hc, hcov⟩ := h
  unfold finishArgument
  split
  · rename_i hn
    refine ⟨hf, ?_, hcov⟩
    intro _
    rw [← hf]
    simpa using hn
  · simp only
    split
    · exact ⟨hf, hc, hcov⟩
    · exact ⟨hf, hc, hcov⟩

theorem param_eq (f : Function) (o : Overload) (posParam : Parameter)
    (hf : o.function = f) (h : o.param = .ok posParam) :
    f.rightParameters.get? o.nextArg = some posParam := by
  unfold Overload.param at h
  rw [hf] at h
  split at h
  · rename_i p hp
    simp at h; subst h; exact hp
  · simp at h

theorem parseArgumentsFor_assigned (context : ContextApi σ) (f : Function) (fuel : Nat) :
    ∀ (done todo res : List Overload) (s s' : σ),
      (∀ o ∈ done, Overload.assigned f o) → (∀ o ∈ todo, Overload.assigned f o) →
      parseArgumentsFor context fuel done todo s = .ok (res, s') →
      ∀ o ∈ res, Overload.assigned f o := by
  induction fuel with
  | zero => intro done todo res s s' _ _ h; simp [parseArgumentsFor] at h
  | succ n ih =>
    intro done todo res s s' hdone htodo h
    cases todo with
    | nil => simp [parseArgumentsFor] at h; obtain ⟨rfl, rfl⟩ := h; exact hdone
    | cons o rest =>
      simp only [parseArgumentsFor] at h
      have ho : Overload.assigned f o := htodo o (List.mem_cons_self _ _)
      have hrest : ∀ o ∈ rest, Overload.assigned f o :=
        fun o' h' => htodo o' (List.mem_cons_of_mem _ h')
      split at h
      · simp at h
      · rename_i posParam hparam
        have hpos := param_eq f o posParam ho.1 hparam
        split at h
        · simp at h
        · rename_i optTyped it s₁ _
          have hit : Overload.assigned f { o with it := it } := ho
          refine ih _ _ _ _ _ ?_ hrest h
          intro o' ho'
          rcases List.mem_append.1 ho' with hin | hin
          · exact hdone o' hin
          · simp at hin
            subst hin
            apply assigned_finishArgument
            split
            · exact assigned_assignArgument context f _ posParam _ hit hpos
            · exact hit

theorem mem_update (os : OverloadSet) (o : Overload) (h : o ∈ (OverloadSet.update os).vec) :
    o ∈ os.vec := by
  simp only [OverloadSet.update, OverloadSet.active, List.mem_append, List.mem_filter] at h
  rcases h with (⟨h, _⟩ | ⟨h, _⟩) | h
  · exact List.mem_of_mem_take h
  · exact List.mem_of_mem_take h
  · exact List.mem_of_mem_drop h

theorem parseArgumentsWithout_assigned (context : ContextApi σ) (f : Function) (fuel : Nat) :
    ∀ (os os' : OverloadSet) (s s' : σ),
      (∀ o ∈ os.vec, Overload.assigned f o) →
      parseArgumentsWithout context fuel os s = .ok (os', s') →
      ∀ o ∈ os'.vec, Overload.assigned f o := by
  induction fuel with
  | zero => intro os os' s s' _ h; simp [parseArgumentsWithout] at h
  | succ n ih =>
    intro os os' s s' hos h
    rw [parseArgumentsWithout] at h
    split at h
    · simp at h; obtain ⟨rfl, rfl⟩ := h; exact hos
    · split at h
      · simp at h
      · rename_i active s₁ hfor
        have hact : ∀ o ∈ active, Overload.assigned f o :=
          parseArgumentsFor_assigned context f n [] os.active active s s₁ (by simp)
            (fun o ho => hos o (List.mem_of_mem_take ho)) hfor
        refine ih _ _ _ _ ?_ h
        intro o ho
        have := mem_update _ o ho
        simp only [List.mem_append] at this
        rcases this with h1 | h1
        · exact hact o h1
        · exact hos o (List.mem_of_mem_drop h1)

theorem parseArguments_assigned (context : ContextApi σ) (f : Function) (fuel : Nat)
    (os os' : OverloadSet) (it it' : BlockLineView) (s s' : σ)
    (hos : ∀ o ∈ os.vec, Overload.assigned f o)
    (h : parseArguments context fuel os it s = .ok (os', it', s')) :
    ∀ o ∈ os'.vec, Overload.assigned f o := by
  cases fuel with
  | zero => simp [parseArguments] at h
  | succ n =>
    rw [parseArguments] at h
    split at h
    · simp at h
    · simp only at h
      split at h
      · simp at h
      · rename_i os₁ s₁ hw
        have h1 : ∀ o ∈ os₁.vec, Overload.assigned f o := by
          refine parseArgumentsWithout_assigned context f n _ _ _ _ ?_ hw
          intro o ho
          simp only [OverloadSet.setupIt, List.mem_map] at ho
          obtain ⟨o₀, ho₀, rfl⟩ := ho
          exact hos o₀ ho₀
        have hos' : os' = os₁ := by
          split at h
          · split at h <;> (simp at h; exact h.1.symm)
          · simp at h; exact h.1.symm
        rw [hos']; exact h1

theorem retireLeft_assigned (f : Function) (left : OptNode) :
    ∀ o ∈ ((OverloadSet.ofFunction f).retireLeft left).vec, Overload.assigned f o := by
  intro o ho
  unfold OverloadSet.retireLeft at ho
  have := mem_update _ o ho
  simp only [OverloadSet.ofFunction, List.map_cons, List.map_nil, List.mem_singleton] at this
  subst this
  exact assigned_retireLeft f _ _ (assigned_ofFunction f)

/-- Claim C10. Whenever `parseCall` builds a call (and hands it to `buildCallNode`), the call is
for the function asked for and each right parameter of that function is the `parameter` of at
least one `ArgumentAssignment` among its arguments; otherwise `parseCall` leaves the left
expression as it is. In particular, for a function without the `compiletime` flag, a node that
`parseCall` puts in the place of the left expression is such a `Call`. -/
theorem parseCall_assigns_right_parameters (context : ContextApi σ) (fuel : Nat)
    (left node : OptNode) (fun_ : Function) (it it' : BlockLineView) (s s' : σ)
    (opt : ParseOptions)
    (h : parseCall context fuel left fun_ it s = .ok (opt, node, it', s')) :
    (node = left ∨
      ∃ arguments s₀, buildCallNode context s₀ fun_ arguments = (node, s') ∧
        ∀ p ∈ fun_.rightParameters, ∃ a ∈ arguments, a.parameter = p) ∧
    (fun_.compiletime = false → node ≠ left →
      ∃ arguments, node = some (Node.Call fun_ arguments) ∧
        ∀ p ∈ fun_.rightParameters, ∃ a ∈ arguments, a.parameter = p) := by
  have main : node = left ∨
      ∃ arguments s₀, buildCallNode context s₀ fun_ arguments = (node, s') ∧
        ∀ p ∈ fun_.rightParameters, ∃ a ∈ arguments, a.parameter = p := by
    cases fuel with
    | zero => simp [parseCall] at h
    | succ n =>
      rw [parseCall] at h
      simp only at h
      split at h
      · simp at h
      · rename_i os it₁ s₁ hargs
        have hos : ∀ o ∈ os.vec, Overload.assigned fun_ o := by
          split at hargs
          · exact parseArguments_assigned context fun_ n _ _ _ _ _ _
              (retireLeft_assigned fun_ left) hargs
          · simp at hargs
            rw [← hargs.1]
            exact retireLeft_assigned fun_ left
        split at h
        · rename_i o hfin
          right
          have hmem : o ∈ os.finish := by rw [hfin]; simp
          simp only [OverloadSet.finish, List.mem_filter] at hmem
          obtain ⟨hf, hc, hcov⟩ := hos o hmem.1
          simp at h
          refine ⟨o.rightArgs, s₁, ?_, ?_⟩
          · rw [← hf]
            exact Prod.ext h.2.1 h.2.2.2
          · intro p hp
            obtain ⟨i, hget⟩ := List.mem_iff_get?.1 hp
            have hi : i < fun_.rightParameters.length := by
              by_contra hge
              have : fun_.rightParameters.get? i = none := List.get?_eq_none.2 (by omega)
              rw [this] at hget
              exact Option.noConfusion hget
            exact hcov i p (by rw [hc hmem.2]; exact hi) hget
        · left
          split at h <;> (simp at h; exact h.2.1.symm)
  refine ⟨main, ?_⟩
  intro hct hne
  rcases main with hl | ⟨arguments, s₀, hb, hcov⟩
  · exact absurd hl hne
  · refine ⟨arguments, ?_, hcov⟩
    simp [buildCallNode, isDirectlyExecutable, hct] at hb
    exact hb.1.symm

theorem parseCall_assigns_right_parameters_witness :
    parseCall (scope_context infix_scope) 14 (some infix_left_value) infix_function
        ⟨infix_line.tokens, 2⟩ () =
      .ok (ParseOptions.continue_single,
        some (Node.Call infix_function [ArgumentAssignment.mk infix_right [infix_right_value]]),
        ⟨infix_line.tokens, 3⟩, ()) ∧
    ∃ arguments,
      some (Node.Call infix_function [ArgumentAssignment.mk infix_right [infix_right_value]]) =
        some (Node.Call infix_function arguments) ∧
      ∀ p ∈ infix_function.rightParameters, ∃ a ∈ arguments, a.parameter = p :=
  ⟨rfl, (parseCall_assigns_right_parameters (scope_context infix_scope) 14
    (some infix_left_value)
    (some (Node.Call infix_function [ArgumentAssignment.mk infix_right [infix_right_value]]))
    infix_function ⟨infix_line.tokens, 2⟩ ⟨infix_line.tokens, 3⟩ () ()
    ParseOptions.continue_single rfl).2 rfl (by simp [infix_left_value])⟩

/-! ## Overload resolution in `parseCall` -/

/-- Claim C11, the code at the failing input. In `overloaded_scope` the name `g` is bound to two
functions, `binary_function` first and `unary_function` second. The line `g 1` completes
`unary_function` (bound alone it gives the call `g(a = 1)`) and does not complete
`binary_function` (bound alone it gives no call, `1` is parsed as a value of its own). With
both bound only the first entry is tried: the line gives the value `1` and no call. -/
theorem only_first_function_is_tried :
    overloaded_scope.range "g" =
      [Entry.function binary_function, Entry.function unary_function] ∧
    parse (scope_context call_scope) 16 (one_line line_g_1) () =
      .ok (⟨[Node.Call unary_function [ArgumentAssignment.mk param_a [number_value "1"]]]⟩,
        ()) ∧
    parse (scope_context binary_scope) 16 (one_line line_g_1) () =
      .ok (⟨[number_value "1"]⟩, ()) ∧
    parse (scope_context overloaded_scope) 16 (one_line line_g_1) () =
      .ok (⟨[number_value "1"]⟩, ()) :=
  ⟨rfl, rfl, rfl, rfl⟩

/-- `parseCall` goes on from the overload set of `parseCallOverloads`: with exactly one
complete candidate it builds the call of that candidate. -/
theorem parseCall_with_winner (context : ContextApi σ) (fuel : Nat) (left : OptNode)
    (fun_ : Function) (it it₁ : BlockLineView) (s s₁ : σ) (os : OverloadSet) (o : Overload)
    (hos : parseCallOverloads context fuel left fun_ it s = .ok (os, it₁, s₁))
    (hfinish : os.finish = [o]) :
    parseCall context (fuel + 1) left fun_ it s =
      .ok (if o.hasBlocks then ParseOptions.finish_single else ParseOptions.continue_single,
        (buildCallNode context s₁ o.function o.rightArgs).1, o.it,
        (buildCallNode context s₁ o.function o.rightArgs).2) := by
  unfold parseCallOverloads at hos
  rw [parseCall]
  simp only [hos, hfinish]

/-- Without exactly one complete candidate at the end of overload resolution `parseCall`
takes its fall-back path: no call is built and the left expression is handed back. -/
theorem parseCall_falls_back (context : ContextApi σ) (fuel : Nat) (left : OptNode)
    (fun_ : Function) (it it₁ : BlockLineView) (s s₁ : σ) (os : OverloadSet)
    (hos : parseCallOverloads context fuel left fun_ it s = .ok (os, it₁, s₁))
    (hfinish : os.finish.length ≠ 1) :
    parseCall context (fuel + 1) left fun_ it s =
      .ok (if left.isSome then ParseOptions.finish_single else ParseOptions.continue_single,
        left, it₁, s₁) := by
  unfold parseCallOverloads at hos
  rw [parseCall]
  simp only [hos]
  split
  · rename_i o ho
    rw [ho] at hfinish
    exact absurd rfl hfinish
  · split <;> rfl

/-- Claim C12, the claim refuted. For `g` with two right parameters and the line `g 1` no
candidate is complete, the left expression is empty, and `parseCall` returns
`continue_single`, not `finish_single`: the caller goes on and parses `1`, the token after
`g`, as the value of the line. -/
theorem no_call_without_left_continues :
    (parseCallOverloads (scope_context binary_scope) 15 none binary_function
        ⟨line_g_1, 1⟩ ()).map (fun r => r.1.finish.length) = .ok 0 ∧
    parseCall (scope_context binary_scope) 16 none binary_function ⟨line_g_1, 1⟩ () =
      .ok (ParseOptions.continue_single, none, ⟨line_g_1, 1⟩, ()) ∧
    parseCall (scope_context binary_scope) 16 none binary_function ⟨line_g_1, 1⟩ () ≠
      .ok (ParseOptions.finish_single, none, ⟨line_g_1, 1⟩, ()) ∧
    parse (scope_context binary_scope) 16 (one_line line_g_1) () =
      .ok (⟨[number_value "1"]⟩, ()) := by
  refine ⟨rfl, rfl, ?_, rfl⟩
  have h : parseCall (scope_context binary_scope) 16 none binary_function ⟨line_g_1, 1⟩ () =
      .ok (ParseOptions.continue_single, none, ⟨line_g_1, 1⟩, ()) := rfl
  rw [h]
  intro hc
  injection hc with hc
  injection hc with hc _
  cases hc

/-- Claim C12 as amended. When overload resolution does not end with exactly one complete
candidate, `parseCall` builds no call and leaves the left expression unchanged; it returns
`finish_single` when the left expression is not empty and `continue_single` when it is
empty. -/
theorem parseCall_without_winner (context : ContextApi σ) (fuel : Nat) (left : OptNode)
    (fun_ : Function) (it it₁ : BlockLineView) (s s₁ : σ) (os : OverloadSet)
    (hos : parseCallOverloads context fuel left fun_ it s = .ok (os, it₁, s₁))
    (hfinish : os.finish.length ≠ 1) :
    parseCall context (fuel + 1) left fun_ it s =
      .ok (if left.isSome then ParseOptions.finish_single else ParseOptions.continue_single,
        left, it₁, s₁) := by
  unfold parseCallOverloads at hos
  rw [parseCall]
  simp only [hos]
  split
  · rename_i o ho
    rw [ho] at hfinish
    exact absurd rfl hfinish
  · split <;> rfl

theorem parseCall_without_winner_witness :
    parseCall (scope_context binary_scope) (15 + 1) (some (number_value "0")) binary_function
        ⟨line_g_1, 1⟩ () =
      .ok (if (some (number_value "0")).isSome then ParseOptions.finish_single
          else ParseOptions.continue_single,
        some (number_value "0"), ⟨line_g_1, 1⟩, ()) :=
  parseCall_without_winner (scope_context binary_scope) 15 (some (number_value "0"))
    binary_function ⟨line_g_1, 1⟩ ⟨line_g_1, 1⟩ () () _ rfl (by decide)

/-- Claim C13, the code at the failing input. The function `g` has the single right parameter
`a`, so `x` names no parameter of it. For the line `g x = 5 7` the argument `x = 5` is parsed
and dropped, the candidate stays active, takes `7` for `a` and is selected: the call
`g(a = 7)` is built. -/
theorem unknown_named_argument_is_skipped :
    unary_function.lookupParameter "x" = none ∧
    parseCall (scope_context call_scope) 10 none unary_function ⟨line_g_x_5_7, 1⟩ () =
      .ok (ParseOptions.continue_single,
        some (Node.Call unary_function [ArgumentAssignment.mk param_a [number_value "7"]]),
        ⟨line_g_x_5_7, 5⟩, ()) ∧
    parse (scope_context call_scope) 17 (one_line line_g_x_5_7) () =
      .ok (⟨[Node.Call unary_function [ArgumentAssignment.mk param_a [number_value "7"]]]⟩,
        ()) :=
  ⟨rfl, rfl, rfl⟩

theorem update_of_inactive (o : Overload) (h : o.active = false) :
    OverloadSet.update ⟨[o], 1⟩ = ⟨[o], 0⟩ := by
  simp [OverloadSet.update, OverloadSet.active, h]

/-- A candidate for a function that declares parameters and that `retireLeft` marks inactive
is not the winner: `parseCall` builds no call and leaves the left expression as it is. -/
theorem retired_candidate_builds_no_call (context : ContextApi σ) (fuel : Nat) (left : OptNode)
    (fun_ : Function) (it : BlockLineView) (s : σ) (hparams : fun_.parameters ≠ [])
    (hretired : ((Overload.ofFunction fun_).retireLeft (leftView left)).active = false) :
    parseCall context (fuel + 1) left fun_ it s =
      .ok (if left.isSome then ParseOptions.finish_single else ParseOptions.continue_single,
        left, it, s) := by
  have hos : (OverloadSet.ofFunction fun_).retireLeft left =
      ⟨[(Overload.ofFunction fun_).retireLeft (leftView left)], 0⟩ := by
    have hview : (OverloadSet.ofFunction fun_).retireLeft left =
        OverloadSet.update ⟨[(Overload.ofFunction fun_).retireLeft (leftView left)], 1⟩ := by
      unfold OverloadSet.retireLeft leftView OverloadSet.ofFunction
      rfl
    rw [hview, update_of_inactive _ hretired]
  have hcomplete : ((Overload.ofFunction fun_).retireLeft (leftView left)).complete = false := by
    obtain ⟨b, hb⟩ := retireLeftLoop_only_active (Overload.ofFunction fun_)
      (Overload.ofFunction fun_).function.leftParameters (leftView left) 0 0
    unfold Overload.retireLeft
    rw [hb]
    cases hp : fun_.parameters with
    | nil => exact absurd hp hparams
    | cons p ps => simp [Overload.ofFunction, hp]
  apply parseCall_falls_back context fuel left fun_ it it s s
    ⟨[(Overload.ofFunction fun_).retireLeft (leftView left)], 0⟩
  · unfold parseCallOverloads
    rw [hos]
    simp [OverloadSet.active]
  · simp [OverloadSet.finish, hcomplete]

/-- Claim C14, the code at the failing input. The function `h` declares no parameters, so the
left expression `1` of the line `1 h` does not match: `retireLeft` marks the candidate
inactive. The candidate was complete from the start and stays so, and `parseCall` builds the
call `h()` for it, in the place of the left expression. -/
theorem retired_candidate_without_parameters_wins :
    ((Overload.ofFunction nullary_function).retireLeft
      (leftView (some (number_value "1")))).active = false ∧
    ((Overload.ofFunction nullary_function).retireLeft
      (leftView (some (number_value "1")))).complete = true ∧
    (parseCall (scope_context call_scope) 2 (some (number_value "1")) nullary_function
        ⟨line_1_h, 2⟩ ()).map (fun r => (r.1, r.2.1)) =
      .ok (ParseOptions.continue_single, some (Node.Call nullary_function [])) ∧
    parse (scope_context call_scope) 9 (one_line line_1_h) () =
      .ok (⟨[Node.Call nullary_function []]⟩, ()) :=
  ⟨rfl, rfl, rfl, rfl⟩

/-- Claim C15, the code at the failing input. In the line `x = h 5` the value is parsed by
`parseSingle` from position 2; `h` declares no parameters, its call is resolved at once and
`parseCall` commits the cursor of the candidate, which was never set up: the cursor returned
refers to no line and stands at position 0, behind the start position, and the token `5` is
never parsed. -/
theorem cursor_is_lost_after_nullary_call :
    parseSingle (scope_context call_scope) 4 none ⟨line_x_h_5, 2⟩ () =
      .ok (some (Node.Call nullary_function []), ⟨[], 0⟩, ()) ∧
    (⟨[], 0⟩ : BlockLineView).line ≠ line_x_h_5 ∧
    (⟨[], 0⟩ : BlockLineView).index < 2 ∧
    parse (scope_context call_scope) 8 (one_line line_x_h_5) () =
      .ok (⟨[Node.NameTypeValueTuple
        [NameTypeValue.mk (some "x") none (some (Node.Call nullary_function []))]]⟩, ()) := by
  refine ⟨rfl, ?_, by decide, rfl⟩
  simp [line_x_h_5]

/-- Claim C19, the code at the failing input. For `g` with the single right parameter `a` and
the line `g x = <block> 7` the block literal is the value of the unknown argument `x`: it sets
`hasBlocks` and is then dropped. The call built is `g(a = 7)`, none of its stored argument
values is a block literal, and `parseCall` still returns `finish_single`. With `5` in the
place of the block it returns `continue_single`. -/
theorem dropped_block_argument_finishes_call :
    parseCall (scope_context call_scope) 10 none unary_function ⟨line_g_x_block_7, 1⟩ () =
      .ok (ParseOptions.finish_single,
        some (Node.Call unary_function [ArgumentAssignment.mk param_a [number_value "7"]]),
        ⟨line_g_x_block_7, 5⟩, ()) ∧
    isNodeBlockLiteral (scope_context call_scope) (number_value "7") = false ∧
    parseCall (scope_context call_scope) 10 none unary_function ⟨line_g_x_5_7, 1⟩ () =
      .ok (ParseOptions.continue_single,
        some (Node.Call unary_function [ArgumentAssignment.mk param_a [number_value "7"]]),
        ⟨line_g_x_5_7, 5⟩, ()) :=
  ⟨rfl, rfl, rfl⟩

/-- A property of the candidates that every round of the candidate loop keeps is kept by the
loop `for (auto& o : os.active())`. -/
theorem parseArgumentsFor_keeps (context : ContextApi σ) (P : Overload → Prop)
    (hstep : ∀ (o : Overload) (posParam : Parameter) (optTyped : OptNameTypeValue)
      (it : BlockLineView), P o → o.param = .ok posParam →
      P (finishArgument (match optTyped with
        | some typed => assignArgument context { o with it := it } posParam typed
        | none => { o with it := it })))
    (fuel : Nat) :
    ∀ (done todo res : List Overload) (s s' : σ),
      (∀ o ∈ done, P o) → (∀ o ∈ todo, P o) →
      parseArgumentsFor context fuel done todo s = .ok (res, s') →
      ∀ o ∈ res, P o := by
  induction fuel with
  | zero => intro done todo res s s' _ _ h; simp [parseArgumentsFor] at h
  | succ n ih =>
    intro done todo res s s' hdone htodo h
    cases todo with
    | nil => simp [parseArgumentsFor] at h; obtain ⟨rfl, rfl⟩ := h; exact hdone
    | cons o rest =>
      simp only [parseArgumentsFor] at h
      have ho : P o := htodo o (List.mem_cons_self _ _)
      have hrest : ∀ o ∈ rest, P o := fun o' h' => htodo o' (List.mem_cons_of_mem _ h')
      split at h
      · simp at h
      · rename_i posParam hparam
        split at h
        · simp at h
        · rename_i optTyped it s₁ _
          refine ih _ _ _ _ _ ?_ hrest h
          intro o' ho'
          rcases List.mem_append.1 ho' with hin | hin
          · exact hdone o' hin
          · simp at hin
            subst hin
            exact hstep o posParam optTyped it ho hparam

/-- A property of the candidates that every round of the candidate loop keeps is kept by
`parseArgumentsWithout`. -/
theorem parseArgumentsWithout_keeps (context : ContextApi σ) (P : Overload → Prop)
    (hstep : ∀ (o : Overload) (posParam : Parameter) (optTyped : OptNameTypeValue)
      (it : BlockLineView), P o → o.param = .ok posParam →
      P (finishArgument (match optTyped with
        | some typed => assignArgument context { o with it := it } posParam typed
        | none => { o with it := it })))
    (fuel : Nat) :
    ∀ (os os' : OverloadSet) (s s' : σ), (∀ o ∈ os.vec, P o) →
      parseArgumentsWithout context fuel os s = .ok (os', s') →
      ∀ o ∈ os'.vec, P o := by
  induction fuel with
  | zero => intro os os' s s' _ h; simp [parseArgumentsWithout] at h
  | succ n ih =>
    intro os os' s s' hos h
    rw [parseArgumentsWithout] at h
    split at h
    · simp at h; obtain ⟨rfl, rfl⟩ := h; exact hos
    · split at h
      · simp at h
      · rename_i active s₁ hfor
        have hact : ∀ o ∈ active, P o :=
          parseArgumentsFor_keeps context P hstep n [] os.active active s s₁ (by simp)
            (fun o ho => hos o (List.mem_of_mem_take ho)) hfor
        refine ih _ _ _ _ ?_ h
        intro o ho
        have := mem_update _ o ho
        simp only [List.mem_append] at this
        rcases this with h1 | h1
        · exact hact o h1
        · exact hos o (List.mem_of_mem_drop h1)

/-- A property of the candidates that holds for the fresh candidate, does not depend on the
fields `active` and `it`, and is kept by every round of the candidate loop holds for every
candidate of the overload set `parseCall` finishes with. -/
theorem parseCallOverloads_keeps (context : ContextApi σ) (P : Overload → Prop)
    (hstep : ∀ (o : Overload) (posParam : Parameter) (optTyped : OptNameTypeValue)
      (it : BlockLineView), P o → o.param = .ok posParam →
      P (finishArgument (match optTyped with
        | some typed => assignArgument context { o with it := it } posParam typed
        | none => { o with it := it })))
    (hactive : ∀ (o : Overload) (b : Bool), P o → P { o with active := b })
    (hit : ∀ (o : Overload) (it : BlockLineView), P o → P { o with it := it })
    (fuel : Nat) (left : OptNode) (fun_ : Function) (it it₁ : BlockLineView) (s s₁ : σ)
    (os : OverloadSet) (hinit : P (Overload.ofFunction fun_))
    (h : parseCallOverloads context fuel left fun_ it s = .ok (os, it₁, s₁)) :
    ∀ o ∈ os.vec, P o := by
  have hview : ∀ view : List NameTypeValue, P ((Overload.ofFunction fun_).retireLeft view) := by
    intro view
    obtain ⟨b, hb⟩ := retireLeftLoop_only_active (Overload.ofFunction fun_)
      (Overload.ofFunction fun_).function.leftParameters view 0 0
    unfold Overload.retireLeft
    rw [hb]
    exact hactive _ b hinit
  have hretire : ∀ o ∈ ((OverloadSet.ofFunction fun_).retireLeft left).vec, P o := by
    intro o ho
    unfold OverloadSet.retireLeft at ho
    have := mem_update _ o ho
    simp only [OverloadSet.ofFunction, List.map_cons, List.map_nil, List.mem_singleton] at this
    subst this
    exact hview _
  unfold parseCallOverloads at h
  split at h
  · cases fuel with
    | zero => simp [parseArguments] at h
    | succ n =>
      rw [parseArguments] at h
      split at h
      · simp at h
      · simp only at h
        split at h
        · simp at h
        · rename_i os₁ s₂ hw
          have h1 : ∀ o ∈ os₁.vec, P o := by
            refine parseArgumentsWithout_keeps context P hstep n _ _ _ _ ?_ hw
            intro o ho
            simp only [OverloadSet.setupIt, List.mem_map] at ho
            obtain ⟨o₀, ho₀, rfl⟩ := ho
            exact hit o₀ _ (hretire o₀ ho₀)
          have hos' : os = os₁ := by
            split at h
            · split at h <;> (simp at h; exact h.1.symm)
            · simp at h; exact h.1.symm
          rw [hos']; exact h1
  · simp at h
    rw [← h.1]
    exact hretire

theorem blocks_marked_storeTyped (context : ContextApi σ) (o : Overload) (posParam : Parameter)
    (typed : NameTypeValue)
    (hne : context.intrinsicType IntrinsicKind.NameTypeValue ≠
      context.intrinsicType IntrinsicKind.BlockLiteral)
    (h : Overload.blocks_marked context o) :
    Overload.blocks_marked context (storeTyped context o posParam typed) := by
  intro ⟨a, ha, v, hv, hb⟩
  simp only [storeTyped, List.mem_append, List.mem_singleton] at ha
  rcases ha with ha | ha
  · exact h ⟨a, ha, v, hv, hb⟩
  · subst ha
    simp only [ArgumentAssignment.values, List.mem_singleton] at hv
    subst hv
    simp [isNodeBlockLiteral, makeTokenValue, isBlockLiteral, hne] at hb

theorem blocks_marked_storeValue (context : ContextApi σ) (o : Overload) (posParam : Parameter)
    (name : Option Name) (value : Node) (h : Overload.blocks_marked context o)
    (hv : isNodeBlockLiteral context value = true → o.hasBlocks = true) :
    Overload.blocks_marked context (storeValue o posParam name value) := by
  have happend : ∀ (p : Parameter) (o' : Overload), o'.hasBlocks = o.hasBlocks →
      o'.rightArgs = o.rightArgs ++ [ArgumentAssignment.mk p [value]] →
      Overload.blocks_marked context o' := by
    intro p o' hh hr ⟨a, ha, v, hmem, hb⟩
    rw [hh]
    rw [hr] at ha
    simp only [List.mem_append, List.mem_singleton] at ha
    rcases ha with ha | ha
    · exact h ⟨a, ha, v, hmem, hb⟩
    · subst ha
      simp only [ArgumentAssignment.values, List.mem_singleton] at hmem
      subst hmem
      exact hv hb
  unfold storeValue
  split
  · split
    · split
      · exact happend _ _ rfl rfl
      · exact h
    · exact h
  · split
    · exact happend _ _ rfl rfl
    · exact h

theorem blocks_marked_assignArgument (context : ContextApi σ) (o : Overload)
    (posParam : Parameter) (typed : NameTypeValue)
    (hne : context.intrinsicType IntrinsicKind.NameTypeValue ≠
      context.intrinsicType IntrinsicKind.BlockLiteral)
    (h : Overload.blocks_marked context o) :
    Overload.blocks_marked context (assignArgument context o posParam typed) := by
  unfold assignArgument
  split
  · split
    · exact blocks_marked_storeTyped context o posParam typed hne h
    · exact h
  · rename_i value _
    split
    · split
      · exact blocks_marked_storeTyped context o posParam typed hne h
      · exact h
    · split
      · exact blocks_marked_storeValue context _ posParam _ value (fun _ => rfl) (fun _ => rfl)
      · rename_i hnb
        exact blocks_marked_storeValue context o posParam _ value h
          (fun hb => absurd hb hnb)

theorem blocks_marked_finishArgument (context : ContextApi σ) (o : Overload)
    (h : Overload.blocks_marked context o) :
    Overload.blocks_marked context (finishArgument o) := by
  unfold finishArgument
  split
  · exact h
  · simp only
    split <;> exact h

/-- The half of claim C19 that holds: when the intrinsic types of `NameTypeValue` and
`BlockLiteral` are two types, a call with a stored argument value of the intrinsic
`BlockLiteral` type makes `parseCall` return `finish_single`. -/
theorem stored_block_finishes_call (context : ContextApi σ) (fuel : Nat) (left : OptNode)
    (fun_ : Function) (it it₁ : BlockLineView) (s s₁ : σ) (os : OverloadSet) (o : Overload)
    (hne : context.intrinsicType IntrinsicKind.NameTypeValue ≠
      context.intrinsicType IntrinsicKind.BlockLiteral)
    (hos : parseCallOverloads context fuel left fun_ it s = .ok (os, it₁, s₁))
    (hfinish : os.finish = [o])
    (hblock : ∃ a ∈ o.rightArgs, ∃ v ∈ a.values, isNodeBlockLiteral context v = true) :
    parseCall context (fuel + 1) left fun_ it s =
      .ok (ParseOptions.finish_single, (buildCallNode context s₁ o.function o.rightArgs).1,
        o.it, (buildCallNode context s₁ o.function o.rightArgs).2) := by
  have hinv : ∀ o ∈ os.vec, Overload.blocks_marked context o := by
    refine parseCallOverloads_keeps context (Overload.blocks_marked context) ?_ ?_ ?_
      fuel left fun_ it it₁ s s₁ os ?_ hos
    · intro o posParam optTyped it ho _
      apply blocks_marked_finishArgument
      split
      · exact blocks_marked_assignArgument context _ posParam _ hne ho
      · exact ho
    · intro o b ho; exact ho
    · intro o it ho; exact ho
    · intro ⟨a, ha, _⟩
      simp [Overload.ofFunction] at ha
  have hmem : o ∈ os.finish := by rw [hfinish]; simp
  simp only [OverloadSet.finish, List.mem_filter] at hmem
  have hb : o.hasBlocks = true := hinv o hmem.1 hblock
  rw [parseCall_with_winner context fuel left fun_ it it₁ s s₁ os o hos hfinish]
  simp [hb]

/-- The line `g <block>`: the block literal is stored for the parameter `a`, and `parseCall`
returns `finish_single`. -/
theorem stored_block_finishes_call_sample :
    parseCall (scope_context call_scope) (8 + 1) none unary_function ⟨line_g_block, 1⟩ () =
      .ok (ParseOptions.finish_single,
        some (Node.Call unary_function [ArgumentAssignment.mk param_a
          [Node.Value (ValueData.BlockLiteral (nesting.BlockLiteral.mk [] false))
            (TypeExpression.TypeInstance (scope_context_type IntrinsicKind.BlockLiteral))]]),
        ⟨line_g_block, 2⟩, ()) :=
  stored_block_finishes_call (scope_context call_scope) 8 none unary_function
    ⟨line_g_block, 1⟩ _ () () _ _ (by decide) rfl rfl
    ⟨_, List.mem_singleton.2 rfl, _, List.mem_singleton.2 rfl, rfl⟩

/-- The line `1 g` for `g` with one right parameter: the left expression retires the
candidate and `parseCall` hands the left expression back. -/
theorem retired_candidate_builds_no_call_sample :
    parseCall (scope_context call_scope) (0 + 1) (some (number_value "1")) unary_function
        ⟨line_1_h, 2⟩ () =
      .ok (ParseOptions.finish_single, some (number_value "1"), ⟨line_1_h, 2⟩, ()) :=
  retired_candidate_builds_no_call (scope_context call_scope) 0 (some (number_value "1"))
    unary_function ⟨line_1_h, 2⟩ () (by simp [unary_function]) rfl

/-! ## Compile-time dispatch, parameter parsers and member access -/

mutual
theorem node_executable_eq : (node : Node) →
    isDirectlyExecutableNode node = fully_static node
  | Node.Block _ => by simp [isDirectlyExecutableNode, fully_static]
  | Node.Call function arguments => by
    simp only [isDirectlyExecutableNode, fully_static, arguments_executable_eq arguments]
    cases function.compiletime <;> simp
  | Node.IntrinsicCall => by simp [isDirectlyExecutableNode, fully_static]
  | Node.ParameterReference _ => by simp [isDirectlyExecutableNode, fully_static]
  | Node.VariableReference _ => by simp [isDirectlyExecutableNode, fully_static]
  | Node.VariableInit _ _ => by simp [isDirectlyExecutableNode, fully_static]
  | Node.ModuleReference _ _ => by simp [isDirectlyExecutableNode, fully_static]
  | Node.NameTypeValueReference => by simp [isDirectlyExecutableNode, fully_static]
  | Node.NameTypeValueTuple tuple => by
    simp only [isDirectlyExecutableNode, fully_static, tuple_executable_eq tuple]
  | Node.Value _ _ => by simp [isDirectlyExecutableNode, fully_static]
theorem arguments_executable_eq : (arguments : List ArgumentAssignment) →
    isDirectlyExecutableArguments arguments = fully_static_arguments arguments
  | [] => by simp [isDirectlyExecutableArguments, fully_static_arguments]
  | ArgumentAssignment.mk _ values :: rest => by
    simp only [isDirectlyExecutableArguments, fully_static_arguments,
      nodes_executable_eq values, arguments_executable_eq rest]
    cases fully_static_nodes values <;> simp
theorem nodes_executable_eq : (nodes : List Node) →
    isDirectlyExecutableNodes nodes = fully_static_nodes nodes
  | [] => by simp [isDirectlyExecutableNodes, fully_static_nodes]
  | node :: rest => by
    simp only [isDirectlyExecutableNodes, fully_static_nodes,
      node_executable_eq node, nodes_executable_eq rest]
    cases fully_static node <;> simp
theorem tuple_executable_eq : (tuple : List NameTypeValue) →
    isDirectlyExecutableTuple tuple = fully_static_tuple tuple
  | [] => by simp [isDirectlyExecutableTuple, fully_static_tuple]
  | NameTypeValue.mk _ type none :: rest => by
    simp only [isDirectlyExecutableTuple, fully_static_tuple, isDirectlyExecutableTyped,
      tuple_executable_eq rest]
    cases type with
    | none => simp
    | some t => cases t <;> simp [isDirectlyExecutableType]
  | NameTypeValue.mk _ type (some value) :: rest => by
    simp only [isDirectlyExecutableTuple, fully_static_tuple, isDirectlyExecutableTyped,
      tuple_executable_eq rest, node_executable_eq value]
    cases type with
    | none => cases fully_static value <;> simp
    | some t => cases t <;> cases fully_static value <;> simp [isDirectlyExecutableType]
end

mutual
theorem dynamic_not_static : (node : Node) → has_dynamic node = true →
    fully_static node = false
  | Node.Block _ => by simp [fully_static]
  | Node.Call function arguments => by
    intro h
    simp only [has_dynamic] at h
    simp [fully_static, dynamic_arguments_not_static arguments h]
  | Node.IntrinsicCall => by simp [fully_static]
  | Node.ParameterReference _ => by simp [fully_static]
  | Node.VariableReference _ => by simp [fully_static]
  | Node.VariableInit _ _ => by simp [fully_static]
  | Node.ModuleReference _ _ => by simp [fully_static]
  | Node.NameTypeValueReference => by simp [has_dynamic]
  | Node.NameTypeValueTuple tuple => by
    intro h
    simp only [has_dynamic] at h
    simp [fully_static, dynamic_tuple_not_static tuple h]
  | Node.Value _ _ => by simp [has_dynamic]
theorem dynamic_arguments_not_static : (arguments : List ArgumentAssignment) →
    has_dynamic_arguments arguments = true → fully_static_arguments arguments = false
  | [] => by simp [has_dynamic_arguments]
  | ArgumentAssignment.mk _ values :: rest => by
    intro h
    simp only [has_dynamic_arguments, Bool.or_eq_true] at h
    simp only [fully_static_arguments, Bool.and_eq_false_iff]
    rcases h with h | h
    · left; exact dynamic_nodes_not_static values h
    · right; exact dynamic_arguments_not_static rest h
theorem dynamic_nodes_not_static : (nodes : List Node) →
    has_dynamic_nodes nodes = true → fully_static_nodes nodes = false
  | [] => by simp [has_dynamic_nodes]
  | node :: rest => by
    intro h
    simp only [has_dynamic_nodes, Bool.or_eq_true] at h
    simp only [fully_static_nodes, Bool.and_eq_false_iff]
    rcases h with h | h
    · left; exact dynamic_not_static node h
    · right; exact dynamic_nodes_not_static rest h
theorem dynamic_tuple_not_static : (tuple : List NameTypeValue) →
    has_dynamic_tuple tuple = true → fully_static_tuple tuple = false
  | [] => by simp [has_dynamic_tuple]
  | NameTypeValue.mk _ type none :: rest => by
    intro h
    simp only [has_dynamic_tuple] at h
    simp [fully_static_tuple, dynamic_tuple_not_static rest h]
  | NameTypeValue.mk _ type (some value) :: rest => by
    intro h
    simp only [has_dynamic_tuple, Bool.or_eq_true] at h
    simp only [fully_static_tuple, Bool.and_eq_false_iff]
    rcases h with h | h
    · left; left; exact dynamic_not_static value h
    · right; exact dynamic_tuple_not_static rest h
end


/-- Claim C16, the claim refuted. The function `say` has the `compiletime` flag. The arguments
`a = (: Auto = 1)` are fully static in the words of the claim (the value of the only tuple
entry is a `Value`), yet the call is not handed to `runCall`: the entry has the type `Auto`.
The arguments `a = Value{NameTypeValue{value = v}}` hold a `VariableReference` inside the
value, yet the call is handed to `runCall`: what a `Value` holds is not looked at. -/
theorem dispatch_differs_from_claimed_rule :
    compiletime_function.compiletime = true ∧
    claimed_static_arguments auto_typed_arguments = true ∧
    buildCallNode counting_context 0 compiletime_function auto_typed_arguments =
      (some (Node.Call compiletime_function auto_typed_arguments), 0) ∧
    counting_context.runCall 0 compiletime_function auto_typed_arguments =
      (some Node.IntrinsicCall, 1) ∧
    buildCallNode counting_context 0 compiletime_function wrapped_reference_arguments =
      (some Node.IntrinsicCall, 1) :=
  ⟨rfl, rfl, rfl, rfl, rfl⟩

/-- Claim C16 as amended. `buildCallNode` hands a call to `runCall` exactly when the called
function has the `compiletime` flag and every argument value is fully static, where a node is
fully static when it is a `Value` (whatever it holds), a `NameTypeValueTuple` in which every
entry has a fully static value, if any, and a type other than `Auto`, if any, or a `Call`
satisfying this same rule; otherwise it returns the `Call` node unchanged. In particular it
never dispatches a call that has a `Block`, `IntrinsicCall`, `VariableReference`,
`ParameterReference`, `ModuleReference` or `VariableInit` at any depth reached through the
values of tuple entries and the argument values of calls. -/
theorem buildCallNode_dispatches_static_calls (context : ContextApi σ) (s : σ)
    (function : Function) (arguments : ArgumentAssignments) :
    (function.compiletime = true ∧ fully_static_arguments arguments = true →
      buildCallNode context s function arguments = context.runCall s function arguments) ∧
    (¬ (function.compiletime = true ∧ fully_static_arguments arguments = true) →
      buildCallNode context s function arguments =
        (some (Node.Call function arguments), s)) ∧
    (has_dynamic_arguments arguments = true →
      buildCallNode context s function arguments =
        (some (Node.Call function arguments), s)) := by
  have hexec : isDirectlyExecutable function arguments =
      (function.compiletime && fully_static_arguments arguments) := by
    unfold isDirectlyExecutable
    rw [arguments_executable_eq]
    cases function.compiletime <;> simp
  have hno : ¬ (function.compiletime = true ∧ fully_static_arguments arguments = true) →
      buildCallNode context s function arguments =
        (some (Node.Call function arguments), s) := by
    intro h
    unfold buildCallNode
    rw [hexec]
    have : (function.compiletime && fully_static_arguments arguments) = false := by
      cases hc : function.compiletime <;> cases hs : fully_static_arguments arguments <;>
        simp_all
    simp [this]
  refine ⟨?_, hno, ?_⟩
  · intro h
    unfold buildCallNode
    rw [hexec]
    simp [h.1, h.2]
  · intro h
    apply hno
    intro hc
    rw [dynamic_arguments_not_static arguments h] at hc
    exact Bool.noConfusion hc.2

theorem buildCallNode_dispatches_static_calls_witness :
    buildCallNode counting_context 0 compiletime_function literal_arguments =
      counting_context.runCall 0 compiletime_function literal_arguments ∧
    buildCallNode counting_context 0 unary_function literal_arguments =
      (some (Node.Call unary_function literal_arguments), 0) ∧
    buildCallNode counting_context 0 compiletime_function reference_arguments =
      (some (Node.Call compiletime_function reference_arguments), 0) :=
  ⟨(buildCallNode_dispatches_static_calls counting_context 0 compiletime_function
      literal_arguments).1 ⟨rfl, rfl⟩,
    (buildCallNode_dispatches_static_calls counting_context 0 unary_function
      literal_arguments).2.1 (by simp [unary_function]),
    (buildCallNode_dispatches_static_calls counting_context 0 compiletime_function
      reference_arguments).2.2 rfl⟩

/-- Claim C17. `getParserForType` returns the parser kind `t.parser` of the concrete type `t`
for a `Pointer` whose target is a `TypeInstance` of `t`, and `Expression` for every other type
expression: `Auto`, a bare `TypeInstance`, a `Pointer` to anything else. -/
theorem getParserForType_inherits_pointer_target :
    (∀ t : InstanceType,
      getParserForType (TypeExpression.Pointer (TypeExpression.TypeInstance t)) = t.parser) ∧
    (∀ type : TypeExpression,
      (∀ t : InstanceType, type ≠ TypeExpression.Pointer (TypeExpression.TypeInstance t)) →
      getParserForType type = Instance.Parser.Expression) ∧
    getParserForType TypeExpression.Auto = Instance.Parser.Expression ∧
    (∀ t : InstanceType,
      getParserForType (TypeExpression.TypeInstance t) = Instance.Parser.Expression) ∧
    getParserForType (TypeExpression.Pointer TypeExpression.Auto) =
      Instance.Parser.Expression ∧
    (∀ type : TypeExpression,
      getParserForType (TypeExpression.Pointer (TypeExpression.Pointer type)) =
        Instance.Parser.Expression) := by
  refine ⟨fun t => rfl, ?_, rfl, fun t => rfl, rfl, fun type => rfl⟩
  intro type h
  cases type with
  | Auto => rfl
  | TypeInstance t => rfl
  | Pointer target =>
    cases target with
    | Auto => rfl
    | Pointer inner => rfl
    | TypeInstance t => exact absurd rfl (h t)

theorem getParserForType_inherits_pointer_target_witness :
    getParserForType (TypeExpression.Pointer (TypeExpression.TypeInstance single_token_type)) =
      Instance.Parser.SingleToken ∧
    getParserForType (TypeExpression.TypeInstance single_token_type) =
      Instance.Parser.Expression :=
  ⟨getParserForType_inherits_pointer_target.1 single_token_type,
    getParserForType_inherits_pointer_target.2.1 _ (by intro t h; cases h)⟩

/-- Claim C18. On a valid cursor `parseSingleToken` consumes exactly one token and returns the
`Value` that holds it, typed with the intrinsic type of the kind of the token, when the head is
a `BlockLiteral`, `StringLiteral`, `NumberLiteral`, `IdentifierLiteral` or `OperatorLiteral`;
for every other head it consumes nothing and returns no node. The scope is never asked: the
result is the same for two contexts that register the same intrinsic types, whatever their
scopes bind. The parser that `parserForType` selects for `SingleToken` is this function, and
it leaves the state of the context as it is. -/
theorem parseSingleToken_wraps_one_token (context : ContextApi σ) (it : BlockLineView)
    (current : nesting.Token) (hvalid : it.peek = some current) :
    (∀ value, single_token_value context current = some value →
      parseSingleToken context it = .ok (some value, it.advance)) ∧
    (single_token_value context current = none →
      parseSingleToken context it = .ok (none, it)) ∧
    (∀ context' : ContextApi σ, context'.intrinsicType = context.intrinsicType →
      parseSingleToken context' it = parseSingleToken context it) ∧
    (∀ (fuel : Nat) (s : σ),
      parserForType context (fuel + 1) Instance.Parser.SingleToken it s =
        (parseSingleToken context it).map (fun r => (r.1, r.2, s))) := by
  refine ⟨?_, ?_, ?_, ?_⟩
  · intro value hv
    cases current <;> simp [single_token_value] at hv <;> subst hv <;>
      simp [parseSingleToken, hvalid, makeTokenValue]
  · intro hv
    cases current <;> simp [single_token_value] at hv <;> simp [parseSingleToken, hvalid]
  · intro context' hc
    cases current <;> simp [parseSingleToken, hvalid, makeTokenValue, hc]
  · intro fuel s
    rw [parserForType]
    cases parseSingleToken context it with
    | error e => rfl
    | ok r => rfl

theorem parseSingleToken_wraps_one_token_witness :
    parseSingleToken (scope_context call_scope) ⟨line_g_1, 0⟩ =
      .ok (some (Node.Value (ValueData.IdentifierLiteral "g")
        (TypeExpression.TypeInstance (scope_context_type IntrinsicKind.IdentifierLiteral))),
        ⟨line_g_1, 1⟩) :=
  (parseSingleToken_wraps_one_token (scope_context call_scope) ⟨line_g_1, 0⟩
    (nesting.Token.IdentifierLiteral "g") rfl).1 _ rfl

/-- Claim C20. Member access: when the current result `R` is a `ModuleReference` to a module
`m`, `lookupIdentifier` looks the name up in the locals of `m`, not in the active scope, and
clears `R`; when `R` is anything else it looks the name up in the active scope and leaves `R`
as it is. `parseStep` at an identifier or operator token goes by this lookup: behind a module
reference the entry found in the locals of `m` is processed by `parseInstance` with an empty
result, and a name the locals do not bind is wrapped as a value; behind any other `R` the entry
found in the active scope is processed with `R` as it was. -/
theorem member_access_looks_into_module (context : ContextApi σ) (s : σ) :
    (∀ (id : String) (name : Name) (locals : Scope),
      lookupIdentifier context s id (some (Node.ModuleReference name locals)) =
        (Scope.range locals id, none)) ∧
    (∀ (id : String) (result : OptNode), is_module_reference result = false →
      lookupIdentifier context s id result = (context.lookup s id, result)) ∧
    (∀ (fuel : Nat) (it : BlockLineView) (current : nesting.Token) (input : String)
        (name : Name) (locals : Scope),
      it.peek = some current → name_of_token current = some input →
      parseStep context (fuel + 1) (some (Node.ModuleReference name locals)) it s =
        if (Scope.range locals input).isEmpty then
          .ok (ParseOptions.continue_single, name_token_value context current, it.advance, s)
        else parseInstance context fuel none (Scope.range locals input) it s) ∧
    (∀ (fuel : Nat) (it : BlockLineView) (current : nesting.Token) (input : String)
        (result : OptNode),
      it.peek = some current → name_of_token current = some input →
      is_module_reference result = false →
      parseStep context (fuel + 1) result it s =
        if (context.lookup s input).isEmpty then
          if result.isSome then .ok (ParseOptions.finish_single, result, it, s)
          else
            .ok (ParseOptions.continue_single, name_token_value context current,
              it.advance, s)
        else parseInstance context fuel result (context.lookup s input) it s) := by
  have hmod : ∀ (id : String) (name : Name) (locals : Scope),
      lookupIdentifier context s id (some (Node.ModuleReference name locals)) =
        (Scope.range locals id, none) := fun _ _ _ => rfl
  have hother : ∀ (id : String) (result : OptNode), is_module_reference result = false →
      lookupIdentifier context s id result = (context.lookup s id, result) := by
    intro id result h
    unfold lookupIdentifier
    split
    · simp [is_module_reference] at h
    · rfl
  refine ⟨hmod, hother, ?_, ?_⟩
  · intro fuel it current input name locals hpeek hname
    have hl := hmod input name locals
    cases current <;> simp [name_of_token] at hname <;> subst hname <;>
      simp only [parseStep, hpeek, name_token_value, hl, Option.isSome_none,
        Bool.false_eq_true, if_false]
  · intro fuel it current input result hpeek hname hres
    have hl := hother input result hres
    cases current <;> simp [name_of_token] at hname <;> subst hname <;>
      simp only [parseStep, hpeek, name_token_value, hl]

theorem member_access_looks_into_module_witness :
    empty_context.lookup () "g" = [] ∧
    parseStep empty_context (14 + 1) (some sample_module) ⟨line_m_g_1, 1⟩ () =
      .ok (ParseOptions.continue_single,
        some (Node.Call unary_function [ArgumentAssignment.mk param_a [number_value "1"]]),
        ⟨line_m_g_1, 3⟩, ()) ∧
    parseInstance empty_context 14 none
        (Scope.range [("g", Entry.function unary_function)] "g") ⟨line_m_g_1, 1⟩ () =
      .ok (ParseOptions.continue_single,
        some (Node.Call unary_function [ArgumentAssignment.mk param_a [number_value "1"]]),
        ⟨line_m_g_1, 3⟩, ()) ∧
    parseStep empty_context (14 + 1) (some sample_module) ⟨line_m_g_1, 1⟩ () =
      (if (Scope.range [("g", Entry.function unary_function)] "g").isEmpty then
        .ok (ParseOptions.continue_single,
          name_token_value empty_context (nesting.Token.IdentifierLiteral "g"),
          (⟨line_m_g_1, 1⟩ : BlockLineView).advance, ())
      else parseInstance empty_context 14 none
        (Scope.range [("g", Entry.function unary_function)] "g") ⟨line_m_g_1, 1⟩ ()) :=
  ⟨rfl, rfl, rfl,
    (member_access_looks_into_module empty_context ()).2.2.1 14 ⟨line_m_g_1, 1⟩
      (nesting.Token.IdentifierLiteral "g") "g" "m" [("g", Entry.function unary_function)]
      rfl rfl⟩

/-! ## Entries of tuples, lines with errors, left matching and the single result slot -/

/-- Claim C21, the code at the failing input. The line `: 5` is parsed to a tuple of two
entries, and the first one has none of its fields set: behind the colon `parseTypeExpression`
finds no type, no `=` follows, and the entry is returned as it is. In the same way the line
`k (`, for `k` with one right parameter of the intrinsic `NameTypeValue` type, stores an entry
with no field set as the argument value of the call. -/
theorem empty_entry_is_kept :
    parse (scope_context []) 7 (one_line line_colon_5) () =
      .ok (⟨[Node.NameTypeValueTuple
        [NameTypeValue.mk none none none,
          NameTypeValue.mk none none (some (number_value "5"))]]⟩, ()) ∧
    NameTypeValue.any_set (NameTypeValue.mk none none none) = false ∧
    parseSingleTyped (scope_context []) 3 ⟨line_colon_5, 0⟩ () =
      .ok (some (NameTypeValue.mk none none none), ⟨line_colon_5, 1⟩, ()) ∧
    parse (scope_context typed_scope) 12 (one_line line_k_open) () =
      .ok (⟨[Node.Call typed_function [ArgumentAssignment.mk param_typed
        [Node.Value (ValueData.NameTypeValue (NameTypeValue.mk none none none))
          (TypeExpression.TypeInstance (scope_context_type IntrinsicKind.NameTypeValue))]]]⟩,
        ()) :=
  ⟨rfl, rfl, rfl, rfl⟩

/-- Claim C22, the claim refuted. The only line of the tainted block `tainted_block` is `42`
and has errors from grouping; `Parser::parse` parses it all the same and returns the node
`Value 42`, as it does for the same block with the flag of the line cleared. The errors of
the line are reported to the context only when the block is not tainted. -/
theorem tainted_line_is_parsed :
    tainted_block.isTainted = true ∧
    tainted_block.lines.map nesting.BlockLine.hasErrors = [true] ∧
    parse (scope_context []) 6 tainted_block () = .ok (⟨[number_value "42"]⟩, ()) ∧
    parse (scope_context []) 6
      (nesting.BlockLiteral.mk (tainted_block.lines.map clear_errors) true) () =
      .ok (⟨[number_value "42"]⟩, ()) ∧
    parse reporting_context 6 tainted_block 0 = .ok (⟨[number_value "42"]⟩, 0) ∧
    parse reporting_context 6 (nesting.BlockLiteral.mk tainted_block.lines false) 0 =
      .ok (⟨[number_value "42"]⟩, 1) :=
  ⟨rfl, rfl, rfl, rfl, rfl, rfl⟩

theorem parseLine_ignores_errors (context : ContextApi σ) (fuel : Nat) (isTainted : Bool)
    (nodes : List Node) (line : nesting.BlockLine) (s : σ) :
    parseLine context fuel isTainted nodes line s =
      parseLine context fuel true nodes (clear_errors line)
        (reported context isTainted line s) := by
  cases line with
  | mk tokens hasErrors =>
    simp [parseLine, reported, clear_errors, nesting.BlockLine.hasErrors,
      nesting.BlockLine.tokens, BlockLineView.ofLine]

theorem parseLines_tainted_ignores_errors (context : ContextApi σ) (fuel : Nat) :
    ∀ (lines : List nesting.BlockLine) (nodes : List Node) (s : σ),
      parseLines context fuel true nodes lines s =
        parseLines context fuel true nodes (lines.map clear_errors) s
  | [], nodes, s => rfl
  | line :: rest, nodes, s => by
    simp only [parseLines, List.map_cons]
    rw [parseLine_ignores_errors context fuel true nodes line s]
    have hr : reported context true line s = s := by simp [reported]
    have hc : parseLine context fuel true nodes (clear_errors (clear_errors line)) s =
        parseLine context fuel true nodes (clear_errors line) s := by
      cases line; rfl
    rw [parseLine_ignores_errors context fuel true nodes (clear_errors line) s]
    have hr' : reported context true (clear_errors line) s = s := by simp [reported]
    rw [hr, hr', hc]
    cases parseLine context fuel true nodes (clear_errors line) s with
    | error e => rfl
    | ok r => exact parseLines_tainted_ignores_errors context fuel rest r.1 r.2

/-- Claim C22 as amended. A line whose grouping produced errors is not skipped by the semantic
parser. In every block, tainted or not, a line for which `hasErrors()` holds is parsed like the
same line without errors; the one effect of `hasErrors()` is that in a block that is not
tainted the errors of the line are reported to the context before the line is parsed. So a
tainted block is parsed to the same `Block` as the block with the flags of its lines
cleared. -/
theorem parse_does_not_skip_lines_with_errors (context : ContextApi σ) (fuel : Nat) :
    (∀ (isTainted : Bool) (nodes : List Node) (line : nesting.BlockLine) (s : σ),
      parseLine context fuel isTainted nodes line s =
        parseLine context fuel true nodes (clear_errors line)
          (if !isTainted && line.hasErrors then context.reportLineErrors s line else s)) ∧
    (∀ (lines : List nesting.BlockLine) (s : σ),
      parse context fuel (nesting.BlockLiteral.mk lines true) s =
        parse context fuel (nesting.BlockLiteral.mk (lines.map clear_errors) true) s) := by
  refine ⟨fun isTainted nodes line s => parseLine_ignores_errors context fuel isTainted nodes
    line s, fun lines s => ?_⟩
  simp only [parse, nesting.BlockLiteral.isTainted, nesting.BlockLiteral.lines]
  rw [parseLines_tainted_ignores_errors context fuel lines [] s]

theorem typedHead_name (it : BlockLineView) :
    claimed_name it =
      match typedHead it with
      | TypedHead.nameType name => some name
      | TypedHead.nameValue name => some name
      | TypedHead.other => none := by
  unfold claimed_name typedHead
  cases h1 : it.peek with
  | none => rfl
  | some current =>
    cases h2 : it.advance.peek with
    | none => cases current <;> rfl
    | some next =>
      cases current <;> try rfl
      cases next <;> simp [isColon, isAssignment]
      rename_i input op
      by_cases hop : op = "=" <;> simp [hop]

theorem applyCallback_name (context : ContextApi σ) (fuel : Nat) (callback : Callback)
    (typed result : NameTypeValue) (it it' : BlockLineView) (s s' : σ)
    (h : applyCallback context fuel callback typed it s = .ok (result, it', s')) :
    result.name = typed.name ∧ result.type = typed.type := by
  cases fuel with
  | zero => simp [applyCallback] at h
  | succ n =>
    cases callback with
    | parseValueInto =>
      simp only [applyCallback] at h
      split at h
      · simp at h
      · simp at h; rw [← h.1]; exact ⟨rfl, rfl⟩
    | parseValueArgument function posParam =>
      simp only [applyCallback] at h
      split at h
      · simp at h
      · simp at h; rw [← h.1]; exact ⟨rfl, rfl⟩

theorem parseTypeAssign_name (context : ContextApi σ) (fuel : Nat) (callback : Callback)
    (name : Option Name) (result : NameTypeValue) (it it' : BlockLineView) (s s' : σ)
    (h : parseTypeAssign context fuel callback name it s = .ok (some result, it', s')) :
    result.name = name := by
  cases fuel with
  | zero => simp [parseTypeAssign] at h
  | succ n =>
    rw [parseTypeAssign] at h
    split at h
    · simp at h
    · split at h
      · simp at h; rw [← h.1]; rfl
      · split at h
        · split at h
          · simp at h
          · rename_i r it₂ s₂ hcb
            simp at h
            rw [← h.1]
            exact (applyCallback_name context n callback _ _ _ _ _ _ hcb).1
        · simp at h; rw [← h.1]; rfl

/-- Claim C27. On a valid cursor, the entry `parseSingleTyped` returns has a name exactly when
the head token is an `IdentifierLiteral` immediately followed by a `ColonSeparator` or by the
operator `=`, and then the name is the text of the identifier. For `name = value` the entry is
the name, no type, and the single-expression parsed behind the `=`; for `name : type` the type
is read behind the colon and, when an `=` follows it, the value is the single-expression parsed
behind that `=`. Nothing else is done with the identifier: it is not looked up. -/
theorem parseSingleTyped_names_entry (context : ContextApi σ) (fuel : Nat) (it : BlockLineView)
    (s : σ) (hvalid : it.valid = true) :
    (∀ typed it' s', parseSingleTyped context fuel it s = .ok (some typed, it', s') →
      typed.name = claimed_name it) ∧
    (∀ name, it.peek = some (nesting.Token.IdentifierLiteral name) →
      it.advance.peek = some (nesting.Token.OperatorLiteral "=") →
      parseSingleTyped context (fuel + 2) it s =
        (parseSingle context fuel none it.advance.advance s).map
          (fun r => (some (NameTypeValue.mk (some name) none r.1), r.2.1, r.2.2))) ∧
    (∀ name type it₁ current, it.peek = some (nesting.Token.IdentifierLiteral name) →
      it.advance.peek = some nesting.Token.ColonSeparator →
      parseTypeExpression context s it.advance.advance = .ok (type, it₁) →
      it₁.peek = some current → isAssignment current = true →
      parseSingleTyped context (fuel + 3) it s =
        (parseSingle context fuel none it₁.advance s).map
          (fun r => (some (NameTypeValue.mk (some name) type r.1), r.2.1, r.2.2))) ∧
    (∀ name type it₁, it.peek = some (nesting.Token.IdentifierLiteral name) →
      it.advance.peek = some nesting.Token.ColonSeparator →
      parseTypeExpression context s it.advance.advance = .ok (type, it₁) →
      (∀ current, it₁.peek = some current → isAssignment current = false) →
      parseSingleTyped context (fuel + 2) it s =
        .ok (some (NameTypeValue.mk (some name) type none), it₁, s)) := by
  refine ⟨?_, ?_, ?_, ?_⟩
  · intro typed it' s' h
    rw [typedHead_name]
    unfold parseSingleTyped at h
    cases fuel with
    | zero => simp [parseSingleTypedCallback] at h
    | succ n =>
      rw [parseSingleTypedCallback] at h
      simp only [hvalid, Bool.not_true, Bool.false_eq_true, if_false] at h
      split at h
      · rename_i name hh
        try simp only [hh]
        exact parseTypeAssign_name context n _ _ _ _ _ _ _ h
      · rename_i name hh
        try simp only [hh]
        split at h
        · simp at h
        · rename_i r it₂ s₂ hcb
          simp at h
          rw [← h.1]
          exact (applyCallback_name context n _ _ _ _ _ _ _ hcb).1
      · rename_i hh
        try simp only [hh]
        split at h
        · have := parseTypeAssign_name context n _ _ _ _ _ _ _ h
          exact this
        · split at h
          · simp at h
          · rename_i r it₂ s₂ hcb
            split at h
            · simp at h
            · simp at h
              rw [← h.1]
              exact (applyCallback_name context n _ _ _ _ _ _ _ hcb).1
  · intro name h1 h2
    have hh : typedHead it = TypedHead.nameValue name := by
      simp [typedHead, h1, h2, isColon, isAssignment]
    unfold parseSingleTyped
    rw [parseSingleTypedCallback]
    simp only [hvalid, Bool.not_true, Bool.false_eq_true, if_false, hh]
    simp only [applyCallback]
    cases parseSingle context fuel none it.advance.advance s with
    | error e => rfl
    | ok r => rfl
  · intro name type it₁ current h1 h2 htype hpeek hassign
    have hh : typedHead it = TypedHead.nameType name := by
      simp [typedHead, h1, h2, isColon]
    unfold parseSingleTyped
    rw [parseSingleTypedCallback]
    simp only [hvalid, Bool.not_true, Bool.false_eq_true, if_false, hh]
    rw [parseTypeAssign]
    simp only [htype, hpeek, hassign, if_true]
    simp only [applyCallback]
    cases parseSingle context fuel none it₁.advance s with
    | error e => rfl
    | ok r => rfl
  · intro name type it₁ h1 h2 htype hno
    have hh : typedHead it = TypedHead.nameType name := by
      simp [typedHead, h1, h2, isColon]
    unfold parseSingleTyped
    rw [parseSingleTypedCallback]
    simp only [hvalid, Bool.not_true, Bool.false_eq_true, if_false, hh]
    rw [parseTypeAssign]
    simp only [htype]
    cases hp : it₁.peek with
    | none => rfl
    | some current => simp [hno current hp]

theorem parseSingleTyped_names_entry_witness :
    parseSingleTyped (scope_context variable_scope) (2 + 2) ⟨line_x_5, 0⟩ () =
      (parseSingle (scope_context variable_scope) 2 none
        (⟨line_x_5, 0⟩ : BlockLineView).advance.advance ()).map
        (fun r => (some (NameTypeValue.mk (some "x") none r.1), r.2.1, r.2.2)) ∧
    (scope_context variable_scope).lookup () "x" =
      [Entry.variable ⟨"x", TypeExpression.Auto⟩] ∧
    parseSingleTyped (scope_context variable_scope) (2 + 2) ⟨line_x_5, 0⟩ () =
      .ok (some (NameTypeValue.mk (some "x") none (some (number_value "5"))),
        ⟨line_x_5, 3⟩, ()) :=
  ⟨(parseSingleTyped_names_entry (scope_context variable_scope) 2 ⟨line_x_5, 0⟩ () rfl).2.1
    "x" rfl rfl, rfl, rfl⟩

theorem lookupIdentifier_of_no_module (context : ContextApi σ) (s : σ) (id : String)
    (result : OptNode) (h : is_module_reference result = false) :
    lookupIdentifier context s id result = (context.lookup s id, result) := by
  unfold lookupIdentifier
  split
  · simp [is_module_reference] at h
  · rfl

theorem parseInstance_of_no_function (context : ContextApi σ) (fuel : Nat) (node : Node)
    (front : Entry) (range : List Entry) (it : BlockLineView) (s : σ)
    (h : Entry.is_no_function front = true) :
    parseInstance context (fuel + 1) (some node) (front :: range) it s =
      .ok (ParseOptions.finish_single, some node, it, s) := by
  cases front <;> simp [Entry.is_no_function] at h <;> simp [parseInstance]

/-- Claim C29. The result slot of `parseSingle` is single: when the current result `R` is not
empty and no `ModuleReference`, and the head token is a `StringLiteral`, `NumberLiteral`,
`BlockLiteral` or `BracketOpen`, or an identifier or operator that the active scope does not
bind or binds (first) to a `Variable`, `Parameter`, `Type` or `Module`, then `parseStep`
returns `finish_single` and leaves the cursor, `R` and the state of the context as they
are. -/
theorem parseStep_keeps_single_result (context : ContextApi σ) (fuel : Nat) (node : Node)
    (it : BlockLineView) (s : σ) (current : nesting.Token)
    (hresult : is_module_reference (some node) = false)
    (hpeek : it.peek = some current)
    (hhead : starts_next_expression context s current = true) :
    parseStep context (fuel + 2) (some node) it s =
      .ok (ParseOptions.finish_single, some node, it, s) := by
  have hl := fun id => lookupIdentifier_of_no_module context s id (some node) hresult
  cases current <;> simp [starts_next_expression] at hhead <;>
    simp only [parseStep, hpeek, hl, Option.isSome_some, if_true]
  · rename_i input
    cases hr : context.lookup s input with
    | nil => simp
    | cons front range =>
      rw [hr] at hhead
      simp [parseInstance_of_no_function context fuel node front range it s hhead]
  · rename_i input
    cases hr : context.lookup s input with
    | nil => simp
    | cons front range =>
      rw [hr] at hhead
      simp [parseInstance_of_no_function context fuel node front range it s hhead]

theorem parseStep_keeps_single_result_witness :
    parseStep (scope_context []) (0 + 2) (some (number_value "1")) ⟨line_1_2, 1⟩ () =
      .ok (ParseOptions.finish_single, some (number_value "1"), ⟨line_1_2, 1⟩, ()) :=
  parseStep_keeps_single_result (scope_context []) 0 (number_value "1") ⟨line_1_2, 1⟩ ()
    (nesting.Token.NumberLiteral "2") rfl rfl rfl

/-- The line `1 2` read from its first token: `parseSingle` returns the value `1` and leaves
the cursor at `2`. -/
theorem parseSingle_stops_at_second_value :
    parseSingle (scope_context []) 3 none ⟨line_1_2, 0⟩ () =
      .ok (some (number_value "1"), ⟨line_1_2, 1⟩, ()) := rfl

/-- The loop of `Overload::retireLeft` with the counters at `o` and `t` leaves the candidate as
it is when every remaining field carries a value, every remaining named field names a left
parameter, and the fields counted so far and the remaining ones are as many as the left
parameters; in every other case it clears `active` and changes nothing else. -/
theorem retireLeftLoop_eq (ov : Overload) (la : List Parameter)
    (hla : ∀ p ∈ la, p.side = ParameterSide.left) :
    ∀ (rest : List NameTypeValue) (o t : Nat),
      Overload.retireLeftLoop ov la rest o t =
        if rest.all (fun typed => typed.value.isSome) &&
            rest.all (fun typed => typed.name.isNone || names_left_parameter ov.function typed)
            && decide (o + t + rest.length = la.length)
        then ov else { ov with active := false }
  | [], o, t => by
    simp [Overload.retireLeftLoop]
  | typed :: rest, o, t => by
    cases typed with
    | mk name type value =>
      cases value with
      | none => simp [Overload.retireLeftLoop, NameTypeValue.value]
      | some value =>
        cases name with
        | some name =>
          cases hl : ov.function.lookupParameter name with
          | none =>
            simp [Overload.retireLeftLoop, NameTypeValue.value, NameTypeValue.name, hl,
              names_left_parameter]
          | some param =>
            by_cases hs : param.side = ParameterSide.left
            · simp only [Overload.retireLeftLoop, NameTypeValue.value, NameTypeValue.name, hl,
                hs, canImplicitConvertToType, beq_self_eq_true, Bool.and_self, if_true]
              rw [retireLeftLoop_eq ov la hla rest o (t + 1)]
              have : (o + (t + 1) + rest.length = la.length) ↔
                  (o + t + (rest.length + 1) = la.length) := by omega
              simp [names_left_parameter, NameTypeValue.value, NameTypeValue.name, hl, hs,
                this]
            · simp [Overload.retireLeftLoop, NameTypeValue.value, NameTypeValue.name, hl, hs,
                names_left_parameter]
        | none =>
          cases hg : la.get? o with
          | none =>
            have hle : la.length ≤ o := List.get?_eq_none.1 hg
            have : ¬ (o + t + (rest.length + 1) = la.length) := by omega
            simp only [Overload.retireLeftLoop, NameTypeValue.value, NameTypeValue.name, hg]
            simp [this]
          | some param =>
            have hs : param.side = ParameterSide.left := hla param (List.get?_mem hg)
            simp only [Overload.retireLeftLoop, NameTypeValue.value, NameTypeValue.name, hg,
              hs, canImplicitConvertToType, beq_self_eq_true, Bool.and_self, if_true]
            rw [retireLeftLoop_eq ov la hla rest (o + 1) t]
            have : (o + 1 + t + rest.length = la.length) ↔
                (o + t + (rest.length + 1) = la.length) := by omega
            simp [NameTypeValue.value, NameTypeValue.name, this]

theorem leftParameters_side (f : Function) : ∀ p ∈ f.leftParameters, p.side = ParameterSide.left := by
  intro p hp
  simp [Function.leftParameters] at hp
  exact hp.2

theorem countP_split (left : List NameTypeValue) (f : Function)
    (hv : left.all (fun typed => typed.value.isSome) = true)
    (hn : left.all (fun typed => typed.name.isNone || names_left_parameter f typed) = true) :
    left.countP (names_left_parameter f) + left.countP is_positional = left.length := by
  induction left with
  | nil => rfl
  | cons typed rest ih =>
    simp only [List.all_cons, Bool.and_eq_true] at hv hn
    have ih' := ih hv.2 hn.2
    cases typed with
    | mk name type value =>
      cases value with
      | none => simp [NameTypeValue.value] at hv
      | some value =>
        cases name with
        | none =>
          simp [List.countP_cons, names_left_parameter, is_positional, NameTypeValue.value,
            NameTypeValue.name]
          omega
        | some name =>
          have h1 := hn.1
          simp [NameTypeValue.name] at h1
          simp [List.countP_cons, h1, is_positional, NameTypeValue.value, NameTypeValue.name]
          omega

/-- The amended rule in closed form: no field is retired exactly when every field of the left
tuple carries a value, every named field names a left parameter, and the fields are as many as
the left parameters. -/
theorem retired_eq (f : Function) (left : List NameTypeValue) :
    retired f left =
      !(left.all (fun typed => typed.value.isSome) &&
        left.all (fun typed => typed.name.isNone || names_left_parameter f typed) &&
        decide (0 + 0 + left.length = f.leftParameters.length)) := by
  by_cases hv : left.all (fun typed => typed.value.isSome) = true
  · by_cases hn : left.all
        (fun typed => typed.name.isNone || names_left_parameter f typed) = true
    · have hsplit := countP_split left f hv hn
      have hany1 : left.any (fun typed => typed.value.isNone) = false := by
        rw [List.any_eq_false]
        intro typed hmem
        have := List.all_eq_true.1 hv typed hmem
        cases hval : typed.value <;> simp_all
      have hany2 : left.any (names_no_left_parameter f) = false := by
        rw [List.any_eq_false]
        intro typed hmem
        have h1 := List.all_eq_true.1 hn typed hmem
        have h2 := List.all_eq_true.1 hv typed hmem
        simp only [names_no_left_parameter]
        cases hname : typed.name <;> simp_all
      simp only [retired, claimed_retired, matched_fields, hany1, hany2, hv, hn,
        Bool.false_or, Bool.true_and, Nat.zero_add]
      by_cases hlen : left.length = f.leftParameters.length
      · have hle : left.countP is_positional ≤ f.leftParameters.length := by omega
        simp [hlen, Nat.min_eq_left hle, Nat.not_lt.2 hle]
        omega
      · simp only [hlen, decide_False, Bool.not_false]
        by_cases hle : left.countP is_positional ≤ f.leftParameters.length
        · have : ¬ (left.countP (names_left_parameter f) +
              min (left.countP is_positional) f.leftParameters.length =
              f.leftParameters.length) := by
            rw [Nat.min_eq_left hle]; omega
          simp [this]
        · simp [Nat.lt_of_not_le hle]
    · have hany2 : left.any (names_no_left_parameter f) = true := by
        have hn' : ¬ ∀ typed ∈ left,
            (typed.name.isNone || names_left_parameter f typed) = true := by
          intro hall; exact hn (List.all_eq_true.2 hall)
        simp only [not_forall] at hn'
        obtain ⟨typed, hmem, hbad⟩ := hn'
        rw [List.any_eq_true]
        refine ⟨typed, hmem, ?_⟩
        have h2 := List.all_eq_true.1 hv typed hmem
        simp only [names_no_left_parameter]
        cases hname : typed.name <;> simp_all
      simp [retired, claimed_retired, hany2, hn]
  · have hany1 : left.any (fun typed => typed.value.isNone) = true := by
      have hv' : ¬ ∀ typed ∈ left, typed.value.isSome = true := by
        intro hall; exact hv (List.all_eq_true.2 hall)
      simp only [not_forall] at hv'
      obtain ⟨typed, hmem, hbad⟩ := hv'
      rw [List.any_eq_true]
      refine ⟨typed, hmem, ?_⟩
      cases hval : typed.value <;> simp_all
    simp [retired, hany1, hv]

/-- Claim C28, the claim refuted. The left tuple `(x :)` has one field, which carries no value,
and `g` has no left parameter: by the rule of the claim nothing speaks against the candidate
(no field with a value is named or unnamed, no field is matched, there is no left parameter),
yet `retireLeft` marks the active candidate inactive: a field without a value ends the scan
like a field that does not match. So `parseCall` builds no call for the line `y = ( x : ) g 1`,
while it builds `g(a = 1)` for `y = ( ) g 1`. -/
theorem valueless_field_retires_candidate :
    claimed_retired unary_function valueless_left = false ∧
    (Overload.ofFunction unary_function).active = true ∧
    ((Overload.ofFunction unary_function).retireLeft valueless_left).active = false ∧
    parseCall (scope_context call_scope) 1 (some (Node.NameTypeValueTuple valueless_left))
        unary_function ⟨line_valueless_g_1, 7⟩ () =
      .ok (ParseOptions.finish_single, some (Node.NameTypeValueTuple valueless_left),
        ⟨line_valueless_g_1, 7⟩, ()) ∧
    parse (scope_context call_scope) 10 (one_line line_valueless_g_1) () =
      .ok (⟨[Node.NameTypeValueTuple
        [NameTypeValue.mk (some "y") none (some (Node.NameTypeValueTuple valueless_left)),
          NameTypeValue.mk none none (some (number_value "1"))]]⟩, ()) ∧
    parse (scope_context call_scope) 17 (one_line line_unit_g_1) () =
      .ok (⟨[Node.NameTypeValueTuple
        [NameTypeValue.mk (some "y") none
          (some (Node.Call unary_function
            [ArgumentAssignment.mk param_a [number_value "1"]]))]]⟩, ()) :=
  ⟨rfl, rfl, rfl, rfl, rfl, rfl⟩

/-- Claim C28 as amended. Phase 1 (`Overload::retireLeft`) marks a candidate inactive exactly
when a field of the left tuple carries no value or, for the fields that carry a value, (a) a
named field names no parameter of the function or names one whose side is not left, or (b)
there are more unnamed fields than left parameters, or (c) the number of matched fields (named
plus positional) differs from the number of left parameters; it changes nothing else of the
candidate, and in every other case it leaves the candidate as it is. An absent left
expression, which is scanned as the empty tuple, matches exactly the functions with no left
parameter. -/
theorem retireLeft_marks_exactly_retired (ov : Overload) (left : List NameTypeValue) :
    (retired ov.function left = true → ov.retireLeft left = { ov with active := false }) ∧
    (retired ov.function left = false → ov.retireLeft left = ov) ∧
    (retired ov.function left =
      (left.any (fun typed => typed.value.isNone) || claimed_retired ov.function left)) ∧
    (leftView none = [] ∧
      (retired ov.function [] = false ↔ ov.function.leftParameters = [])) := by
  have hloop := retireLeftLoop_eq ov ov.function.leftParameters
    (leftParameters_side ov.function) left 0 0
  have hr := retired_eq ov.function left
  refine ⟨fun h => ?_, fun h => ?_, rfl, rfl, ?_⟩
  · unfold Overload.retireLeft
    rw [hloop]
    rw [h] at hr
    generalize (left.all (fun typed => typed.value.isSome) &&
        left.all (fun typed => typed.name.isNone ||
          names_left_parameter ov.function typed) &&
        decide (0 + 0 + left.length = ov.function.leftParameters.length)) = b at hr ⊢
    clear hloop
    cases b
    · rfl
    · exact absurd hr (by decide)
  · unfold Overload.retireLeft
    rw [hloop]
    rw [h] at hr
    generalize (left.all (fun typed => typed.value.isSome) &&
        left.all (fun typed => typed.name.isNone ||
          names_left_parameter ov.function typed) &&
        decide (0 + 0 + left.length = ov.function.leftParameters.length)) = b at hr ⊢
    clear hloop
    cases b
    · exact absurd hr (by decide)
    · rfl
  · rw [retired_eq]
    simp
    constructor
    · intro h; exact List.length_eq_zero.1 h.symm
    · intro h; rw [h]; rfl

theorem retireLeft_marks_exactly_retired_witness :
    (Overload.ofFunction unary_function).retireLeft valueless_left =
      { Overload.ofFunction unary_function with active := false } ∧
    (Overload.ofFunction infix_function).retireLeft
        [NameTypeValue.mk none none (some (number_value "1"))] =
      Overload.ofFunction infix_function :=
  ⟨(retireLeft_marks_exactly_retired (Overload.ofFunction unary_function) valueless_left).1 rfl,
    (retireLeft_marks_exactly_retired (Overload.ofFunction infix_function)
      [NameTypeValue.mk none none (some (number_value "1"))]).2.1 rfl⟩

/-! ## Loops without progress, exhausted cursors and bound parameters -/

theorem valid_of_peek (it : BlockLineView) (t : nesting.Token) (h : it.peek = some t) :
    it.valid = true := by
  unfold BlockLineView.peek at h
  unfold BlockLineView.valid
  have := List.get?_eq_some.1 h
  obtain ⟨hlt, _⟩ := this
  simpa using hlt

/-- At a comment or white space `parseSingleTyped` reads nothing: up to running out of fuel it
returns no entry and leaves the cursor where it is. -/
theorem parseSingleTyped_at_unnamed_kind (context : ContextApi σ) (it : BlockLineView) (s : σ)
    (current : nesting.Token) (hpeek : it.peek = some current)
    (hkind : is_unnamed_kind current = true) (fuel : Nat) :
    parseSingleTypedCallback context fuel Callback.parseValueInto it s = .error Fault.fuel ∨
    parseSingleTypedCallback context fuel Callback.parseValueInto it s = .ok (none, it, s) := by
  have hvalid := valid_of_peek it current hpeek
  have hhead : typedHead it = TypedHead.other := by
    unfold typedHead
    cases current <;> simp [is_unnamed_kind] at hkind <;> simp [hpeek]
  cases fuel with
  | zero => left; simp [parseSingleTypedCallback]
  | succ n =>
    cases n with
    | zero =>
      left
      cases current <;> simp [is_unnamed_kind] at hkind <;>
        simp [parseSingleTypedCallback, hvalid, hhead, hpeek, applyCallback]
    | succ k =>
      cases k with
      | zero =>
        left
        cases current <;> simp [is_unnamed_kind] at hkind <;>
          simp [parseSingleTypedCallback, hvalid, hhead, hpeek, applyCallback, parseSingle]
      | succ j =>
        cases j with
        | zero =>
          left
          cases current <;> simp [is_unnamed_kind] at hkind <;>
            simp [parseSingleTypedCallback, hvalid, hhead, hpeek, applyCallback, parseSingle,
              parseStep]
        | succ i =>
          right
          cases current <;> simp [is_unnamed_kind] at hkind <;>
            simp [parseSingleTypedCallback, hvalid, hhead, hpeek, applyCallback, parseSingle,
              parseStep, NameTypeValue.empty, NameTypeValue.value, NameTypeValue.name,
              NameTypeValue.type]

/-- With the cursor on a comment or on white space the loop of `parseTupleInto` never ends:
whatever the fuel, it runs out. -/
theorem parseTupleInto_loops_at_unnamed_kind (context : ContextApi σ) (it : BlockLineView)
    (s : σ) (current : nesting.Token) (hpeek : it.peek = some current)
    (hkind : is_unnamed_kind current = true) :
    ∀ (fuel : Nat) (tuple : List NameTypeValue),
      parseTupleInto context fuel tuple it s = .error Fault.fuel := by
  have hvalid := valid_of_peek it current hpeek
  have hcomma : parseOptionalComma it = (ParseOptions.continue_single, it) := by
    unfold parseOptionalComma
    cases current <;> simp [is_unnamed_kind] at hkind <;> simp [hpeek]
  intro fuel
  induction fuel with
  | zero => intro tuple; simp [parseTupleInto]
  | succ n ih =>
    intro tuple
    rw [parseTupleInto]
    simp only [hvalid, Bool.not_true, Bool.false_eq_true, if_false]
    rcases parseSingleTyped_at_unnamed_kind context it s current hpeek hkind n with h | h
    · rw [h]
    · rw [h]
      simp only [hcomma]
      simp [ih tuple]

theorem parse_loops_at_unnamed_kind (context : ContextApi σ) (s : σ) (current : nesting.Token)
    (rest : List nesting.Token) (hkind : is_unnamed_kind current = true) (fuel : Nat) :
    parse context fuel (one_line (current :: rest)) s = .error Fault.fuel := by
  have hpeek : (BlockLineView.ofLine (nesting.BlockLine.mk (current :: rest) false)).peek =
      some current := rfl
  have hloop := parseTupleInto_loops_at_unnamed_kind context _ s current hpeek hkind
  have htuple : parseTuple context fuel
      (BlockLineView.ofLine (nesting.BlockLine.mk (current :: rest) false)) s =
      .error Fault.fuel := by
    cases fuel with
    | zero => simp [parseTuple]
    | succ n =>
      rw [parseTuple]
      simp only [hpeek]
      cases current <;> simp [is_unnamed_kind] at hkind <;> simp [hloop n []]
  simp [parse, one_line, nesting.BlockLiteral.isTainted, nesting.BlockLiteral.lines,
    parseLines, parseLine, nesting.BlockLine.hasErrors, BlockLineView.valid,
    BlockLineView.ofLine, nesting.BlockLine.tokens] 
  simp [BlockLineView.ofLine, nesting.BlockLine.tokens] at htuple
  rw [htuple]

/-- One round of the candidate loop for `stuck_candidate`: the `SingleToken` parser reads
nothing at the bracket, no argument is stored, `parseOptionalComma` asks for more, and the
candidate is left exactly as it was, still active. -/
theorem stuck_round (context : ContextApi σ) (s : σ) (fuel : Nat) :
    parseArgumentsFor context fuel [] [stuck_candidate] s = .error Fault.fuel ∨
    parseArgumentsFor context fuel [] [stuck_candidate] s = .ok ([stuck_candidate], s) := by
  have hparam : stuck_candidate.param = .ok single_token_param := rfl
  have hvalid : stuck_candidate.it.valid = true := rfl
  have hhead : typedHead stuck_candidate.it = TypedHead.other := rfl
  have hpeek : stuck_candidate.it.peek = some nesting.Token.BracketOpen := rfl
  have hkind : getParserForType single_token_param.type = Instance.Parser.SingleToken := rfl
  have htoken : parseSingleToken context stuck_candidate.it = .ok (none, stuck_candidate.it) :=
    rfl
  have hfinish : finishArgument stuck_candidate = stuck_candidate := rfl
  have hfun : stuck_candidate.function = single_token_function := rfl
  rcases fuel with _ | _ | _ | _ | _ | n
  · left; simp [parseArgumentsFor]
  · left; simp [parseArgumentsFor, hparam, parseSingleTypedCallback]
  · left
    simp [parseArgumentsFor, hparam, parseSingleTypedCallback, hvalid, hhead, hpeek,
      applyCallback]
  · left
    simp [parseArgumentsFor, hparam, parseSingleTypedCallback, hvalid, hhead, hpeek,
      applyCallback, hfun, NameTypeValue.empty, NameTypeValue.name, NameTypeValue.type,
      hkind, parserForType]
  · right
    simp [parseArgumentsFor, hparam, parseSingleTypedCallback, hvalid, hhead, hpeek,
      applyCallback, hfun, NameTypeValue.empty, NameTypeValue.name, NameTypeValue.type,
      hkind, parserForType, htoken, NameTypeValue.value]
    exact hfinish
  · right
    simp [parseArgumentsFor, hparam, parseSingleTypedCallback, hvalid, hhead, hpeek,
      applyCallback, hfun, NameTypeValue.empty, NameTypeValue.name, NameTypeValue.type,
      hkind, parserForType, htoken, NameTypeValue.value]
    exact hfinish

/-- The loop `while (!os.active().empty())` of `parseArgumentsWithout` never ends for
`stuck_candidate`: whatever the fuel, it runs out. -/
theorem parseArgumentsWithout_loops (context : ContextApi σ) (s : σ) :
    ∀ fuel : Nat, parseArgumentsWithout context fuel ⟨[stuck_candidate], 1⟩ s =
      .error Fault.fuel := by
  intro fuel
  induction fuel with
  | zero => simp [parseArgumentsWithout]
  | succ n ih =>
    rw [parseArgumentsWithout]
    have hactive : (OverloadSet.mk [stuck_candidate] 1).active = [stuck_candidate] := rfl
    simp only [hactive, List.isEmpty_cons, Bool.false_eq_true, if_false]
    rcases stuck_round context s n with h | h
    · rw [h]
    · rw [h]
      have hupdate : OverloadSet.update
          { OverloadSet.mk [stuck_candidate] 1 with
            vec := [stuck_candidate] ++
              (OverloadSet.mk [stuck_candidate] 1).vec.drop
                (OverloadSet.mk [stuck_candidate] 1).activeCount } =
          ⟨[stuck_candidate], 1⟩ := rfl
      simp only [hupdate]
      exact ih

theorem parse_loops_at_bracket (fuel : Nat) :
    parse (scope_context single_token_scope) fuel (one_line line_s_open_open) () =
      .error Fault.fuel := by
  have hset : ((OverloadSet.ofFunction single_token_function).retireLeft none).setupIt
      ⟨line_s_open_open, 2⟩ = ⟨[stuck_candidate], 1⟩ := rfl
  have hargs : ∀ n, parseArguments (scope_context single_token_scope) n
      ((OverloadSet.ofFunction single_token_function).retireLeft none)
      ⟨line_s_open_open, 1⟩ () = .error Fault.fuel := by
    intro n
    cases n with
    | zero => simp [parseArguments]
    | succ k =>
      rw [parseArguments]
      have hpeek : (⟨line_s_open_open, 1⟩ : BlockLineView).peek =
          some nesting.Token.BracketOpen := rfl
      simp only [hpeek, if_true]
      have hadv : (⟨line_s_open_open, 1⟩ : BlockLineView).advance = ⟨line_s_open_open, 2⟩ :=
        rfl
      rw [hadv, hset, parseArgumentsWithout_loops]
  have hcall : ∀ n, parseCall (scope_context single_token_scope) n none
      single_token_function ⟨line_s_open_open, 1⟩ () = .error Fault.fuel := by
    intro n
    cases n with
    | zero => simp [parseCall]
    | succ k =>
      rw [parseCall]
      have hcond : (!((OverloadSet.ofFunction single_token_function).retireLeft
          none).active.isEmpty && (⟨line_s_open_open, 1⟩ : BlockLineView).valid) = true := rfl
      simp only [hcond, if_true, hargs k]
  have hinst : ∀ n, parseInstance (scope_context single_token_scope) n none
      [Entry.function single_token_function] ⟨line_s_open_open, 0⟩ () =
      .error Fault.fuel := by
    intro n
    cases n with
    | zero => simp [parseInstance]
    | succ k =>
      rw [parseInstance]
      exact hcall k
  have hstep : ∀ n, parseStep (scope_context single_token_scope) n none
      ⟨line_s_open_open, 0⟩ () = .error Fault.fuel := by
    intro n
    cases n with
    | zero => simp [parseStep]
    | succ k =>
      rw [parseStep]
      have hpeek : (⟨line_s_open_open, 0⟩ : BlockLineView).peek =
          some (nesting.Token.IdentifierLiteral "s") := rfl
      have hl : lookupIdentifier (scope_context single_token_scope) () "s" none =
          ([Entry.function single_token_function], none) := rfl
      simp only [hpeek, hl, List.isEmpty_cons, Bool.false_eq_true, if_false]
      exact hinst k
  have hsingle : ∀ n, parseSingle (scope_context single_token_scope) n none
      ⟨line_s_open_open, 0⟩ () = .error Fault.fuel := by
    intro n
    cases n with
    | zero => simp [parseSingle]
    | succ k =>
      rw [parseSingle]
      have hvalid : (⟨line_s_open_open, 0⟩ : BlockLineView).valid = true := rfl
      simp only [hvalid, Bool.not_true, Bool.false_eq_true, if_false, hstep k]
  have htyped : ∀ n, parseSingleTypedCallback (scope_context single_token_scope) n
      Callback.parseValueInto ⟨line_s_open_open, 0⟩ () = .error Fault.fuel := by
    intro n
    cases n with
    | zero => simp [parseSingleTypedCallback]
    | succ k =>
      rw [parseSingleTypedCallback]
      have hvalid : (⟨line_s_open_open, 0⟩ : BlockLineView).valid = true := rfl
      have hhead : typedHead ⟨line_s_open_open, 0⟩ = TypedHead.other := rfl
      have hpeek : (⟨line_s_open_open, 0⟩ : BlockLineView).peek =
          some (nesting.Token.IdentifierLiteral "s") := rfl
      simp only [hvalid, Bool.not_true, Bool.false_eq_true, if_false, hhead, hpeek]
      cases k with
      | zero => simp [applyCallback]
      | succ j => simp [applyCallback, hsingle j]
  have hinto : ∀ n, parseTupleInto (scope_context single_token_scope) n []
      ⟨line_s_open_open, 0⟩ () = .error Fault.fuel := by
    intro n
    cases n with
    | zero => simp [parseTupleInto]
    | succ k =>
      rw [parseTupleInto]
      have hvalid : (⟨line_s_open_open, 0⟩ : BlockLineView).valid = true := rfl
      simp only [hvalid, Bool.not_true, Bool.false_eq_true, if_false, htyped k]
  have htuple : parseTuple (scope_context single_token_scope) fuel
      ⟨line_s_open_open, 0⟩ () = .error Fault.fuel := by
    cases fuel with
    | zero => simp [parseTuple]
    | succ k =>
      rw [parseTuple]
      have hpeek : (⟨line_s_open_open, 0⟩ : BlockLineView).peek =
          some (nesting.Token.IdentifierLiteral "s") := rfl
      simp only [hpeek, Bool.false_eq_true, if_false, hinto k]
  have hline : parseLine (scope_context single_token_scope) fuel false []
      (nesting.BlockLine.mk line_s_open_open false) () = .error Fault.fuel := by
    unfold parseLine
    have hvalid : (⟨line_s_open_open, 0⟩ : BlockLineView).valid = true := rfl
    have hof : BlockLineView.ofLine (nesting.BlockLine.mk line_s_open_open false) =
        ⟨line_s_open_open, 0⟩ := rfl
    simp only [nesting.BlockLine.hasErrors, Bool.and_false, Bool.false_eq_true, if_false,
      hof, hvalid, if_true, htuple]
  simp [parse, one_line, nesting.BlockLiteral.isTainted, nesting.BlockLiteral.lines,
    parseLines, hline]

/-- Claim C34, the code at the failing input. On the line that holds one comment token
`Parser::parse` never returns: a round of the loop of `parseTupleInto` reads no entry and
leaves the cursor where it was (`parseStep` answers `finish_single` from its catch-all case
without advancing) and `parseOptionalComma` asks for another round, so the model runs out of
every amount of fuel. The same holds for the line `s ( (`, for `s` whose parameter is read by
the `SingleToken` parser: a round of the loop of `parseArgumentsWithout` leaves the only
candidate as it was, active and with its cursor on the second bracket. -/
theorem parse_loops_without_progress :
    (∀ fuel, parse (scope_context []) fuel (one_line line_comment) () = .error Fault.fuel) ∧
    (∀ fuel tuple, parseTupleInto (scope_context []) fuel tuple ⟨line_comment, 0⟩ () =
      .error Fault.fuel) ∧
    (∀ fuel, parseSingleTypedCallback (scope_context []) (fuel + 4) Callback.parseValueInto
      ⟨line_comment, 0⟩ () = .ok (none, ⟨line_comment, 0⟩, ())) ∧
    parseOptionalComma ⟨line_comment, 0⟩ = (ParseOptions.continue_single, ⟨line_comment, 0⟩) ∧
    (∀ fuel, parse (scope_context single_token_scope) fuel (one_line line_s_open_open) () =
      .error Fault.fuel) ∧
    (∀ fuel, parseArgumentsWithout (scope_context single_token_scope) fuel
      ⟨[stuck_candidate], 1⟩ () = .error Fault.fuel) ∧
    (∀ fuel, parseArgumentsFor (scope_context single_token_scope) (fuel + 5) []
      [stuck_candidate] () = .ok ([stuck_candidate], ())) ∧
    stuck_candidate.active = true ∧
    stuck_candidate.it.peek = some nesting.Token.BracketOpen :=
  ⟨fun fuel => parse_loops_at_unnamed_kind (scope_context []) () nesting.Token.CommentLiteral []
      rfl fuel,
    fun fuel tuple => parseTupleInto_loops_at_unnamed_kind (scope_context []) ⟨line_comment, 0⟩
      () nesting.Token.CommentLiteral rfl rfl fuel tuple,
    fun _ => rfl, rfl,
    fun fuel => parse_loops_at_bracket fuel,
    fun fuel => parseArgumentsWithout_loops (scope_context single_token_scope) () fuel,
    fun _ => rfl, rfl, rfl⟩

/-- Claim C36, the code at the failing input. For the line `x :` `parseSingleTypedCallback`
takes the name, skips the colon and calls `parseTypeExpression` with the cursor exhausted; its
first action is `it.current()`. In the same way the line `s a =`, for `s` whose parameter `a`
is read by the `SingleToken` parser, calls `parseSingleToken` with the cursor exhausted behind
the `=`. A line that ends with an opening bracket behind a function name (`k (`) is read
without such an access. -/
theorem current_is_read_behind_last_token :
    (∀ fuel, parse (scope_context []) (fuel + 5) (one_line line_x_colon) () =
      .error Fault.invalid_read) ∧
    (⟨line_x_colon, 2⟩ : BlockLineView).valid = false ∧
    parseTypeExpression (scope_context []) () ⟨line_x_colon, 2⟩ =
      .error Fault.invalid_read ∧
    (∀ fuel, parse (scope_context single_token_scope) (fuel + 14)
      (one_line line_s_a_assign) () = .error Fault.invalid_read) ∧
    parseSingleToken (scope_context single_token_scope) ⟨line_s_a_assign, 3⟩ =
      .error Fault.invalid_read ∧
    (∀ fuel, parse (scope_context typed_scope) (fuel + 12) (one_line line_k_open) () =
      .ok (⟨[Node.Call typed_function [ArgumentAssignment.mk param_typed
        [Node.Value (ValueData.NameTypeValue (NameTypeValue.mk none none none))
          (TypeExpression.TypeInstance (scope_context_type IntrinsicKind.NameTypeValue))]]]⟩,
        ())) :=
  ⟨fun _ => rfl, rfl, rfl, fun _ => rfl, rfl, fun _ => rfl⟩

/-- Claim C37, the code at the failing input. The function `p` declares one parameter, on the
left side, so it has no right parameter; its candidate starts active (the constructor tests
`parameters.empty()`), stays active when the left operand `1` is matched, and
`parseArgumentsWithout` reads `rightParameters()[0]` of it. The lines `1 p 2` and, for `q` with
a result parameter only, `q 2` end in that read for every amount of fuel. -/
theorem param_is_read_without_right_parameters :
    left_only_function.rightParameters = [] ∧
    ((OverloadSet.ofFunction left_only_function).retireLeft
      (some (number_value "1"))).active.map (fun o => (o.active, o.nextArg)) = [(true, 0)] ∧
    ((OverloadSet.ofFunction left_only_function).retireLeft
      (some (number_value "1"))).active.map Overload.param = [.error Fault.invalid_read] ∧
    (∀ fuel, parse (scope_context sided_scope) (fuel + 12) (one_line line_1_p_2) () =
      .error Fault.invalid_read) ∧
    result_only_function.rightParameters = [] ∧
    (Overload.ofFunction result_only_function).active = true ∧
    (Overload.ofFunction result_only_function).param = .error Fault.invalid_read ∧
    (∀ fuel, parse (scope_context sided_scope) (fuel + 12) (one_line line_q_2) () =
      .error Fault.invalid_read) :=
  ⟨rfl, rfl, rfl, fun _ => rfl, rfl, rfl, rfl, fun _ => rfl⟩

/-- Claim C38, the code at the failing input. For the line `g ( 2 ) 3` with `g` unary the call
`g(a = 2)` is resolved, and `parseCall`, started on the opening bracket, returns the cursor at
index 3, which is the closing bracket itself, not the token behind it: `parseArguments` tests
the closing bracket on the caller's cursor, which `parseArgumentsWithout` never moves, and
`it = o.it` then commits the cursor of the candidate. The line is parsed to the call alone and
the `3` is lost, while the line `g 2 3` without brackets keeps it. -/
theorem cursor_stays_at_closing_bracket :
    (∀ fuel, parseCall (scope_context call_scope) (fuel + 10) none unary_function
      ⟨line_g_brackets_3, 1⟩ () =
      .ok (ParseOptions.continue_single,
        some (Node.Call unary_function [ArgumentAssignment.mk param_a [number_value "2"]]),
        ⟨line_g_brackets_3, 3⟩, ())) ∧
    (⟨line_g_brackets_3, 3⟩ : BlockLineView).peek = some nesting.Token.BracketClose ∧
    (∀ fuel, parse (scope_context call_scope) (fuel + 18) (one_line line_g_brackets_3) () =
      .ok (⟨[Node.Call unary_function [ArgumentAssignment.mk param_a [number_value "2"]]]⟩,
        ())) ∧
    (∀ fuel, parse (scope_context call_scope) (fuel + 18) (one_line line_g_2_3) () =
      .ok (⟨[Node.NameTypeValueTuple
        [NameTypeValue.mk none none
          (some (Node.Call unary_function [ArgumentAssignment.mk param_a [number_value "2"]])),
         NameTypeValue.mk none none (some (number_value "3"))]]⟩, ())) :=
  ⟨fun _ => rfl, rfl, fun _ => rfl, fun _ => rfl⟩

/-- Claim C39, the code at the failing input. For the line `g a = 1, 2` with `g` that has the
single right parameter `a`, the call that is emitted binds `a` twice: the named argument is
stored without advancing `nextArg`, so the positional argument `2` is stored for `a` again.
The `parameter` fields of the two assignments are equal. -/
theorem parameter_is_bound_twice :
    (∀ fuel, parse (scope_context call_scope) (fuel + 20) (one_line line_g_a_1_2) () =
      .ok (⟨[Node.Call unary_function
        [ArgumentAssignment.mk param_a [number_value "1"],
         ArgumentAssignment.mk param_a [number_value "2"]]]⟩, ())) ∧
    ¬ bound_once [ArgumentAssignment.mk param_a [number_value "1"],
      ArgumentAssignment.mk param_a [number_value "2"]] ∧
    unary_function.rightParameters = [param_a] := by
  refine ⟨fun _ => rfl, ?_, rfl⟩
  simp only [bound_once, List.map, List.nodup_cons, List.mem_singleton, not_and]
  intro h
  exact absurd rfl h

end parser.Parser

/-! ## Relational operators of coroutine handles -/

namespace std.experimental

/-- Claim C40, the code at the failing input. The operator `>` is written as the negation of
`<`, so `a > b` holds exactly when the address of `b` is not above the address of `a`, and
`a > a` is true; the operator `<=` is the negation of `>`, so `a <= b` holds exactly when the
address of `a` is below the address of `b`, and `a <= a` is false. The operator `>=` is the
negation of `<` as claimed. -/
theorem relational_operators_on_equal_handles :
    (∀ a b : coroutine_handle, operator_gt a b = decide (b.address ≤ a.address)) ∧
    (∀ a b : coroutine_handle, operator_le a b = decide (a.address < b.address)) ∧
    (∀ a b : coroutine_handle, operator_ge a b = decide (¬ a.address < b.address)) ∧
    (∀ a : coroutine_handle, operator_gt a a = true) ∧
    (∀ a : coroutine_handle, operator_le a a = false) ∧
    operator_gt ⟨1⟩ ⟨1⟩ = true ∧
    decide ((⟨1⟩ : coroutine_handle).address < (⟨1⟩ : coroutine_handle).address) = false ∧
    operator_le ⟨1⟩ ⟨1⟩ = false ∧
    operator_le ⟨1⟩ ⟨2⟩ = true ∧ operator_gt ⟨2⟩ ⟨1⟩ = true := by
  refine ⟨?_, ?_, ?_, ?_, ?_, by decide, by decide, by decide, by decide, by decide⟩
  · intro a b
    by_cases h : a.address < b.address
    · have h2 : ¬ b.address ≤ a.address := Nat.not_le.mpr h
      simp [operator_gt, operator_lt, h, h2]
    · have h2 : b.address ≤ a.address := Nat.le_of_not_lt h
      simp [operator_gt, operator_lt, h, h2]
  · intro a b
    by_cases h : a.address < b.address <;> simp [operator_le, operator_gt, operator_lt, h]
  · intro a b
    by_cases h : a.address < b.address <;> simp [operator_ge, operator_lt, h]
  · intro a
    simp [operator_gt, operator_lt]
  · intro a
    simp [operator_le, operator_gt, operator_lt]

end std.experimental
